import Mathlib

/-!
A block-directory deque (`src/deque.h`).

Shallow embedding of the `Deque` class and its nested `Block` class.

Conventions of the embedding.

* `size_t` values are natural numbers.  Every decrement the source performs
  without a guard of its own (`--size_`, `--count_elem_`, `size_ - 1` in
  `PopBack`, `begin_ - 1` in `Block::PushFront`, `capacity_ + ind - offset` in
  `Prev`) goes through `wsub`, which wraps modulo `2 ^ 64` exactly as the
  unsigned type does.  Additions are left unbounded: every counter is bounded
  by the number of blocks or elements held in memory.
* `std::unique_ptr<T>` is `Option T` (a null handle is `none`): the handle is
  the unique owner of its pointee, so the pointee is a value of the owner.
  `std::unique_ptr<T[]>` is a `List`; the null array handle is the empty list,
  which like the null handle has no slot that may be accessed.
* An operation whose C++ execution has undefined behaviour (a null handle
  dereferenced, an array accessed outside its bounds) or fails its `assert`
  returns `none`.
-/

set_option autoImplicit false

/-- The largest value of `size_t` plus one. -/
def SIZE_MOD : Nat := 2 ^ 64

/-- Unsigned subtraction `a - b` on `size_t`, wrapping below zero. -/
def wsub (a b : Nat) : Nat := if b ≤ a then a - b else a + SIZE_MOD - b

/-- Embeds `Deque::Block`: a fixed array `ptr_` of `max_size_` ints of which the cells
`begin_ .. begin_ + size_ - 1` are in use. -/
structure Deque.Block where
  begin_ : Nat
  size_ : Nat
  max_size_ : Nat
  ptr_ : List Int
deriving DecidableEq, Repr

/-- Embeds `class Deque`: the counters and the directory of block handles. -/
structure Deque where
  size_ : Nat
  begin_ : Nat
  capacity_ : Nat
  count_elem_ : Nat
  blocks_ : List (Option Deque.Block)
deriving DecidableEq, Repr

namespace Deque

/-- Embeds `Deque::BlockSizeBytes`. -/
def BlockSizeBytes : Nat := 512

/-- Embeds `sizeof(int)`, 4 bytes as in the specification. -/
def sizeofInt : Nat := 4

/-- Embeds `Deque::BlockSize = BlockSizeBytes / sizeof(int)`. -/
def BlockSize : Nat := BlockSizeBytes / sizeofInt

/-- Embeds `Deque::MinCapacity`. -/
def MinCapacity : Nat := 1

namespace Block

/-- Embeds `Block(size_t size)`: `make_unique<int[]>(size)` value-initialises the cells. -/
def ctor (size : Nat) : Block :=
  { begin_ := 0, size_ := 0, max_size_ := size, ptr_ := List.replicate size 0 }

/-- Embeds `Block::IsBackEmpty`. -/
def IsBackEmpty (b : Block) : Bool := decide (b.begin_ + b.size_ < b.max_size_)

/-- Embeds `Block::IsFrontEmpty`. -/
def IsFrontEmpty (b : Block) : Bool := decide (b.begin_ > 0) || decide (b.size_ = 0)

/-- Embeds `Block::Size`. -/
def Size (b : Block) : Nat := b.size_

/-- Embeds `Block::PushBack`: the write `ptr_[begin_ + size_] = elem` is undefined outside
the array. -/
def PushBack (b : Block) (elem : Int) : Option Block :=
  let begin1 := if b.size_ = 0 then 0 else b.begin_
  if begin1 + b.size_ < b.ptr_.length then
    some { b with begin_ := begin1, ptr_ := b.ptr_.set (begin1 + b.size_) elem,
                  size_ := b.size_ + 1 }
  else none

/-- Embeds `Block::PushFront`: the write `ptr_[begin_ - 1] = elem` is undefined outside the
array; then `++size_; --begin_`. -/
def PushFront (b : Block) (elem : Int) : Option Block :=
  let begin1 := if b.size_ = 0 then b.max_size_ else b.begin_
  if wsub begin1 1 < b.ptr_.length then
    some { b with ptr_ := b.ptr_.set (wsub begin1 1) elem, size_ := b.size_ + 1,
                  begin_ := wsub begin1 1 }
  else none

/-- Embeds `Block::PopBack`. -/
def PopBack (b : Block) : Block := { b with size_ := wsub b.size_ 1 }

/-- Embeds `Block::PopFront`. -/
def PopFront (b : Block) : Block :=
  { b with begin_ := b.begin_ + 1, size_ := wsub b.size_ 1 }

/-- Embeds `Block::Get` read: `ptr_[begin_ + ind]`. -/
def Get (b : Block) (ind : Nat) : Option Int := b.ptr_[b.begin_ + ind]?

/-- A write through the reference returned by the mutable `Block::Get`:
`Get(ind) = v`. -/
def assign (b : Block) (ind : Nat) (v : Int) : Option Block :=
  if b.begin_ + ind < b.ptr_.length then
    some { b with ptr_ := b.ptr_.set (b.begin_ + ind) v }
  else none

end Block

/-- Embeds `Deque::Size`. -/
def Size (d : Deque) : Nat := d.count_elem_

/-- Embeds `Deque::Next(ind, offset)`. -/
def Next (d : Deque) (ind offset : Nat) : Nat :=
  if ind + offset < d.capacity_ then ind + offset else ind + offset - d.capacity_

/-- Embeds `Deque::Prev(ind, offset)`. -/
def Prev (d : Deque) (ind offset : Nat) : Nat :=
  if ind < offset then wsub (d.capacity_ + ind) offset else ind - offset

/-- The pointee of `blocks_[ind]`, as dereferenced by `blocks_[ind]->...`: `none`
when the index is outside the directory or the handle is null. -/
def block (d : Deque) (ind : Nat) : Option Block :=
  match d.blocks_[ind]? with
  | some (some b) => some b
  | _ => none

/-- Embeds `Deque::MakeBlock`. -/
def MakeBlock (d : Deque) (ind : Nat) : Option Deque :=
  match d.blocks_[ind]? with
  | none => none
  | some none => some { d with blocks_ := d.blocks_.set ind (some (Block.ctor BlockSize)) }
  | some (some _) => some d

/-- Embeds `Deque::AnyBlockPlace`. -/
def AnyBlockPlace (d : Deque) : Bool := decide (d.size_ < d.capacity_)

/-- The loop of `Deque::SetCapacity`.  The first argument counts the iterations
left (`capacity_ - current`); `blocks` is the old directory, whose handles are
released one by one. -/
def SetCapacity.loop (d : Deque) :
    Nat → Nat → Nat → List (Option Block) → List (Option Block) → Option (List (Option Block))
  | 0, _, _, new_blocks, _ => some new_blocks
  | n + 1, current, i, new_blocks, blocks =>
    match blocks[i]? with
    | none => none
    | some h =>
      if current < new_blocks.length then
        SetCapacity.loop d n (current + 1) (d.Next i 1) (new_blocks.set current h)
          (blocks.set i none)
      else none

/-- Embeds `Deque::SetCapacity`. -/
def SetCapacity (d : Deque) (new_capacity : Nat) : Option Deque :=
  if new_capacity < d.capacity_ then none
  else
    match SetCapacity.loop d d.capacity_ 0 d.begin_ (List.replicate new_capacity none)
        d.blocks_ with
    | none => none
    | some new_blocks =>
      some { d with begin_ := 0, capacity_ := new_capacity, blocks_ := new_blocks }

/-- Embeds `Deque::DoubleCapacity`. -/
def DoubleCapacity (d : Deque) : Option Deque := d.SetCapacity (d.capacity_ * 2)

/-- Embeds `Deque::PushBlockBack`: the new state and the returned slot index. -/
def PushBlockBack (d : Deque) : Option (Deque × Nat) :=
  match (if !d.AnyBlockPlace then d.DoubleCapacity else some d) with
  | none => none
  | some d1 =>
    match d1.MakeBlock (d1.Next d1.begin_ d1.size_) with
    | none => none
    | some d2 =>
      let d3 := { d2 with size_ := d2.size_ + 1 }
      some (d3, d3.Next d3.begin_ (d3.size_ - 1))

/-- Embeds `Deque::PushBlockFront`: the new state and the returned slot index. -/
def PushBlockFront (d : Deque) : Option (Deque × Nat) :=
  match (if !d.AnyBlockPlace then d.DoubleCapacity else some d) with
  | none => none
  | some d1 =>
    let d2 := { d1 with begin_ := d1.Prev d1.begin_ 1, size_ := d1.size_ + 1 }
    match d2.MakeBlock d2.begin_ with
    | none => none
    | some d3 => some (d3, d3.begin_)

/-- The last two statements of `Deque::PushBack`:
`blocks_[ind]->PushBack(value); ++count_elem_;`. -/
def PushBack.finish (d : Deque) (ind : Nat) (value : Int) : Option Deque :=
  match d.block ind with
  | none => none
  | some b =>
    match b.PushBack value with
    | none => none
    | some b1 =>
      some { d with blocks_ := d.blocks_.set ind (some b1), count_elem_ := d.count_elem_ + 1 }

/-- Embeds `Deque::PushBack`. -/
def PushBack (d : Deque) (value : Int) : Option Deque :=
  if d.size_ = 0 then
    match d.PushBlockBack with
    | none => none
    | some (d1, ind) => PushBack.finish d1 ind value
  else
    match d.block (d.Next d.begin_ (d.size_ - 1)) with
    | none => none
    | some b =>
      if b.IsBackEmpty then PushBack.finish d (d.Next d.begin_ (d.size_ - 1)) value
      else
        match d.PushBlockBack with
        | none => none
        | some (d1, ind) => PushBack.finish d1 ind value

/-- Embeds `Deque::PopBack`. -/
def PopBack (d : Deque) : Option Deque :=
  let lst := d.Next d.begin_ (wsub d.size_ 1)
  match d.block lst with
  | none => none
  | some b =>
    let b1 := b.PopBack
    if b1.Size = 0 then
      some { d with blocks_ := d.blocks_.set lst none, size_ := wsub d.size_ 1,
                    count_elem_ := wsub d.count_elem_ 1 }
    else
      some { d with blocks_ := d.blocks_.set lst (some b1),
                    count_elem_ := wsub d.count_elem_ 1 }

/-- The last two statements of `Deque::PushFront`:
`blocks_[ind]->PushFront(value); ++count_elem_;`. -/
def PushFront.finish (d : Deque) (ind : Nat) (value : Int) : Option Deque :=
  match d.block ind with
  | none => none
  | some b =>
    match b.PushFront value with
    | none => none
    | some b1 =>
      some { d with blocks_ := d.blocks_.set ind (some b1), count_elem_ := d.count_elem_ + 1 }

/-- Embeds `Deque::PushFront`. -/
def PushFront (d : Deque) (value : Int) : Option Deque :=
  if d.size_ = 0 then
    match d.PushBlockBack with
    | none => none
    | some (d1, ind) => PushFront.finish d1 ind value
  else
    match d.block d.begin_ with
    | none => none
    | some b =>
      if b.IsFrontEmpty then PushFront.finish d d.begin_ value
      else
        match d.PushBlockFront with
        | none => none
        | some (d1, ind) => PushFront.finish d1 ind value

/-- Embeds `Deque::PopFront`. -/
def PopFront (d : Deque) : Option Deque :=
  let fst := d.begin_
  match d.block fst with
  | none => none
  | some b =>
    let b1 := b.PopFront
    if b1.Size = 0 then
      some { d with blocks_ := d.blocks_.set fst none, begin_ := d.Next d.begin_ 1,
                    size_ := wsub d.size_ 1, count_elem_ := wsub d.count_elem_ 1 }
    else
      some { d with blocks_ := d.blocks_.set fst (some b1),
                    count_elem_ := wsub d.count_elem_ 1 }

/-- Embeds `Deque::FindLocalIndex`. -/
def FindLocalIndex (d : Deque) (ind : Nat) : Option (Nat × Nat) :=
  match d.block d.begin_ with
  | none => none
  | some b =>
    if ind < b.Size then some (d.begin_, ind)
    else
      let ind1 := ind - b.Size
      let block1 := d.Next d.begin_ 1
      let full_blocks := ind1 / BlockSize
      some (d.Next block1 full_blocks, ind1 - full_blocks * BlockSize)

/-- The read-only `Deque::operator[]`. -/
def get (d : Deque) (ind : Nat) : Option Int :=
  match d.FindLocalIndex ind with
  | none => none
  | some (blk, pos) =>
    match d.block blk with
    | none => none
    | some b => b.Get pos

/-- A write through the mutable `Deque::operator[]`: `(*this)[ind] = v`. -/
def assign (d : Deque) (ind : Nat) (v : Int) : Option Deque :=
  match d.FindLocalIndex ind with
  | none => none
  | some (blk, pos) =>
    match d.block blk with
    | none => none
    | some b =>
      match b.assign pos v with
      | none => none
      | some b1 => some { d with blocks_ := d.blocks_.set blk (some b1) }

/-- The loop of `Deque::Clear`, run for at most `fuel` iterations.  The outer
`none` means that the fuel ran out with `Size() > 0` still true; the inner one that
a `PopBack` was undefined. -/
def Clear.loop : Nat → Deque → Option (Option Deque)
  | 0, d => if d.Size > 0 then none else some (some d)
  | fuel + 1, d =>
    if d.Size > 0 then
      match d.PopBack with
      | none => some none
      | some d1 => Clear.loop fuel d1
    else some (some d)

/-- The member initialisers shared by `Deque()` and `Deque(size_t)`: the four
counters are zero and `blocks_` is the null handle. -/
def init : Deque :=
  { size_ := 0, begin_ := 0, capacity_ := 0, count_elem_ := 0, blocks_ := [] }

/-- Embeds `Deque::Deque()`. -/
def ctor : Option Deque := init.SetCapacity MinCapacity

/-- The loop `for (i = 0; i < size; ++i) PushBack(0)` of `Deque(size_t)`; the
first argument counts the iterations left. -/
def ctorSize.loop : Nat → Deque → Option Deque
  | 0, d => some d
  | n + 1, d =>
    match d.PushBack 0 with
    | none => none
    | some d1 => ctorSize.loop n d1

/-- Embeds `Deque::Deque(size_t size)`. -/
def ctorSize (size : Nat) : Option Deque :=
  match init.SetCapacity (max MinCapacity (size / BlockSize + 1)) with
  | none => none
  | some d => ctorSize.loop size d

/-- The loop of the copy constructor, `(*this)[i] = rhs[i]` for `i < Size()`; the
first argument counts the iterations left (the body leaves `count_elem_` alone). -/
def ctorCopy.loop (rhs : Deque) : Nat → Nat → Deque → Option Deque
  | 0, _, d => some d
  | n + 1, i, d =>
    match rhs.get i with
    | none => none
    | some v =>
      match d.assign i v with
      | none => none
      | some d1 => ctorCopy.loop rhs n (i + 1) d1

/-- Embeds `Deque::Deque(const Deque& rhs)`. -/
def ctorCopy (rhs : Deque) : Option Deque :=
  match ctorSize rhs.Size with
  | none => none
  | some d => ctorCopy.loop rhs d.Size 0 d

/-- The loop of the initializer-list constructor: the iterator walks the list
while `i` counts up. -/
def ctorList.loop : List Int → Nat → Deque → Option Deque
  | [], _, d => some d
  | x :: rest, i, d =>
    match d.assign i x with
    | none => none
    | some d1 => ctorList.loop rest (i + 1) d1

/-- Embeds `Deque::Deque(std::initializer_list<int> list)`. -/
def ctorList (list : List Int) : Option Deque :=
  match ctorSize list.length with
  | none => none
  | some d => ctorList.loop list 0 d

/-- The defaulted `Deque::Deque(Deque&& rhs)`, member by member: the four counters
are copied and the directory handle is moved, which nulls it in the source.
Returns the new object and the source as it is left. -/
def ctorMove (rhs : Deque) : Deque × Deque :=
  ({ size_ := rhs.size_, begin_ := rhs.begin_, capacity_ := rhs.capacity_,
     count_elem_ := rhs.count_elem_, blocks_ := rhs.blocks_ },
   { rhs with blocks_ := [] })

/-- Embeds `Deque::Swap`: returns the receiver and `rhs` as they are left. -/
def Swap (d rhs : Deque) : Deque × Deque :=
  ({ size_ := rhs.size_, begin_ := rhs.begin_, capacity_ := rhs.capacity_,
     count_elem_ := rhs.count_elem_, blocks_ := rhs.blocks_ },
   { size_ := d.size_, begin_ := d.begin_, capacity_ := d.capacity_,
     count_elem_ := d.count_elem_, blocks_ := d.blocks_ })

/-- Embeds `Deque::operator=(Deque rhs)` called with an rvalue, `d = std::move(s)`: the
parameter is move-constructed from `s`, then swapped in.  Returns the receiver and
the source `s` as they are left. -/
def moveAssign (d s : Deque) : Deque × Deque :=
  let (rhs, s1) := ctorMove s
  ((d.Swap rhs).1, s1)

/-- Embeds `Deque::operator=(Deque rhs)` called with an lvalue, `d = s`: the parameter is
copy-constructed from `s`, then swapped in. -/
def copyAssign (d s : Deque) : Option Deque :=
  match ctorCopy s with
  | none => none
  | some rhs => some (d.Swap rhs).1

/-! ## Sequences of operations and the reference list model -/

/-- The four end operations, as data. -/
inductive Op where
  | PushBack (v : Int)
  | PushFront (v : Int)
  | PopBack
  | PopFront
deriving DecidableEq, Repr

/-- Whether the operation is a pop. -/
def Op.isPop : Op → Bool
  | Op.PopBack => true
  | Op.PopFront => true
  | _ => false

/-- Whether the operation is a push. -/
def Op.isPush : Op → Bool
  | Op.PushBack _ => true
  | Op.PushFront _ => true
  | _ => false

/-- The call of one end operation on the deque. -/
def apply (d : Deque) : Op → Option Deque
  | Op.PushBack v => d.PushBack v
  | Op.PushFront v => d.PushFront v
  | Op.PopBack => d.PopBack
  | Op.PopFront => d.PopFront

/-- The calls of a sequence of end operations, one after the other. -/
def run : List Op → Deque → Option Deque
  | [], d => some d
  | op :: rest, d =>
    match d.apply op with
    | none => none
    | some d1 => run rest d1

/-- Every pop of the sequence is issued in a state with `Size() > 0`.  Nothing is
asked of the operations that follow an undefined call. -/
def popsGuarded : List Op → Deque → Bool
  | [], _ => true
  | op :: rest, d =>
    (!op.isPop || decide (0 < d.Size)) &&
      (match d.apply op with
       | none => true
       | some d1 => popsGuarded rest d1)

/-- The reference deque, a list: `PushBack` appends, `PushFront` prepends, `PopBack`
drops the last element, `PopFront` drops the first. -/
def Op.model : Op → List Int → List Int
  | Op.PushBack v, L => L ++ [v]
  | Op.PushFront v, L => v :: L
  | Op.PopBack, L => L.dropLast
  | Op.PopFront, L => L.tail

/-- A sequence of operations on the reference deque. -/
def modelRun : List Op → List Int → List Int
  | [], L => L
  | op :: rest, L => modelRun rest (op.model L)

/-- The number of pushes in a sequence of operations. -/
def pushes (ops : List Op) : Nat := ops.countP Op.isPush

/-- The number of pops in a sequence of operations. -/
def pops (ops : List Op) : Nat := ops.countP Op.isPop

/-- A program that holds an original deque and a copy of it (the pair) and calls
one operation on the original: the call has access to the fields of the original
and, through its handles, to the blocks the original owns. -/
def applyOriginal (op : Op) (s : Deque × Deque) : Option (Deque × Deque) :=
  match s.1.apply op with
  | none => none
  | some d1 => some (d1, s.2)

/-- A sequence of operations called on the original of the pair. -/
def runOriginal : List Op → Deque × Deque → Option (Deque × Deque)
  | [], s => some s
  | op :: rest, s =>
    match applyOriginal op s with
    | none => none
    | some s1 => runOriginal rest s1

/-! ## Sample states -/

/-- The state of a default-constructed deque. -/
def sampleEmpty : Deque :=
  { size_ := 0, begin_ := 0, capacity_ := 1, count_elem_ := 0, blocks_ := [none] }

/-- The state of `Deque{7}`. -/
def sample7 : Deque :=
  { size_ := 1, begin_ := 0, capacity_ := 1, count_elem_ := 1,
    blocks_ := [some { begin_ := 0, size_ := 1, max_size_ := 128,
                       ptr_ := 7 :: List.replicate 127 0 }] }

/-- The state of `Deque{1, 2, 3}`. -/
def sample123 : Deque :=
  { size_ := 1, begin_ := 0, capacity_ := 1, count_elem_ := 3,
    blocks_ := [some { begin_ := 0, size_ := 3, max_size_ := 128,
                       ptr_ := 1 :: 2 :: 3 :: List.replicate 125 0 }] }

/-- The state of `Deque{1, 2, 3}` after one `PopFront()`: its block starts at cell 1. -/
def sample23 : Deque :=
  { size_ := 1, begin_ := 0, capacity_ := 1, count_elem_ := 2,
    blocks_ := [some { begin_ := 1, size_ := 2, max_size_ := 128,
                       ptr_ := 1 :: 2 :: 3 :: List.replicate 125 0 }] }

/-- The state after `PushBack(1); PushFront(2); PopBack(); PopFront()` on a
default-constructed deque: the directory has grown to two slots. -/
def sampleDrained : Deque :=
  { size_ := 0, begin_ := 0, capacity_ := 2, count_elem_ := 0, blocks_ := [none, none] }

/-! ## Abstraction: blocks and deques as lists -/

namespace Block

/-- The logical content of a block: the cells `begin_ .. begin_ + size_ - 1`. -/
def toList (b : Block) : List Int := (b.ptr_.drop b.begin_).take b.size_

/-- Well-formedness of a block of a deque. -/
structure WF (b : Block) : Prop where
  max : b.max_size_ = BlockSize
  len : b.ptr_.length = BlockSize
  bound : b.begin_ + b.size_ ≤ BlockSize

end Block

/-- The elements held by a run of blocks, in order. -/
def content (run : List Block) : List Int := (run.map Block.toList).flatten

/-- Well-formedness of the run of live blocks: every block is well formed and
nonempty, every block but the first starts at cell 0, every block but the last
ends at the last cell. -/
structure RunOK (run : List Block) : Prop where
  wf : ∀ b ∈ run, b.WF ∧ 0 < b.size_
  front : ∀ b ∈ run.tail, b.begin_ = 0
  back : ∀ b ∈ run.dropLast, b.begin_ + b.size_ = BlockSize

/-- The deque `d` holds exactly the blocks `run`, in the circular run of slots that
starts at `begin_`; every other slot is null. -/
structure Layout (d : Deque) (run : List Block) : Prop where
  len : d.blocks_.length = d.capacity_
  begin_lt : d.begin_ < d.capacity_
  size_eq : d.size_ = run.length
  size_le : run.length ≤ d.capacity_
  slots : ∀ k, k < d.capacity_ → d.blocks_[d.Next d.begin_ k]? = some run[k]?

/-- The representation invariant: `d` is laid out as the run `run` of well-formed
blocks and `count_elem_` is the number of elements they hold. -/
structure Rep (d : Deque) (run : List Block) : Prop where
  layout : Layout d run
  count : d.count_elem_ = (run.map Block.size_).sum
  ok : RunOK run

/-- The deque `d` is well formed and holds the elements `L`, in order. -/
def Abs (d : Deque) (L : List Int) : Prop := ∃ run, Rep d run ∧ content run = L

/-- The states a `Deque` object can be in: built by a constructor, then changed by
`PushBack`, `PushFront`, `PopBack` and `PopFront` (the pops on a nonempty deque),
`Clear`, and writes through `operator[]` below `Size()`.  The object built by the
move constructor or assigned to equals a state listed here; the source a move leaves
behind is not counted. -/
inductive Reachable : Deque → Prop
  | ctor {d : Deque} : Deque.ctor = some d → Reachable d
  | ctorSize {n : Nat} {d : Deque} : Deque.ctorSize n = some d → Reachable d
  | ctorList {l : List Int} {d : Deque} : Deque.ctorList l = some d → Reachable d
  | ctorCopy {rhs d : Deque} : Reachable rhs → Deque.ctorCopy rhs = some d → Reachable d
  | PushBack {d d1 : Deque} {v : Int} : Reachable d → d.PushBack v = some d1 → Reachable d1
  | PushFront {d d1 : Deque} {v : Int} : Reachable d → d.PushFront v = some d1 → Reachable d1
  | PopBack {d d1 : Deque} : Reachable d → 0 < d.Size → d.PopBack = some d1 → Reachable d1
  | PopFront {d d1 : Deque} : Reachable d → 0 < d.Size → d.PopFront = some d1 → Reachable d1
  | Clear {d d1 : Deque} {fuel : Nat} :
      Reachable d → Clear.loop fuel d = some (some d1) → Reachable d1
  | assign {d d1 : Deque} {i : Nat} {v : Int} :
      Reachable d → i < d.Size → d.assign i v = some d1 → Reachable d1

/-! ## Invariants stated on the fields of the deque -/

/-- The number of elements in a slot: `Size()` of its block, 0 for a null slot. -/
def slotSize : Option Block → Nat
  | none => 0
  | some b => b.Size

/-- The sum of `Size()` over all live blocks of the directory. -/
def liveCount (d : Deque) : Nat := (d.blocks_.map slotSize).sum

/-- The sum of `Size()` over the blocks at the run positions `0 .. k - 1`. -/
def sizeBefore (d : Deque) (k : Nat) : Nat :=
  ((List.range k).map (fun j => slotSize (d.block (d.Next d.begin_ j)))).sum

/-- Invariant B on one block: it is nonempty and `begin_ + size_ ≤ max_size_ =
BlockSize`; its array has the `max_size_` cells it was allocated with. -/
def blockOK (b : Block) : Prop :=
  0 < b.Size ∧ b.begin_ + b.size_ ≤ b.max_size_ ∧ b.max_size_ = BlockSize ∧
    b.ptr_.length = b.max_size_

/-- Invariant B on one slot: a null slot, or a block that satisfies `blockOK`. -/
def slotOK (s : Option Block) : Prop := ∀ b, s = some b → blockOK b

/-- Structural well-formedness.  The directory has the `capacity_` slots it was
allocated with; (A) `begin_ < capacity_`, `size_ ≤ capacity_`, a slot is non-null
exactly when it is `Next(begin_, k)` for some `k < size_`; (B) every block satisfies
`blockOK`; `count_elem_` is the sum of `Size()` over the live blocks. -/
def WellFormed (d : Deque) : Prop :=
  d.blocks_.length = d.capacity_ ∧ d.begin_ < d.capacity_ ∧ d.size_ ≤ d.capacity_ ∧
  (∀ j, j < d.capacity_ →
    ((d.block j).isSome = true ↔ ∃ k, k < d.size_ ∧ d.Next d.begin_ k = j)) ∧
  (∀ s ∈ d.blocks_, slotOK s) ∧
  d.count_elem_ = liveCount d

/-- Density (invariant C): every block of the run that is neither the first nor the
last has `Size() = BlockSize`. -/
def Dense (d : Deque) : Prop :=
  ∀ k, 0 < k → k + 1 < d.size_ →
    (d.block (d.Next d.begin_ k)).map Block.Size = some BlockSize

/-- Alignment: every block of the run but the first has `begin_ = 0`, and every block
of the run but the last has `begin_ + size_ = max_size_`. -/
def Aligned (d : Deque) : Prop :=
  (∀ k, 0 < k → k < d.size_ →
    (d.block (d.Next d.begin_ k)).map Block.begin_ = some 0) ∧
  (∀ k, k + 1 < d.size_ →
    ∃ b, d.block (d.Next d.begin_ k) = some b ∧ b.begin_ + b.size_ = b.max_size_)

/-- The state of `Deque(300)`: three blocks, holding 128, 128 and 44 zeros. -/
def sample300 : Deque :=
  { size_ := 3, begin_ := 0, capacity_ := 3, count_elem_ := 300,
    blocks_ := [some { begin_ := 0, size_ := 128, max_size_ := 128,
                       ptr_ := List.replicate 128 0 },
                some { begin_ := 0, size_ := 128, max_size_ := 128,
                       ptr_ := List.replicate 128 0 },
                some { begin_ := 0, size_ := 44, max_size_ := 128,
                       ptr_ := List.replicate 128 0 }] }

instance (b : Block) : Decidable (blockOK b) := by
  unfold blockOK
  infer_instance

instance (s : Option Block) : Decidable (slotOK s) := by
  cases s with
  | none => exact isTrue (by intro b h; cases h)
  | some b => exact decidable_of_iff (blockOK b) (by simp [slotOK])

instance (d : Deque) : Decidable (WellFormed d) := by
  unfold WellFormed
  infer_instance

instance (d : Deque) : Decidable (Dense d) :=
  decidable_of_iff
    (∀ k, k < d.size_ → 0 < k → k + 1 < d.size_ →
      (d.block (d.Next d.begin_ k)).map Block.Size = some BlockSize)
    ⟨fun h k h1 h2 => h k (by omega) h1 h2, fun h k _ h1 h2 => h k h1 h2⟩

/-- The deque `d` is laid out as the run `run` of well-formed, nonempty blocks and
`count_elem_` is the number of elements they hold; nothing is asked of where the
blocks begin and end. -/
structure Held (d : Deque) (run : List Block) : Prop where
  layout : Layout d run
  wf : ∀ b ∈ run, b.WF ∧ 0 < b.size_
  count : d.count_elem_ = (run.map Block.size_).sum

/-- The condition under which `PushBack` calls `PushBlockBack`: the deque has no block,
or its last block has no room at the back. -/
def needsBlockBack (d : Deque) : Bool :=
  decide (d.size_ = 0) ||
    match d.block (d.Next d.begin_ (d.size_ - 1)) with
    | some b => !b.IsBackEmpty
    | none => false

/-- The condition under which `PushFront` creates a block: the deque has no block, or
its first block has no room at the front. -/
def needsBlockFront (d : Deque) : Bool :=
  decide (d.size_ = 0) ||
    match d.block d.begin_ with
    | some b => !b.IsFrontEmpty
    | none => false

/-- The states after each call of a sequence of operations, in order. -/
def runTrace : List Op → Deque → Option (List Deque)
  | [], _ => some []
  | op :: rest, d =>
    match d.apply op with
    | none => none
    | some d1 =>
      match runTrace rest d1 with
      | none => none
      | some tr => some (d1 :: tr)

/-- The number of states of a trace whose `capacity_` is not that of the state before
(`cap` for the first): the number of calls of `DoubleCapacity` along a trace of
pushes, as a push calls it at most once, nothing else in a push assigns `capacity_`,
and doubling changes a positive capacity. -/
def growths : Nat → List Deque → Nat
  | _, [] => 0
  | cap, d :: rest => (if d.capacity_ = cap then 0 else 1) + growths d.capacity_ rest

/-- The shape of a deque filled by `PushBack` alone: every block starts at cell 0, every
block but the last is full, the capacity is `2 ^ e`, and unless `e = 0` more than half
of the slots are occupied. -/
structure BackFilled (d : Deque) (run : List Block) (e : Nat) : Prop where
  held : Held d run
  begin0 : ∀ b ∈ run, b.begin_ = 0
  full : ∀ b ∈ run.dropLast, b.size_ = 128
  cap : d.capacity_ = 2 ^ e
  half : e = 0 ∨ 2 ^ (e - 1) < run.length

end Deque

/-! ## Blocks as bounded lists -/

namespace Deque

theorem BlockSize_eq : BlockSize = 128 := by decide

theorem wsub_one_pos (a : Nat) (h : 0 < a) : wsub a 1 = a - 1 := by
  unfold wsub
  rw [if_pos (by omega)]

namespace Block

theorem toList_getElem? (b : Block) (n : Nat) :
    b.toList[n]? = if n < b.size_ then b.ptr_[b.begin_ + n]? else none := by
  simp [toList, List.getElem?_take, List.getElem?_drop]

theorem toList_length (b : Block) (h : b.WF) : b.toList.length = b.size_ := by
  have h1 := h.len
  have h2 := h.bound
  simp only [toList, List.length_take, List.length_drop]
  omega

theorem ctor_WF : (ctor BlockSize).WF := by
  constructor <;> simp [ctor]

theorem Get_eq (b : Block) (n : Nat) (h : n < b.size_) : b.Get n = b.toList[n]? := by
  rw [toList_getElem?, if_pos h]
  rfl

theorem PushBack_spec (b : Block) (v : Int) (h : b.WF) (hroom : b.IsBackEmpty = true) :
    ∃ b1, b.PushBack v = some b1 ∧ b1.WF ∧ b1.toList = b.toList ++ [v] ∧
      b1.size_ = b.size_ + 1 ∧ (0 < b.size_ → b1.begin_ = b.begin_) ∧
      (b.size_ = 0 → b1.begin_ = 0) := by
  have h1 := h.len
  have h2 := h.bound
  have h3 := h.max
  rw [BlockSize_eq] at h1 h2 h3
  simp only [IsBackEmpty, decide_eq_true_eq] at hroom
  by_cases hs : b.size_ = 0
  · refine ⟨_, by simp only [PushBack, hs, if_true]; rw [if_pos (by omega)], ?_, ?_, ?_, ?_, ?_⟩
    · constructor <;> simp [BlockSize_eq] <;> omega
    · apply List.ext_getElem?
      intro n
      simp only [toList_getElem?, hs, List.getElem?_append, toList, List.take_zero,
        List.length_nil, List.getElem?_set]
      by_cases hn : n = 0
      · subst hn; simp; exact List.getElem?_set_self (by omega)
      · have : ¬ n < 0 + 1 := by omega
        simp [this]
        cases n with
        | zero => omega
        | succ m => simp
    · simp [hs]
    · intro h0; omega
    · intro _; rfl
  · refine ⟨_, by simp only [PushBack, hs, if_false]; rw [if_pos (by omega)], ?_, ?_, ?_, ?_, ?_⟩
    · constructor <;> simp [BlockSize_eq] <;> omega
    · apply List.ext_getElem?
      intro n
      have hl := toList_length b h
      simp only [toList_getElem?, List.getElem?_append, hl, List.getElem?_set]
      by_cases hn : n < b.size_
      · have e1 : n < b.size_ + 1 := by omega
        have e2 : ¬ b.begin_ + b.size_ = b.begin_ + n := by omega
        simp [hn, e1, e2]
      · by_cases hn2 : n = b.size_
        · subst hn2
          have e3 : b.begin_ + b.size_ < b.ptr_.length := by omega
          simp [e3]
        · have e1 : ¬ n < b.size_ + 1 := by omega
          have e4 : n - b.size_ ≠ 0 := by omega
          simp [hn, e1]
          cases hk : n - b.size_ with
          | zero => omega
          | succ m => simp
    · rfl
    · intro _; rfl
    · intro h0; omega

theorem PushFront_spec (b : Block) (v : Int) (h : b.WF) (hroom : b.IsFrontEmpty = true) :
    ∃ b1, b.PushFront v = some b1 ∧ b1.WF ∧ b1.toList = v :: b.toList ∧
      b1.size_ = b.size_ + 1 ∧ (0 < b.size_ → b1.begin_ + 1 = b.begin_) ∧
      (b.size_ = 0 → b1.begin_ + 1 = BlockSize) := by
  have h1 := h.len
  have h2 := h.bound
  have h3 := h.max
  rw [BlockSize_eq] at h1 h2 h3
  simp only [IsFrontEmpty, Bool.or_eq_true, decide_eq_true_eq] at hroom
  by_cases hs : b.size_ = 0
  · have hw : wsub b.max_size_ 1 = 127 := by rw [wsub_one_pos _ (by omega)]; omega
    refine ⟨_, by simp only [PushFront, hs, if_true]; rw [if_pos (by omega)], ?_, ?_, ?_, ?_, ?_⟩
    · constructor <;> simp [BlockSize_eq, hw] <;> omega
    · apply List.ext_getElem?
      intro n
      cases n with
      | zero =>
        simp [toList_getElem?, hs, hw]
        exact List.getElem?_set_self (by omega)
      | succ m => simp [toList_getElem?, hs, toList]
    · simp [hs]
    · intro h0; omega
    · intro _; simp [hw, BlockSize_eq]
  · have hb : 0 < b.begin_ := by omega
    have hw : wsub b.begin_ 1 = b.begin_ - 1 := wsub_one_pos _ hb
    refine ⟨_, by simp only [PushFront, hs, if_false]; rw [if_pos (by omega)], ?_, ?_, ?_, ?_, ?_⟩
    · constructor <;> simp [BlockSize_eq, hw] <;> omega
    · apply List.ext_getElem?
      intro n
      cases n with
      | zero =>
        simp [toList_getElem?, hw]
        exact List.getElem?_set_self (by omega)
      | succ m =>
        have e1 : b.begin_ - 1 + (m + 1) = b.begin_ + m := by omega
        have e2 : ¬ b.begin_ - 1 = b.begin_ + m := by omega
        simp [toList_getElem?, hw, e1, List.getElem?_set, e2]
    · rfl
    · intro _; simp [hw]; omega
    · intro h0; omega

theorem PopBack_spec (b : Block) (h : b.WF) (hpos : 0 < b.size_) :
    b.PopBack.WF ∧ b.PopBack.toList = b.toList.dropLast ∧
      b.PopBack.size_ = b.size_ - 1 ∧ b.PopBack.begin_ = b.begin_ := by
  have h1 := h.len
  have h2 := h.bound
  have h3 := h.max
  rw [BlockSize_eq] at h1 h2 h3
  have hw : wsub b.size_ 1 = b.size_ - 1 := wsub_one_pos _ hpos
  refine ⟨?_, ?_, ?_, ?_⟩
  · constructor <;> simp [PopBack, BlockSize_eq, hw] <;> omega
  · apply List.ext_getElem?
    intro n
    have hl := toList_length b h
    simp only [List.getElem?_dropLast, hl, toList_getElem?]
    simp only [PopBack, hw]
    by_cases hn : n < b.size_ - 1
    · have : n < b.size_ := by omega
      simp [hn, this]
    · simp [hn]
  · simp [PopBack, hw]
  · rfl

theorem PopFront_spec (b : Block) (h : b.WF) (hpos : 0 < b.size_) :
    b.PopFront.WF ∧ b.PopFront.toList = b.toList.tail ∧
      b.PopFront.size_ = b.size_ - 1 ∧ b.PopFront.begin_ = b.begin_ + 1 := by
  have h1 := h.len
  have h2 := h.bound
  have h3 := h.max
  rw [BlockSize_eq] at h1 h2 h3
  have hw : wsub b.size_ 1 = b.size_ - 1 := wsub_one_pos _ hpos
  refine ⟨?_, ?_, ?_, ?_⟩
  · constructor <;> simp [PopFront, BlockSize_eq, hw] <;> omega
  · apply List.ext_getElem?
    intro n
    simp only [List.getElem?_tail, toList_getElem?]
    simp only [PopFront, hw]
    have e : b.begin_ + 1 + n = b.begin_ + (n + 1) := by omega
    rw [e]
    by_cases hn : n < b.size_ - 1
    · have : n + 1 < b.size_ := by omega
      simp [hn, this]
    · have : ¬ n + 1 < b.size_ := by omega
      simp [hn, this]
  · simp [PopFront, hw]
  · rfl

theorem assign_spec (b : Block) (pos : Nat) (v : Int) (h : b.WF) (hpos : pos < b.size_) :
    ∃ b1, b.assign pos v = some b1 ∧ b1.WF ∧ b1.toList = b.toList.set pos v ∧
      b1.size_ = b.size_ ∧ b1.begin_ = b.begin_ := by
  have h1 := h.len
  have h2 := h.bound
  have h3 := h.max
  rw [BlockSize_eq] at h1 h2 h3
  refine ⟨{ b with ptr_ := b.ptr_.set (b.begin_ + pos) v },
    by simp only [assign]; rw [if_pos (by omega)], ?_, ?_, rfl, rfl⟩
  · constructor <;> simp [BlockSize_eq] <;> omega
  · apply List.ext_getElem?
    intro n
    have hl := toList_length b h
    simp only [List.getElem?_set, toList_getElem?, hl]
    by_cases hn : pos = n
    · subst hn
      have e : b.begin_ + pos < b.ptr_.length := by omega
      simp [hpos, e]
    · have e : ¬ b.begin_ + pos = b.begin_ + n := by omega
      simp [hn, e]

end Block

/-! ## Directory growth and the layout of the directory -/

theorem Next_lt (d : Deque) (i k : Nat) (hi : i < d.capacity_) (hk : k ≤ d.capacity_) :
    d.Next i k < d.capacity_ := by
  unfold Next
  split_ifs <;> omega

theorem Next_inj (d : Deque) (i k j : Nat) (_hi : i < d.capacity_) (hk : k < d.capacity_)
    (hj : j < d.capacity_) (h : d.Next i k = d.Next i j) : k = j := by
  unfold Next at h
  split_ifs at h <;> omega

theorem Next_zero (d : Deque) (i : Nat) (hi : i < d.capacity_) : d.Next i 0 = i := by
  unfold Next
  split_ifs <;> omega

theorem Next_Next (d : Deque) (i a b : Nat) (hi : i < d.capacity_) (_ha : a < d.capacity_)
    (hab : a + b < d.capacity_) : d.Next (d.Next i a) b = d.Next i (a + b) := by
  unfold Next
  split_ifs <;> omega

theorem SetCapacity.loop_spec (d : Deque) :
    ∀ (n current i : Nat) (nb blocks : List (Option Block)),
      blocks.length = d.capacity_ → i < d.capacity_ → n ≤ d.capacity_ →
      current + n ≤ nb.length →
      ∃ nb1, SetCapacity.loop d n current i nb blocks = some nb1 ∧ nb1.length = nb.length ∧
        ∀ k, nb1[k]? = if current ≤ k ∧ k < current + n then blocks[d.Next i (k - current)]?
                        else nb[k]? := by
  intro n
  induction n with
  | zero =>
    intro current i nb blocks _ _ _ _
    refine ⟨nb, rfl, rfl, ?_⟩
    intro k
    rw [if_neg (by omega)]
  | succ n ih =>
    intro current i nb blocks hlen hi hn hcur
    have hget : blocks[i]? = some (blocks[i]) := List.getElem?_eq_getElem (by omega)
    have hNext : d.Next i 1 < d.capacity_ := Next_lt d i 1 hi (by omega)
    obtain ⟨nb1, h1, h2, h3⟩ := ih (current + 1) (d.Next i 1) (nb.set current blocks[i])
      (blocks.set i none) (by simp [hlen]) hNext (by omega) (by simp; omega)
    refine ⟨nb1, ?_, ?_, ?_⟩
    · simp only [SetCapacity.loop, hget]
      rw [if_pos (by omega)]
      exact h1
    · simp [h2]
    · intro k
      rw [h3 k]
      by_cases hk : current + 1 ≤ k ∧ k < current + 1 + n
      · rw [if_pos hk, if_pos (by omega)]
        have e1 : d.Next (d.Next i 1) (k - (current + 1)) = d.Next i (k - current) := by
          rw [Next_Next d i 1 _ hi (by omega) (by omega)]
          congr 1
          omega
        rw [e1, List.getElem?_set_ne]
        intro hEq
        have := Next_inj d i 0 (k - current) hi (by omega) (by omega)
          (by rw [Next_zero d i hi]; exact hEq)
        omega
      · rw [if_neg hk]
        by_cases hk2 : k = current
        · subst hk2
          rw [if_pos (by omega), List.getElem?_set_self (by omega)]
          simp [Next_zero d i hi, hget]
        · rw [if_neg (by omega), List.getElem?_set_ne (by omega)]

theorem SetCapacity_init (n : Nat) :
    init.SetCapacity n = some { size_ := 0, begin_ := 0, capacity_ := n, count_elem_ := 0,
                                blocks_ := List.replicate n none } := by
  simp [SetCapacity, SetCapacity.loop, init]

theorem Layout_fresh (n : Nat) (hn : 0 < n) :
    Layout { size_ := 0, begin_ := 0, capacity_ := n, count_elem_ := 0,
             blocks_ := List.replicate n none } [] := by
  refine ⟨by simp, hn, rfl, by simp, ?_⟩
  intro k hk
  simp only [List.getElem?_replicate, List.getElem?_nil]
  rw [if_pos]
  exact Next_lt _ 0 k hn (le_of_lt hk)

theorem RunOK_nil : RunOK [] := ⟨by simp, by simp, by simp⟩

theorem Rep_fresh (n : Nat) (hn : 0 < n) :
    Rep { size_ := 0, begin_ := 0, capacity_ := n, count_elem_ := 0,
          blocks_ := List.replicate n none } [] :=
  ⟨Layout_fresh n hn, rfl, RunOK_nil⟩

theorem SetCapacity_spec (d : Deque) (run : List Block) (new_capacity : Nat)
    (h : Layout d run) (hnew : d.capacity_ ≤ new_capacity) :
    ∃ d1, d.SetCapacity new_capacity = some d1 ∧ Layout d1 run ∧
      d1.capacity_ = new_capacity ∧
      d1.begin_ = 0 ∧ d1.size_ = d.size_ ∧ d1.count_elem_ = d.count_elem_ ∧
      ∀ k, d1.blocks_[k]? = if k < d.capacity_ then d.blocks_[d.Next d.begin_ k]?
                             else if k < new_capacity then some none else none := by
  obtain ⟨nb1, h1, h2, h3⟩ := SetCapacity.loop_spec d d.capacity_ 0 d.begin_
    (List.replicate new_capacity none) d.blocks_ h.len h.begin_lt (le_refl _) (by simp; omega)
  have hchar : ∀ k, nb1[k]? = if k < d.capacity_ then d.blocks_[d.Next d.begin_ k]?
                             else if k < new_capacity then some none else none := by
    intro k
    rw [h3 k]
    by_cases hk : k < d.capacity_
    · rw [if_pos (by omega), if_pos hk]
      rfl
    · rw [if_neg (by omega), if_neg hk, List.getElem?_replicate]
  refine ⟨{ d with begin_ := 0, capacity_ := new_capacity, blocks_ := nb1 }, ?_, ?_, rfl, rfl,
    rfl, rfl, hchar⟩
  · simp only [SetCapacity]
    rw [if_neg (by omega), h1]
  · have hcap := h.begin_lt
    refine ⟨by simp [h2], by simp; omega, h.size_eq, by have := h.size_le; simp; omega, ?_⟩
    intro k hk
    simp only at hk
    have e : Next { d with begin_ := 0, capacity_ := new_capacity, blocks_ := nb1 } 0 k = k := by
      simp [Next, hk]
    simp only at e ⊢
    rw [e, hchar k]
    by_cases hk2 : k < d.capacity_
    · rw [if_pos hk2]
      exact h.slots k hk2
    · rw [if_neg hk2, if_pos hk, List.getElem?_eq_none (by have := h.size_le; omega)]

theorem Layout.block_eq {d : Deque} {run : List Block} (h : Layout d run) (j : Nat) (b : Block)
    (hj : run[j]? = some b) : d.block (d.Next d.begin_ j) = some b := by
  have hlt : j < run.length := by
    rcases List.getElem?_eq_some.mp hj with ⟨h1, _⟩
    exact h1
  have := h.slots j (by have := h.size_le; omega)
  simp [block, this, hj]

theorem slots_update (d : Deque) (run run1 : List Block) (j : Nat) (x : Option Block)
    (h : Layout d run) (hj : j < d.capacity_)
    (hr : ∀ k, k < d.capacity_ → run1[k]? = if k = j then x else run[k]?) :
    ∀ k, k < d.capacity_ →
      (d.blocks_.set (d.Next d.begin_ j) x)[d.Next d.begin_ k]? = some run1[k]? := by
  intro k hk
  rw [hr k hk]
  by_cases hkj : k = j
  · subst hkj
    rw [if_pos rfl, List.getElem?_set_self]
    rw [h.len]
    exact Next_lt d _ _ h.begin_lt (le_of_lt hk)
  · rw [if_neg hkj, List.getElem?_set_ne]
    · exact h.slots k hk
    · intro hEq
      exact hkj (Next_inj d _ _ _ h.begin_lt hk hj hEq.symm)

theorem Layout.set {d : Deque} {run : List Block} (h : Layout d run) (j c : Nat) (b : Block)
    (hj : j < run.length) :
    Layout { d with blocks_ := d.blocks_.set (d.Next d.begin_ j) (some b), count_elem_ := c }
      (run.set j b) := by
  have hle := h.size_le
  refine ⟨by simp [h.len], h.begin_lt, by simp [h.size_eq], by simp [h.size_le], ?_⟩
  have := slots_update d run (run.set j b) j (some b) h (by omega) (by
    intro k _
    rw [List.getElem?_set]
    by_cases hkj : k = j
    · subst hkj; simp [hj]
    · have : ¬ j = k := fun e => hkj e.symm
      simp [hkj, this])
  intro k hk
  exact this k hk

theorem Layout.dropLast {d : Deque} {run : List Block} (h : Layout d run) (c : Nat)
    (hne : 0 < run.length) :
    Layout { d with blocks_ := d.blocks_.set (d.Next d.begin_ (run.length - 1)) none,
                    size_ := run.length - 1, count_elem_ := c } run.dropLast := by
  have hle := h.size_le
  refine ⟨by simp [h.len], h.begin_lt, by simp, by simp; omega, ?_⟩
  have := slots_update d run run.dropLast (run.length - 1) none h (by omega) (by
    intro k _
    rw [List.getElem?_dropLast]
    by_cases hkj : k = run.length - 1
    · subst hkj; simp
    · by_cases hk2 : k < run.length - 1
      · simp [hkj, hk2]
      · simp [hkj, hk2]
        omega)
  intro k hk
  exact this k hk

theorem Layout.append {d : Deque} {run : List Block} (h : Layout d run) (b : Block)
    (hlt : run.length < d.capacity_) :
    Layout { d with blocks_ := d.blocks_.set (d.Next d.begin_ run.length) (some b),
                    size_ := run.length + 1 } (run ++ [b]) := by
  refine ⟨by simp [h.len], h.begin_lt, by simp, by simp; omega, ?_⟩
  have := slots_update d run (run ++ [b]) run.length (some b) h hlt (by
    intro k _
    rw [List.getElem?_append]
    by_cases hkj : k = run.length
    · subst hkj; simp
    · by_cases hk2 : k < run.length
      · simp [hkj, hk2]
      · rw [if_neg hk2, if_neg hkj, List.getElem?_eq_none (l := run) (by omega),
          List.getElem?_eq_none (by simp; omega)])
  intro k hk
  exact this k hk

theorem Layout.tail {d : Deque} {run : List Block} (h : Layout d run) (c : Nat)
    (hne : 0 < run.length) :
    Layout { d with blocks_ := d.blocks_.set d.begin_ none, begin_ := d.Next d.begin_ 1,
                    size_ := run.length - 1, count_elem_ := c } run.tail := by
  have hle := h.size_le
  have hb := h.begin_lt
  have hlen := h.len
  refine ⟨by simp [h.len], Next_lt d _ _ hb (by omega), by simp, by simp; omega, ?_⟩
  intro k hk
  rw [List.getElem?_tail]
  change (d.blocks_.set d.begin_ none)[d.Next (d.Next d.begin_ 1) k]? = some run[k + 1]?
  change k < d.capacity_ at hk
  by_cases hk1 : k + 1 < d.capacity_
  · have e : d.Next (d.Next d.begin_ 1) k = d.Next d.begin_ (k + 1) := by
      unfold Next
      split_ifs <;> omega
    rw [e, List.getElem?_set_ne]
    · exact h.slots (k + 1) hk1
    · intro hEq
      have := Next_inj d d.begin_ 0 (k + 1) hb (by omega) hk1 (by rw [Next_zero d _ hb]; exact hEq)
      omega
  · have e : d.Next (d.Next d.begin_ 1) k = d.begin_ := by
      unfold Next
      split_ifs <;> omega
    rw [e, List.getElem?_set_self (by omega), List.getElem?_eq_none (by omega)]

theorem Prev_one (d : Deque) (i : Nat) (hi : i < d.capacity_) :
    d.Prev i 1 = if i = 0 then d.capacity_ - 1 else i - 1 := by
  unfold Prev wsub
  split_ifs <;> omega

theorem Layout.cons {d : Deque} {run : List Block} (h : Layout d run) (b : Block)
    (hlt : run.length < d.capacity_) :
    Layout { d with begin_ := d.Prev d.begin_ 1,
                    blocks_ := d.blocks_.set (d.Prev d.begin_ 1) (some b),
                    size_ := run.length + 1 } (b :: run) := by
  have hb := h.begin_lt
  have hlen := h.len
  have hp := Prev_one d d.begin_ hb
  have hplt : d.Prev d.begin_ 1 < d.capacity_ := by rw [hp]; split_ifs <;> omega
  refine ⟨by simp [h.len], hplt, by simp, by simp; omega, ?_⟩
  intro k hk
  change k < d.capacity_ at hk
  change (d.blocks_.set (d.Prev d.begin_ 1) (some b))[d.Next (d.Prev d.begin_ 1) k]?
    = some (b :: run)[k]?
  cases k with
  | zero =>
    rw [Next_zero d _ hplt, List.getElem?_set_self (by omega)]
    simp
  | succ m =>
    have e : d.Next (d.Prev d.begin_ 1) (m + 1) = d.Next d.begin_ m := by
      rw [hp]
      unfold Next
      split_ifs <;> omega
    rw [e, List.getElem?_set_ne, List.getElem?_cons_succ]
    · exact h.slots m (by omega)
    · rw [hp]
      unfold Next
      split_ifs <;> omega

theorem Layout.null_after {d : Deque} {run : List Block} (h : Layout d run) (k : Nat)
    (h1 : run.length ≤ k) (h2 : k < d.capacity_) :
    d.blocks_[d.Next d.begin_ k]? = some none := by
  rw [h.slots k h2, List.getElem?_eq_none h1]

theorem PushBlockBack_spec (d : Deque) (run : List Block) (h : Layout d run) :
    ∃ d1, d.PushBlockBack = some (d1, d1.Next d1.begin_ run.length) ∧
      Layout d1 (run ++ [Block.ctor BlockSize]) ∧ d1.count_elem_ = d.count_elem_ := by
  have hb := h.begin_lt
  have hle := h.size_le
  have hsz := h.size_eq
  have key : ∀ d0 : Deque, Layout d0 run → run.length < d0.capacity_ →
      ∃ d1, (match d0.MakeBlock (d0.Next d0.begin_ d0.size_) with
        | none => none
        | some d2 => some ({ d2 with size_ := d2.size_ + 1 },
            Next { d2 with size_ := d2.size_ + 1 } d2.begin_ (d2.size_ + 1 - 1)))
          = some (d1, d1.Next d1.begin_ run.length) ∧
        Layout d1 (run ++ [Block.ctor BlockSize]) ∧ d1.count_elem_ = d0.count_elem_ := by
    intro d0 h0 hlt
    have hnull := h0.null_after run.length (le_refl _) hlt
    have hs0 := h0.size_eq
    refine ⟨_, ?_, h0.append (Block.ctor BlockSize) hlt, rfl⟩
    simp only [MakeBlock, hs0, hnull]
    simp [Next]
  by_cases hfull : d.size_ < d.capacity_
  · obtain ⟨d1, e1, e2, e3⟩ := key d h (by omega)
    refine ⟨d1, ?_, e2, e3⟩
    simp only [PushBlockBack, AnyBlockPlace, hfull, decide_True, Bool.not_true]
    exact e1
  · obtain ⟨d0, f1, f2, f3, f4, f5, f6, _⟩ := SetCapacity_spec d run (d.capacity_ * 2) h (by omega)
    obtain ⟨d1, e1, e2, e3⟩ := key d0 f2 (by omega)
    refine ⟨d1, ?_, e2, by rw [e3, f6]⟩
    simp only [PushBlockBack, AnyBlockPlace, hfull, decide_False, Bool.not_false, if_true,
      DoubleCapacity, f1]
    exact e1

theorem PushBlockFront_spec (d : Deque) (run : List Block) (h : Layout d run) :
    ∃ d1, d.PushBlockFront = some (d1, d1.begin_) ∧
      Layout d1 (Block.ctor BlockSize :: run) ∧ d1.count_elem_ = d.count_elem_ := by
  have hb := h.begin_lt
  have hle := h.size_le
  have hsz := h.size_eq
  have key : ∀ d0 : Deque, Layout d0 run → run.length < d0.capacity_ →
      ∃ d1, (match MakeBlock { d0 with begin_ := d0.Prev d0.begin_ 1, size_ := d0.size_ + 1 }
            (d0.Prev d0.begin_ 1) with
        | none => none
        | some d3 => some (d3, d3.begin_))
          = some (d1, d1.begin_) ∧
        Layout d1 (Block.ctor BlockSize :: run) ∧ d1.count_elem_ = d0.count_elem_ := by
    intro d0 h0 hlt
    have hb0 := h0.begin_lt
    have hp := Prev_one d0 d0.begin_ hb0
    have hpn : d0.Prev d0.begin_ 1 = d0.Next d0.begin_ (d0.capacity_ - 1) := by
      rw [hp]
      unfold Next
      split_ifs <;> omega
    have hnull := h0.null_after (d0.capacity_ - 1) (by omega) (by omega)
    rw [← hpn] at hnull
    have hs0 := h0.size_eq
    refine ⟨_, ?_, h0.cons (Block.ctor BlockSize) hlt, rfl⟩
    simp only [MakeBlock, hs0, hnull]
  by_cases hfull : d.size_ < d.capacity_
  · obtain ⟨d1, e1, e2, e3⟩ := key d h (by omega)
    refine ⟨d1, ?_, e2, e3⟩
    simp only [PushBlockFront, AnyBlockPlace, hfull, decide_True, Bool.not_true]
    exact e1
  · obtain ⟨d0, f1, f2, f3, f4, f5, f6, _⟩ := SetCapacity_spec d run (d.capacity_ * 2) h (by omega)
    obtain ⟨d1, e1, e2, e3⟩ := key d0 f2 (by omega)
    refine ⟨d1, ?_, e2, by rw [e3, f6]⟩
    simp only [PushBlockFront, AnyBlockPlace, hfull, decide_False, Bool.not_false, if_true,
      DoubleCapacity, f1]
    exact e1

/-! ## Runs of blocks under the end operations -/

theorem content_nil : content [] = [] := rfl

theorem content_append (r1 r2 : List Block) : content (r1 ++ r2) = content r1 ++ content r2 := by
  simp [content]

theorem content_cons (b : Block) (r : List Block) : content (b :: r) = b.toList ++ content r := by
  simp [content]

theorem content_single (b : Block) : content [b] = b.toList := by
  simp [content]

theorem RunOK_single (b : Block) (h : b.WF) (hpos : 0 < b.size_) : RunOK [b] :=
  ⟨by simp [h, hpos], by simp, by simp⟩

theorem RunOK.set_last {init : List Block} {l : Block} (h : RunOK (init ++ [l])) (b : Block)
    (hwf : b.WF) (hpos : 0 < b.size_) (hb : init ≠ [] → b.begin_ = 0) :
    RunOK (init ++ [b]) := by
  obtain ⟨h1, h2, h3⟩ := h
  refine ⟨?_, ?_, ?_⟩
  · intro x hx
    rcases List.mem_append.mp hx with hx | hx
    · exact h1 x (List.mem_append_left _ hx)
    · simp only [List.mem_singleton] at hx
      subst hx
      exact ⟨hwf, hpos⟩
  · cases init with
    | nil => simp
    | cons a as =>
      intro x hx
      simp only [List.cons_append, List.tail_cons] at hx h2
      rcases List.mem_append.mp hx with hx | hx
      · exact h2 x (List.mem_append_left _ hx)
      · simp only [List.mem_singleton] at hx
        subst hx
        exact hb (by simp)
  · simpa using h3

theorem RunOK.push_last {run : List Block} (h : RunOK run) (b : Block)
    (hwf : b.WF) (hpos : 0 < b.size_) (hb : b.begin_ = 0)
    (hlast : ∀ l ∈ run.getLast?, l.begin_ + l.size_ = BlockSize) :
    RunOK (run ++ [b]) := by
  obtain ⟨h1, h2, h3⟩ := h
  refine ⟨?_, ?_, ?_⟩
  · intro x hx
    rcases List.mem_append.mp hx with hx | hx
    · exact h1 x hx
    · simp only [List.mem_singleton] at hx
      subst hx
      exact ⟨hwf, hpos⟩
  · cases run with
    | nil => simp
    | cons a as =>
      intro x hx
      simp only [List.cons_append, List.tail_cons] at hx h2
      rcases List.mem_append.mp hx with hx | hx
      · exact h2 x hx
      · simp only [List.mem_singleton] at hx
        subst hx
        exact hb
  · intro x hx
    simp only [List.dropLast_concat] at hx
    rcases List.eq_nil_or_concat run with hnil | ⟨init, l, hrun⟩
    · subst hnil; simp at hx
    · subst hrun
      simp only [List.concat_eq_append] at hx h3 hlast
      rcases List.mem_append.mp hx with hx | hx
      · exact h3 x (by simpa using hx)
      · simp only [List.mem_singleton] at hx
        subst hx
        exact hlast x (by simp)

theorem RunOK.drop_last {init : List Block} {l : Block} (h : RunOK (init ++ [l])) :
    RunOK init := by
  obtain ⟨h1, h2, h3⟩ := h
  refine ⟨?_, ?_, ?_⟩
  · intro x hx
    exact h1 x (List.mem_append_left _ hx)
  · cases init with
    | nil => simp
    | cons a as =>
      intro x hx
      simp only [List.cons_append, List.tail_cons] at hx h2
      exact h2 x (List.mem_append_left _ hx)
  · intro x hx
    simp only [List.dropLast_concat] at h3
    exact h3 x (List.mem_of_mem_dropLast hx)

theorem RunOK.set_first {f : Block} {rest : List Block} (h : RunOK (f :: rest)) (b : Block)
    (hwf : b.WF) (hpos : 0 < b.size_) (hb : rest ≠ [] → b.begin_ + b.size_ = BlockSize) :
    RunOK (b :: rest) := by
  obtain ⟨h1, h2, h3⟩ := h
  refine ⟨?_, ?_, ?_⟩
  · intro x hx
    rcases List.mem_cons.mp hx with hx | hx
    · subst hx
      exact ⟨hwf, hpos⟩
    · exact h1 x (List.mem_cons_of_mem _ hx)
  · simpa using h2
  · cases rest with
    | nil => simp
    | cons a as =>
      intro x hx
      rw [List.dropLast_cons_of_ne_nil (by simp)] at hx h3
      rcases List.mem_cons.mp hx with hx | hx
      · subst hx
        exact hb (by simp)
      · exact h3 x (List.mem_cons_of_mem _ hx)

theorem RunOK.push_first {run : List Block} (h : RunOK run) (b : Block)
    (hwf : b.WF) (hpos : 0 < b.size_) (hb : b.begin_ + b.size_ = BlockSize)
    (hfirst : ∀ f ∈ run.head?, f.begin_ = 0) :
    RunOK (b :: run) := by
  obtain ⟨h1, h2, h3⟩ := h
  refine ⟨?_, ?_, ?_⟩
  · intro x hx
    rcases List.mem_cons.mp hx with hx | hx
    · subst hx
      exact ⟨hwf, hpos⟩
    · exact h1 x hx
  · intro x hx
    simp only [List.tail_cons] at hx
    cases run with
    | nil => simp at hx
    | cons a as =>
      rcases List.mem_cons.mp hx with hx | hx
      · subst hx
        exact hfirst x (by simp)
      · exact h2 x (by simpa using hx)
  · cases run with
    | nil => simp
    | cons a as =>
      intro x hx
      rw [List.dropLast_cons_of_ne_nil (by simp)] at hx
      rcases List.mem_cons.mp hx with hx | hx
      · subst hx
        exact hb
      · exact h3 x hx

theorem RunOK.drop_first {f : Block} {rest : List Block} (h : RunOK (f :: rest)) :
    RunOK rest := by
  obtain ⟨h1, h2, h3⟩ := h
  refine ⟨?_, ?_, ?_⟩
  · intro x hx
    exact h1 x (List.mem_cons_of_mem _ hx)
  · intro x hx
    simp only [List.tail_cons] at h2
    exact h2 x (List.mem_of_mem_tail hx)
  · cases rest with
    | nil => simp
    | cons a as =>
      intro x hx
      rw [List.dropLast_cons_of_ne_nil (by simp)] at h3
      exact h3 x (List.mem_cons_of_mem _ hx)

/-! ## The four end operations preserve the representation -/

theorem PushBack.finish_back_spec (d : Deque) (run : List Block) (j : Nat) (b : Block) (v : Int)
    (h : Layout d run) (hj : run[j]? = some b) (hwf : b.WF) (hroom : b.IsBackEmpty = true) :
    ∃ d1 b1, PushBack.finish d (d.Next d.begin_ j) v = some d1 ∧ Layout d1 (run.set j b1) ∧
      d1.count_elem_ = d.count_elem_ + 1 ∧ b1.WF ∧ b1.toList = b.toList ++ [v] ∧
      b1.size_ = b.size_ + 1 ∧ (0 < b.size_ → b1.begin_ = b.begin_) ∧
      (b.size_ = 0 → b1.begin_ = 0) := by
  obtain ⟨b1, e1, e2, e3, e4, e5, e6⟩ := Block.PushBack_spec b v hwf hroom
  have hlt : j < run.length := by
    rcases List.getElem?_eq_some.mp hj with ⟨h1, _⟩
    exact h1
  refine ⟨_, b1, ?_, h.set j (d.count_elem_ + 1) b1 hlt, rfl, e2, e3, e4, e5, e6⟩
  simp only [PushBack.finish, h.block_eq j b hj, e1]

theorem PushFront.finish_front_spec (d : Deque) (run : List Block) (j : Nat) (b : Block) (v : Int)
    (h : Layout d run) (hj : run[j]? = some b) (hwf : b.WF) (hroom : b.IsFrontEmpty = true) :
    ∃ d1 b1, PushFront.finish d (d.Next d.begin_ j) v = some d1 ∧ Layout d1 (run.set j b1) ∧
      d1.count_elem_ = d.count_elem_ + 1 ∧ b1.WF ∧ b1.toList = v :: b.toList ∧
      b1.size_ = b.size_ + 1 ∧ (0 < b.size_ → b1.begin_ + 1 = b.begin_) ∧
      (b.size_ = 0 → b1.begin_ + 1 = BlockSize) := by
  obtain ⟨b1, e1, e2, e3, e4, e5, e6⟩ := Block.PushFront_spec b v hwf hroom
  have hlt : j < run.length := by
    rcases List.getElem?_eq_some.mp hj with ⟨h1, _⟩
    exact h1
  refine ⟨_, b1, ?_, h.set j (d.count_elem_ + 1) b1 hlt, rfl, e2, e3, e4, e5, e6⟩
  simp only [PushFront.finish, h.block_eq j b hj, e1]

theorem sum_sizes_append (r1 r2 : List Block) :
    ((r1 ++ r2).map Block.size_).sum = (r1.map Block.size_).sum + (r2.map Block.size_).sum := by
  simp

theorem PushBack_Rep (d : Deque) (run : List Block) (v : Int) (h : Rep d run) :
    ∃ d1 run1, d.PushBack v = some d1 ∧ Rep d1 run1 ∧ content run1 = content run ++ [v] := by
  have hctor : (Block.ctor BlockSize).IsBackEmpty = true := by decide
  rcases List.eq_nil_or_concat run with hnil | ⟨init, l, hrun⟩
  · subst hnil
    have hs : d.size_ = 0 := h.layout.size_eq
    obtain ⟨d1, e1, e2, e3⟩ := PushBlockBack_spec d [] h.layout
    obtain ⟨d2, b1, f1, f2, f3, f4, f5, f6, f7, f8⟩ := PushBack.finish_back_spec d1 _ 0
      (Block.ctor BlockSize) v e2 (by simp) Block.ctor_WF hctor
    refine ⟨d2, [b1], ?_, ⟨by simpa using f2, ?_, RunOK_single b1 f4 (by omega)⟩, ?_⟩
    · simp only [PushBack, hs, if_true, e1]
      exact f1
    · rw [f3, e3, h.count]
      simp [f6, Block.ctor]
    · rw [content_single, f5]
      simp [content, Block.toList, Block.ctor]
  · subst hrun
    rw [List.concat_eq_append] at h ⊢
    have hs : d.size_ = init.length + 1 := by simpa using h.layout.size_eq
    have hl : (init ++ [l])[init.length]? = some l := by simp
    have hlwf := h.ok.wf l (by simp)
    have hblk := h.layout.block_eq init.length l hl
    by_cases hroom : l.IsBackEmpty = true
    · obtain ⟨d2, b1, f1, f2, f3, f4, f5, f6, f7, f8⟩ := PushBack.finish_back_spec d _ init.length
        l v h.layout hl hlwf.1 hroom
      have hset : (init ++ [l]).set init.length b1 = init ++ [b1] := by simp
      rw [hset] at f2
      refine ⟨d2, init ++ [b1], ?_, ⟨f2, ?_, ?_⟩, ?_⟩
      · simp only [PushBack, hs, Nat.add_one_ne_zero, if_false, Nat.add_sub_cancel, hblk, hroom,
          if_true]
        exact f1
      · rw [f3, h.count, sum_sizes_append, sum_sizes_append]
        simp [f6]
        omega
      · refine h.ok.set_last b1 f4 (by omega) ?_
        intro hne
        rw [f7 hlwf.2]
        exact h.ok.front l (by
          cases init with
          | nil => exact absurd rfl hne
          | cons a as => simp)
      · rw [content_append, content_append, content_single, content_single, f5, List.append_assoc]
    · obtain ⟨d1, e1, e2, e3⟩ := PushBlockBack_spec d _ h.layout
      obtain ⟨d2, b1, f1, f2, f3, f4, f5, f6, f7, f8⟩ := PushBack.finish_back_spec d1 _
        (init ++ [l]).length (Block.ctor BlockSize) v e2
        (by rw [List.getElem?_append_right (le_refl _)]; simp) Block.ctor_WF hctor
      have hset : (init ++ [l] ++ [Block.ctor BlockSize]).set (init ++ [l]).length b1
          = init ++ [l] ++ [b1] := by simp
      rw [hset] at f2
      refine ⟨d2, init ++ [l] ++ [b1], ?_, ⟨f2, ?_, ?_⟩, ?_⟩
      · simp only [PushBack, hs, Nat.add_one_ne_zero, if_false, Nat.add_sub_cancel, hblk, hroom,
          e1]
        exact f1
      · rw [f3, e3, h.count, sum_sizes_append _ [b1]]
        simp [f6, Block.ctor]
      · refine h.ok.push_last b1 f4 (by omega) (f8 rfl) ?_
        intro x hx
        simp only [List.getLast?_append, List.getLast?_singleton, Option.or_some,
          Option.mem_def, Option.some.injEq] at hx
        subst hx
        have hb := hlwf.1.bound
        have hm := hlwf.1.max
        simp only [Block.IsBackEmpty, decide_eq_true_eq] at hroom
        omega
      · rw [content_append _ [b1], content_single, f5]
        simp [Block.toList, Block.ctor]

theorem PushFront_Rep (d : Deque) (run : List Block) (v : Int) (h : Rep d run) :
    ∃ d1 run1, d.PushFront v = some d1 ∧ Rep d1 run1 ∧ content run1 = v :: content run := by
  have hctor : (Block.ctor BlockSize).IsFrontEmpty = true := by decide
  cases run with
  | nil =>
    have hs : d.size_ = 0 := h.layout.size_eq
    obtain ⟨d1, e1, e2, e3⟩ := PushBlockBack_spec d [] h.layout
    obtain ⟨d2, b1, f1, f2, f3, f4, f5, f6, f7, f8⟩ := PushFront.finish_front_spec d1 _ 0
      (Block.ctor BlockSize) v e2 (by simp) Block.ctor_WF hctor
    refine ⟨d2, [b1], ?_, ⟨by simpa using f2, ?_, RunOK_single b1 f4 (by omega)⟩, ?_⟩
    · simp only [PushFront, hs, if_true, e1]
      exact f1
    · rw [f3, e3, h.count]
      simp [f6, Block.ctor]
    · rw [content_single, f5]
      simp [content, Block.toList, Block.ctor]
  | cons f rest =>
    have hs : d.size_ = rest.length + 1 := by simpa using h.layout.size_eq
    have hf : (f :: rest)[0]? = some f := by simp
    have hfwf := h.ok.wf f (by simp)
    have hblk := h.layout.block_eq 0 f hf
    have hz := Next_zero d d.begin_ h.layout.begin_lt
    rw [hz] at hblk
    by_cases hroom : f.IsFrontEmpty = true
    · obtain ⟨d2, b1, f1, f2, f3, f4, f5, f6, f7, f8⟩ := PushFront.finish_front_spec d _ 0
        f v h.layout hf hfwf.1 hroom
      rw [hz] at f1
      have hset : (f :: rest).set 0 b1 = b1 :: rest := by simp
      rw [hset] at f2
      refine ⟨d2, b1 :: rest, ?_, ⟨f2, ?_, ?_⟩, ?_⟩
      · simp only [PushFront, hs, Nat.add_one_ne_zero, if_false, hblk, hroom, if_true]
        exact f1
      · rw [f3, h.count]
        simp [f6]
        omega
      · refine h.ok.set_first b1 f4 (by omega) ?_
        intro hne
        have := h.ok.back f (by
          rw [List.dropLast_cons_of_ne_nil hne]
          simp)
        have := f7 hfwf.2
        omega
      · rw [content_cons, content_cons, f5, List.cons_append]
    · obtain ⟨d1, e1, e2, e3⟩ := PushBlockFront_spec d _ h.layout
      obtain ⟨d2, b1, f1, f2, f3, f4, f5, f6, f7, f8⟩ := PushFront.finish_front_spec d1 _
        0 (Block.ctor BlockSize) v e2 (by simp) Block.ctor_WF hctor
      rw [Next_zero d1 d1.begin_ e2.begin_lt] at f1
      have hset : (Block.ctor BlockSize :: f :: rest).set 0 b1 = b1 :: f :: rest := by simp
      rw [hset] at f2
      refine ⟨d2, b1 :: f :: rest, ?_, ⟨f2, ?_, ?_⟩, ?_⟩
      · simp only [PushFront, hs, Nat.add_one_ne_zero, if_false, hblk, hroom, e1]
        exact f1
      · rw [f3, e3, h.count]
        simp [f6, Block.ctor]
        omega
      · refine h.ok.push_first b1 f4 (by omega) ?_ ?_
        · have := f8 rfl
          have hz0 : (Block.ctor BlockSize).size_ = 0 := rfl
          omega
        · intro x hx
          simp only [List.head?_cons, Option.mem_def, Option.some.injEq] at hx
          subst hx
          simp only [Block.IsFrontEmpty, Bool.or_eq_true, decide_eq_true_eq, not_or] at hroom
          omega
      · rw [content_cons b1, f5]
        simp [Block.toList, Block.ctor]

theorem sum_sizes_pos (run : List Block) (b : Block) (hb : b ∈ run) :
    b.size_ ≤ (run.map Block.size_).sum :=
  List.single_le_sum (by simp) _ (List.mem_map_of_mem _ hb)

theorem PopBack_Rep (d : Deque) (run : List Block) (h : Rep d run) (hne : run ≠ []) :
    ∃ d1 run1, d.PopBack = some d1 ∧ Rep d1 run1 ∧ content run1 = (content run).dropLast := by
  rcases List.eq_nil_or_concat run with hnil | ⟨init, l, hrun⟩
  · exact absurd hnil hne
  · subst hrun
    rw [List.concat_eq_append] at h ⊢
    have hs : d.size_ = init.length + 1 := by simpa using h.layout.size_eq
    have hl : (init ++ [l])[init.length]? = some l := by simp
    have hlwf := h.ok.wf l (by simp)
    have hblk := h.layout.block_eq init.length l hl
    obtain ⟨p1, p2, p3, p4⟩ := Block.PopBack_spec l hlwf.1 hlwf.2
    have hcnt : d.count_elem_ = (init.map Block.size_).sum + l.size_ := by
      rw [h.count, sum_sizes_append]; simp
    have hw1 : wsub d.size_ 1 = init.length := by rw [wsub_one_pos _ (by omega)]; omega
    have hw2 : wsub d.count_elem_ 1 = d.count_elem_ - 1 := wsub_one_pos _ (by omega)
    have hlne : l.toList ≠ [] := by
      intro hnil
      have := Block.toList_length l hlwf.1
      rw [hnil] at this
      simp at this
      omega
    have hcontent : ∀ r, content r = content init ++ l.PopBack.toList →
        content r = (content (init ++ [l])).dropLast := by
      intro r hr
      rw [hr, content_append, content_single, List.dropLast_append_of_ne_nil _ hlne, p2]
    by_cases hz : l.PopBack.Size = 0
    · have hlay := h.layout.dropLast (d.count_elem_ - 1) (by simp)
      simp only [List.length_append, List.length_singleton, Nat.add_sub_cancel,
        List.dropLast_concat] at hlay
      refine ⟨_, init, ?_, ⟨hlay, ?_, h.ok.drop_last⟩, ?_⟩
      · simp only [PopBack, hw1, hblk, hz, if_true, hw2]
      · simp only [hcnt]
        have : l.size_ = 1 := by
          simp only [Block.Size] at hz
          omega
        omega
      · apply hcontent
        have : l.PopBack.toList = [] := by
          have := Block.toList_length _ p1
          simp only [Block.Size] at hz
          rw [hz] at this
          exact List.length_eq_zero.mp this
        rw [this, List.append_nil]
    · have hlay := h.layout.set init.length (d.count_elem_ - 1) l.PopBack (by simp)
      have hset : (init ++ [l]).set init.length l.PopBack = init ++ [l.PopBack] := by simp
      rw [hset] at hlay
      refine ⟨_, init ++ [l.PopBack], ?_, ⟨hlay, ?_, ?_⟩, ?_⟩
      · simp only [PopBack, hw1, hblk, hz, if_false, hw2]
      · simp only [hcnt, sum_sizes_append]
        simp [p3]
        omega
      · refine h.ok.set_last l.PopBack p1 (by simp only [Block.Size] at hz; omega) ?_
        intro hne2
        rw [p4]
        exact h.ok.front l (by
          cases init with
          | nil => exact absurd rfl hne2
          | cons a as => simp)
      · apply hcontent
        rw [content_append, content_single]

theorem PopFront_Rep (d : Deque) (run : List Block) (h : Rep d run) (hne : run ≠ []) :
    ∃ d1 run1, d.PopFront = some d1 ∧ Rep d1 run1 ∧ content run1 = (content run).tail := by
  cases run with
  | nil => exact absurd rfl hne
  | cons f rest =>
    have hs : d.size_ = rest.length + 1 := by simpa using h.layout.size_eq
    have hf : (f :: rest)[0]? = some f := by simp
    have hfwf := h.ok.wf f (by simp)
    have hblk := h.layout.block_eq 0 f hf
    have hzero := Next_zero d d.begin_ h.layout.begin_lt
    rw [hzero] at hblk
    obtain ⟨p1, p2, p3, p4⟩ := Block.PopFront_spec f hfwf.1 hfwf.2
    have hcnt : d.count_elem_ = f.size_ + (rest.map Block.size_).sum := by
      rw [h.count]; simp
    have hw1 : wsub d.size_ 1 = rest.length := by rw [wsub_one_pos _ (by omega)]; omega
    have hw2 : wsub d.count_elem_ 1 = d.count_elem_ - 1 := wsub_one_pos _ (by omega)
    have hfne : f.toList ≠ [] := by
      intro hnil
      have := Block.toList_length f hfwf.1
      rw [hnil] at this
      simp at this
      omega
    have hcontent : ∀ r, content r = f.PopFront.toList ++ content rest →
        content r = (content (f :: rest)).tail := by
      intro r hr
      rw [hr, content_cons, List.tail_append_of_ne_nil hfne, p2]
    by_cases hz : f.PopFront.Size = 0
    · have hlay := h.layout.tail (d.count_elem_ - 1) (by simp)
      simp only [List.length_cons, Nat.add_sub_cancel, List.tail_cons] at hlay
      refine ⟨_, rest, ?_, ⟨hlay, ?_, h.ok.drop_first⟩, ?_⟩
      · simp only [PopFront, hw1, hblk, hz, if_true, hw2]
      · simp only [hcnt]
        have : f.size_ = 1 := by
          simp only [Block.Size] at hz
          omega
        omega
      · apply hcontent
        have : f.PopFront.toList = [] := by
          have := Block.toList_length _ p1
          simp only [Block.Size] at hz
          rw [hz] at this
          exact List.length_eq_zero.mp this
        rw [this, List.nil_append]
    · have hlay := h.layout.set 0 (d.count_elem_ - 1) f.PopFront (by simp)
      have hset : (f :: rest).set 0 f.PopFront = f.PopFront :: rest := by simp
      rw [hset, hzero] at hlay
      refine ⟨_, f.PopFront :: rest, ?_, ⟨hlay, ?_, ?_⟩, ?_⟩
      · simp only [PopFront, hw1, hblk, hz, if_false, hw2]
      · simp only [hcnt]
        simp [p3]
        omega
      · refine h.ok.set_first f.PopFront p1 (by simp only [Block.Size] at hz; omega) ?_
        intro hne2
        have := h.ok.back f (by
          rw [List.dropLast_cons_of_ne_nil hne2]
          simp)
        omega
      · apply hcontent
        rw [content_cons]

/-! ## Index translation -/

theorem RunOK_iff (run : List Block) :
    RunOK run ↔ ∀ k b, run[k]? = some b →
      b.WF ∧ 0 < b.size_ ∧ (0 < k → b.begin_ = 0) ∧
        (k + 1 < run.length → b.begin_ + b.size_ = BlockSize) := by
  constructor
  · intro h k b hk
    have hlt : k < run.length := by
      rcases List.getElem?_eq_some.mp hk with ⟨h1, _⟩
      exact h1
    refine ⟨(h.wf b (List.getElem?_mem hk)).1, (h.wf b (List.getElem?_mem hk)).2, ?_, ?_⟩
    · intro hpos
      apply h.front b
      apply List.getElem?_mem (n := k - 1)
      rw [List.getElem?_tail]
      have : k - 1 + 1 = k := by omega
      rw [this]
      exact hk
    · intro hlast
      apply h.back b
      apply List.getElem?_mem (n := k)
      rw [List.getElem?_dropLast, if_pos (by omega)]
      exact hk
  · intro h
    refine ⟨?_, ?_, ?_⟩
    · intro b hb
      obtain ⟨k, hk⟩ := List.mem_iff_getElem?.mp hb
      exact ⟨(h k b hk).1, (h k b hk).2.1⟩
    · intro b hb
      obtain ⟨k, hk⟩ := List.mem_iff_getElem?.mp hb
      rw [List.getElem?_tail] at hk
      exact (h (k + 1) b hk).2.2.1 (by omega)
    · intro b hb
      obtain ⟨k, hk⟩ := List.mem_iff_getElem?.mp hb
      rw [List.getElem?_dropLast] at hk
      by_cases hlt : k < run.length - 1
      · rw [if_pos hlt] at hk
        exact (h k b hk).2.2.2 (by omega)
      · rw [if_neg hlt] at hk
        cases hk

theorem content_length (run : List Block) (h : ∀ b ∈ run, b.WF) :
    (content run).length = (run.map Block.size_).sum := by
  induction run with
  | nil => rfl
  | cons a as ih =>
    rw [content_cons, List.length_append, Block.toList_length a (h a (by simp)),
      ih (fun b hb => h b (List.mem_cons_of_mem _ hb))]
    simp

theorem locate_tail (v : Int) : ∀ (rest : List Block) (j : Nat),
    (∀ b ∈ rest, b.WF ∧ b.begin_ = 0) → (∀ b ∈ rest.dropLast, b.size_ = 128) →
    j < (content rest).length →
    ∃ b, rest[j / 128]? = some b ∧ j % 128 < b.size_ ∧
      (content rest)[j]? = b.toList[j % 128]? ∧
      ∀ b1 : Block, b1.toList = b.toList.set (j % 128) v →
        content (rest.set (j / 128) b1) = (content rest).set j v := by
  intro rest
  induction rest with
  | nil =>
    intro j _ _ hj
    simp [content] at hj
  | cons a as ih =>
    intro j h1 h2 hj
    have hawf := (h1 a (by simp)).1
    have hal := Block.toList_length a hawf
    have hab := hawf.bound
    rw [BlockSize_eq] at hab
    rw [content_cons, List.length_append, hal] at hj
    by_cases hlt : j < a.size_
    · have e1 : j / 128 = 0 := by omega
      have e2 : j % 128 = j := by omega
      refine ⟨a, by rw [e1]; simp, by omega, ?_, ?_⟩
      · rw [e2, content_cons, List.getElem?_append_left (by omega)]
      · intro b1 hb1
        rw [e1, e2] at *
        rw [List.set_cons_zero, content_cons, content_cons, hb1, List.set_append,
          if_pos (by omega)]
    · have hasne : as ≠ [] := by
        intro hnil
        subst hnil
        simp [content] at hj
        omega
      have ha128 : a.size_ = 128 := h2 a (by
        rw [List.dropLast_cons_of_ne_nil hasne]
        simp)
      obtain ⟨b, q1, q2, q3, q4⟩ := ih (j - 128)
        (fun b hb => h1 b (List.mem_cons_of_mem _ hb))
        (fun b hb => h2 b (by
          rw [List.dropLast_cons_of_ne_nil hasne]
          exact List.mem_cons_of_mem _ hb))
        (by omega)
      have e1 : j / 128 = (j - 128) / 128 + 1 := by omega
      have e2 : j % 128 = (j - 128) % 128 := by omega
      refine ⟨b, by rw [e1, List.getElem?_cons_succ]; exact q1, by omega, ?_, ?_⟩
      · rw [e2, content_cons, List.getElem?_append_right (by omega), hal, ha128]
        exact q3
      · intro b1 hb1
        rw [e2] at hb1
        rw [e1, List.set_cons_succ, content_cons, content_cons, q4 b1 hb1, List.set_append,
          if_neg (by omega), hal, ha128]

theorem Rep.count_eq {d : Deque} {run : List Block} (h : Rep d run) :
    d.Size = (content run).length := by
  rw [content_length run (fun b hb => (h.ok.wf b hb).1)]
  exact h.count

theorem locate (d : Deque) (run : List Block) (i : Nat) (v : Int) (h : Rep d run)
    (hi : i < (content run).length) :
    ∃ slot pos k b, d.FindLocalIndex i = some (slot, pos) ∧ slot = d.Next d.begin_ k ∧
      run[k]? = some b ∧ pos < b.size_ ∧ (content run)[i]? = b.toList[pos]? ∧
      ∀ b1 : Block, b1.toList = b.toList.set pos v →
        content (run.set k b1) = (content run).set i v := by
  cases run with
  | nil => simp [content] at hi
  | cons f rest =>
    have hf : (f :: rest)[0]? = some f := by simp
    have hfwf := h.ok.wf f (by simp)
    have hfl := Block.toList_length f hfwf.1
    have hblk := h.layout.block_eq 0 f hf
    have hzero := Next_zero d d.begin_ h.layout.begin_lt
    rw [hzero] at hblk
    by_cases hlt : i < f.size_
    · refine ⟨d.begin_, i, 0, f, ?_, hzero.symm, hf, hlt, ?_, ?_⟩
      · simp only [FindLocalIndex, hblk, Block.Size, hlt, if_true]
      · rw [content_cons, List.getElem?_append_left (by omega)]
      · intro b1 hb1
        rw [List.set_cons_zero, content_cons, content_cons, hb1, List.set_append,
          if_pos (by omega)]
    · rw [content_cons, List.length_append, hfl] at hi
      have hrestne : rest ≠ [] := by
        intro hnil
        subst hnil
        simp [content] at hi
        omega
      obtain ⟨b, q1, q2, q3, q4⟩ := locate_tail v rest (i - f.size_)
        (fun b hb => ⟨(h.ok.wf b (List.mem_cons_of_mem _ hb)).1, h.ok.front b (by simpa using hb)⟩)
        (fun b hb => by
          have hb0 : b.begin_ = 0 := h.ok.front b (by simpa using List.mem_of_mem_dropLast hb)
          have := h.ok.back b (by
            rw [List.dropLast_cons_of_ne_nil hrestne]
            exact List.mem_cons_of_mem _ hb)
          rw [BlockSize_eq] at this
          omega)
        (by omega)
      have hk : (i - f.size_) / 128 < rest.length := by
        rcases List.getElem?_eq_some.mp q1 with ⟨h1, _⟩
        exact h1
      have hcap := h.layout.size_le
      simp only [List.length_cons] at hcap
      refine ⟨d.Next d.begin_ ((i - f.size_) / 128 + 1), (i - f.size_) % 128,
        (i - f.size_) / 128 + 1, b, ?_, rfl, by rw [List.getElem?_cons_succ]; exact q1, q2, ?_, ?_⟩
      · simp only [FindLocalIndex, hblk, Block.Size, hlt, if_false, BlockSize_eq]
        rw [Next_Next d d.begin_ 1 _ h.layout.begin_lt (by omega) (by omega)]
        have e1 : 1 + (i - f.size_) / 128 = (i - f.size_) / 128 + 1 := by omega
        have e2 : i - f.size_ - (i - f.size_) / 128 * 128 = (i - f.size_) % 128 := by omega
        rw [e1, e2]
      · rw [content_cons, List.getElem?_append_right (by omega), hfl]
        exact q3
      · intro b1 hb1
        rw [List.set_cons_succ, content_cons, content_cons, q4 b1 hb1, List.set_append,
          if_neg (by omega), hfl]

theorem map_size_set (run : List Block) (k : Nat) (b b1 : Block) (hk : run[k]? = some b)
    (hs : b1.size_ = b.size_) : (run.set k b1).map Block.size_ = run.map Block.size_ := by
  apply List.ext_getElem?
  intro n
  simp only [List.getElem?_map, List.getElem?_set]
  by_cases hkn : k = n
  · subst hkn
    have hlt : k < run.length := by
      rcases List.getElem?_eq_some.mp hk with ⟨h1, _⟩
      exact h1
    simp [hlt, hk, hs]
  · simp [hkn]

theorem RunOK.set_same {run : List Block} (h : RunOK run) (k : Nat) (b b1 : Block)
    (hk : run[k]? = some b) (hwf : b1.WF) (hs : b1.size_ = b.size_)
    (hb : b1.begin_ = b.begin_) : RunOK (run.set k b1) := by
  rw [RunOK_iff] at h ⊢
  intro n x hx
  rw [List.getElem?_set] at hx
  rw [List.length_set]
  by_cases hkn : k = n
  · subst hkn
    have hlt : k < run.length := by
      rcases List.getElem?_eq_some.mp hk with ⟨h1, _⟩
      exact h1
    simp only [if_true, hlt, Option.some.injEq] at hx
    subst hx
    obtain ⟨_, h2, h3, h4⟩ := h k b hk
    exact ⟨hwf, by omega, fun hp => by rw [hb]; exact h3 hp,
      fun hp => by rw [hb, hs]; exact h4 hp⟩
  · rw [if_neg hkn] at hx
    exact h n x hx

theorem get_Rep (d : Deque) (run : List Block) (i : Nat) (h : Rep d run)
    (hi : i < (content run).length) : d.get i = (content run)[i]? := by
  obtain ⟨slot, pos, k, b, e1, e2, e3, e4, e5, _⟩ := locate d run i 0 h hi
  simp only [get, e1, e2, h.layout.block_eq k b e3, Block.Get_eq b pos e4, e5]

theorem assign_Rep (d : Deque) (run : List Block) (i : Nat) (v : Int) (h : Rep d run)
    (hi : i < (content run).length) :
    ∃ d1 run1, d.assign i v = some d1 ∧ Rep d1 run1 ∧ content run1 = (content run).set i v := by
  obtain ⟨slot, pos, k, b, e1, e2, e3, e4, _, e6⟩ := locate d run i v h hi
  have hbwf := (h.ok.wf b (List.getElem?_mem e3)).1
  obtain ⟨b1, a1, a2, a3, a4, a5⟩ := Block.assign_spec b pos v hbwf e4
  have hlt : k < run.length := by
    rcases List.getElem?_eq_some.mp e3 with ⟨h1, _⟩
    exact h1
  refine ⟨_, run.set k b1, ?_, ⟨h.layout.set k d.count_elem_ b1 hlt, ?_, ?_⟩, e6 b1 a3⟩
  · simp only [assign, e1, e2, h.layout.block_eq k b e3, a1]
  · rw [map_size_set run k b b1 e3 a4]
    exact h.count
  · exact h.ok.set_same k b b1 e3 a2 a4 a5

/-! ## The abstract view: a deque as the list of its elements -/

theorem Abs.Size_eq {d : Deque} {L : List Int} (h : Abs d L) : d.Size = L.length := by
  obtain ⟨run, h1, h2⟩ := h
  rw [← h2]
  exact h1.count_eq

theorem Abs.PushBack {d : Deque} {L : List Int} (h : Abs d L) (v : Int) :
    ∃ d1, d.PushBack v = some d1 ∧ Abs d1 (L ++ [v]) := by
  obtain ⟨run, h1, h2⟩ := h
  obtain ⟨d1, run1, e1, e2, e3⟩ := PushBack_Rep d run v h1
  exact ⟨d1, e1, run1, e2, by rw [e3, h2]⟩

theorem Abs.PushFront {d : Deque} {L : List Int} (h : Abs d L) (v : Int) :
    ∃ d1, d.PushFront v = some d1 ∧ Abs d1 (v :: L) := by
  obtain ⟨run, h1, h2⟩ := h
  obtain ⟨d1, run1, e1, e2, e3⟩ := PushFront_Rep d run v h1
  exact ⟨d1, e1, run1, e2, by rw [e3, h2]⟩

theorem Abs.PopBack {d : Deque} {L : List Int} (h : Abs d L) (hpos : 0 < d.Size) :
    ∃ d1, d.PopBack = some d1 ∧ Abs d1 L.dropLast := by
  have hsz := h.Size_eq
  obtain ⟨run, h1, h2⟩ := h
  have hne : run ≠ [] := by
    intro hnil
    subst hnil
    rw [← h2] at hsz
    simp [content] at hsz
    omega
  obtain ⟨d1, run1, e1, e2, e3⟩ := PopBack_Rep d run h1 hne
  exact ⟨d1, e1, run1, e2, by rw [e3, h2]⟩

theorem Abs.PopFront {d : Deque} {L : List Int} (h : Abs d L) (hpos : 0 < d.Size) :
    ∃ d1, d.PopFront = some d1 ∧ Abs d1 L.tail := by
  have hsz := h.Size_eq
  obtain ⟨run, h1, h2⟩ := h
  have hne : run ≠ [] := by
    intro hnil
    subst hnil
    rw [← h2] at hsz
    simp [content] at hsz
    omega
  obtain ⟨d1, run1, e1, e2, e3⟩ := PopFront_Rep d run h1 hne
  exact ⟨d1, e1, run1, e2, by rw [e3, h2]⟩

theorem Abs.get {d : Deque} {L : List Int} (h : Abs d L) (i : Nat) (hi : i < L.length) :
    d.get i = L[i]? := by
  obtain ⟨run, h1, h2⟩ := h
  subst h2
  exact get_Rep d run i h1 hi

theorem Abs.assign {d : Deque} {L : List Int} (h : Abs d L) (i : Nat) (v : Int)
    (hi : i < L.length) : ∃ d1, d.assign i v = some d1 ∧ Abs d1 (L.set i v) := by
  obtain ⟨run, h1, h2⟩ := h
  subst h2
  obtain ⟨d1, run1, e1, e2, e3⟩ := assign_Rep d run i v h1 hi
  exact ⟨d1, e1, run1, e2, e3⟩

theorem Abs_fresh (n : Nat) (hn : 0 < n) :
    Abs { size_ := 0, begin_ := 0, capacity_ := n, count_elem_ := 0,
          blocks_ := List.replicate n none } [] :=
  ⟨[], Rep_fresh n hn, rfl⟩

theorem ctor_eq : ctor = some { size_ := 0, begin_ := 0, capacity_ := 1, count_elem_ := 0,
                                blocks_ := [none] } := by
  rw [ctor, SetCapacity_init]
  rfl

theorem ctor_Abs : ∃ d, ctor = some d ∧ Abs d [] :=
  ⟨_, SetCapacity_init _, Abs_fresh _ (by decide)⟩

theorem ctorSize.loop_pushes_zeros : ∀ (n : Nat) (d : Deque) (L : List Int), Abs d L →
    ∃ d1, ctorSize.loop n d = some d1 ∧ Abs d1 (L ++ List.replicate n 0) := by
  intro n
  induction n with
  | zero =>
    intro d L h
    exact ⟨d, rfl, by simpa using h⟩
  | succ n ih =>
    intro d L h
    obtain ⟨d1, e1, e2⟩ := h.PushBack 0
    obtain ⟨d2, f1, f2⟩ := ih d1 _ e2
    refine ⟨d2, by simp only [ctorSize.loop, e1]; exact f1, ?_⟩
    have e : L ++ List.replicate (n + 1) 0 = L ++ [0] ++ List.replicate n 0 := by
      simp [List.replicate_succ]
    rw [e]
    exact f2

theorem ctorSize_Abs (n : Nat) : ∃ d, ctorSize n = some d ∧ Abs d (List.replicate n 0) := by
  have h0 := Abs_fresh (max MinCapacity (n / BlockSize + 1)) (by
    simp [MinCapacity])
  obtain ⟨d1, e1, e2⟩ := ctorSize.loop_pushes_zeros n _ [] h0
  refine ⟨d1, ?_, by simpa using e2⟩
  simp only [ctorSize, SetCapacity_init]
  exact e1

theorem ctorList.loop_writes_list (L : List Int) : ∀ (xs : List Int) (i : Nat) (d : Deque)
    (M : List Int), Abs d M → M.length = L.length → (∀ j, j < i → M[j]? = L[j]?) →
    xs = L.drop i → ∃ d1, ctorList.loop xs i d = some d1 ∧ Abs d1 L := by
  intro xs
  induction xs with
  | nil =>
    intro i d M h hlen hpre hxs
    refine ⟨d, rfl, ?_⟩
    have hi : L.length ≤ i := by
      have := congrArg List.length hxs
      simp at this
      omega
    have : M = L := by
      apply List.ext_getElem?
      intro j
      by_cases hj : j < i
      · exact hpre j hj
      · rw [List.getElem?_eq_none (by omega), List.getElem?_eq_none (by omega)]
    rw [← this]
    exact h
  | cons x rest ih =>
    intro i d M h hlen hpre hxs
    have hi : i < L.length := by
      have := congrArg List.length hxs
      simp at this
      omega
    have hx : L[i]? = some x := by
      have := congrArg (fun l => l[0]?) hxs
      simp only [List.getElem?_cons_zero, List.getElem?_drop, Nat.add_zero] at this
      exact this.symm
    obtain ⟨d1, e1, e2⟩ := h.assign i x (by omega)
    obtain ⟨d2, f1, f2⟩ := ih (i + 1) d1 (M.set i x) e2 (by simp [hlen]) (by
      intro j hj
      rw [List.getElem?_set]
      by_cases hji : i = j
      · subst hji
        rw [if_pos rfl, if_pos (by omega), hx]
      · rw [if_neg hji]
        exact hpre j (by omega)) (by
      have := congrArg List.tail hxs
      simpa using this)
    exact ⟨d2, by simp only [ctorList.loop, e1]; exact f1, f2⟩

theorem ctorList_Abs (L : List Int) : ∃ d, ctorList L = some d ∧ Abs d L := by
  obtain ⟨d0, e1, e2⟩ := ctorSize_Abs L.length
  obtain ⟨d1, f1, f2⟩ := ctorList.loop_writes_list L L 0 d0 _ e2 (by simp) (by intro j hj; omega) (by simp)
  exact ⟨d1, by simp only [ctorList, e1]; exact f1, f2⟩

theorem ctorCopy.loop_copies (rhs : Deque) (L : List Int) (hr : Abs rhs L) :
    ∀ (n i : Nat) (d : Deque) (M : List Int), Abs d M → M.length = L.length →
    (∀ j, j < i → M[j]? = L[j]?) → i + n = L.length →
    ∃ d1, ctorCopy.loop rhs n i d = some d1 ∧ Abs d1 L := by
  intro n
  induction n with
  | zero =>
    intro i d M h hlen hpre hn
    refine ⟨d, rfl, ?_⟩
    have : M = L := by
      apply List.ext_getElem?
      intro j
      by_cases hj : j < i
      · exact hpre j hj
      · rw [List.getElem?_eq_none (by omega), List.getElem?_eq_none (by omega)]
    rw [← this]
    exact h
  | succ n ih =>
    intro i d M h hlen hpre hn
    have hg := hr.get i (by omega)
    rw [List.getElem?_eq_getElem (by omega)] at hg
    obtain ⟨d1, e1, e2⟩ := h.assign i (L[i]) (by omega)
    obtain ⟨d2, f1, f2⟩ := ih (i + 1) d1 (M.set i (L[i])) e2 (by simp [hlen]) (by
      intro j hj
      rw [List.getElem?_set]
      by_cases hji : i = j
      · subst hji
        rw [if_pos rfl, if_pos (by omega), List.getElem?_eq_getElem]
      · rw [if_neg hji]
        exact hpre j (by omega)) (by omega)
    exact ⟨d2, by simp only [ctorCopy.loop, hg, e1]; exact f1, f2⟩

theorem ctorCopy_Abs (rhs : Deque) (L : List Int) (hr : Abs rhs L) :
    ∃ d, ctorCopy rhs = some d ∧ Abs d L := by
  obtain ⟨d0, e1, e2⟩ := ctorSize_Abs rhs.Size
  have hsz := e2.Size_eq
  simp only [List.length_replicate] at hsz
  obtain ⟨d1, f1, f2⟩ := ctorCopy.loop_copies rhs L hr d0.Size 0 d0 _ e2
    (by simp [hr.Size_eq]) (by intro j hj; omega) (by rw [hsz, hr.Size_eq]; omega)
  exact ⟨d1, by simp only [ctorCopy, e1]; exact f1, f2⟩

theorem Clear.loop_drains : ∀ (fuel : Nat) (d : Deque) (L : List Int), Abs d L →
    (d.Size ≤ fuel → ∃ d1, Clear.loop fuel d = some (some d1) ∧ Abs d1 [] ∧
        d1.capacity_ = d.capacity_) ∧
    (fuel < d.Size → Clear.loop fuel d = none) := by
  intro fuel
  induction fuel with
  | zero =>
    intro d L h
    constructor
    · intro hle
      have hz : d.Size = 0 := by omega
      have hL : L = [] := by
        have := h.Size_eq
        rw [hz] at this
        exact List.length_eq_zero.mp this.symm
      subst hL
      exact ⟨d, by simp [Clear.loop, hz], h, rfl⟩
    · intro hlt
      simp [Clear.loop, hlt]
  | succ fuel ih =>
    intro d L h
    by_cases hz : 0 < d.Size
    · obtain ⟨d1, e1, e2⟩ := h.PopBack hz
      have hsz1 := e2.Size_eq
      have hsz := h.Size_eq
      simp only [List.length_dropLast] at hsz1
      have hcap : d1.capacity_ = d.capacity_ := by
        simp only [PopBack] at e1
        split at e1
        · cases e1
        · split at e1 <;> cases e1 <;> rfl
      constructor
      · intro hle
        have hd1 : d1.Size ≤ fuel := by omega
        obtain ⟨d2, f1, f2, f3⟩ := (ih d1 _ e2).1 hd1
        exact ⟨d2, by simp only [Clear.loop, hz, if_true, e1]; exact f1, f2, by rw [f3, hcap]⟩
      · intro hlt
        have hd1 : fuel < d1.Size := by omega
        simp only [Clear.loop, hz, if_true, e1]
        exact (ih d1 _ e2).2 hd1
    · have hz0 : d.Size = 0 := by omega
      have hL : L = [] := by
        have := h.Size_eq
        rw [hz0] at this
        exact List.length_eq_zero.mp this.symm
      subst hL
      constructor
      · intro _
        exact ⟨d, by simp [Clear.loop, hz0], h, rfl⟩
      · intro hlt
        omega

theorem Clear.loop_some_Abs (fuel : Nat) (d d1 : Deque) (L : List Int) (h : Abs d L)
    (hc : Clear.loop fuel d = some (some d1)) : Abs d1 [] := by
  obtain ⟨i1, i2⟩ := Clear.loop_drains fuel d L h
  by_cases hle : d.Size ≤ fuel
  · obtain ⟨d2, f1, f2, _⟩ := i1 hle
    rw [hc] at f1
    cases f1
    exact f2
  · rw [i2 (by omega)] at hc
    cases hc

theorem Reachable.Abs {d : Deque} (h : Reachable d) : ∃ L, Abs d L := by
  induction h with
  | ctor hc =>
    obtain ⟨d0, e1, e2⟩ := ctor_Abs
    rw [hc] at e1
    cases e1
    exact ⟨_, e2⟩
  | @ctorSize n _ hc =>
    obtain ⟨d0, e1, e2⟩ := ctorSize_Abs n
    rw [hc] at e1
    cases e1
    exact ⟨_, e2⟩
  | @ctorList l _ hc =>
    obtain ⟨d0, e1, e2⟩ := ctorList_Abs l
    rw [hc] at e1
    cases e1
    exact ⟨_, e2⟩
  | ctorCopy _ hc ih =>
    obtain ⟨L, hL⟩ := ih
    obtain ⟨d0, e1, e2⟩ := ctorCopy_Abs _ L hL
    rw [hc] at e1
    cases e1
    exact ⟨_, e2⟩
  | @PushBack _ _ v _ hc ih =>
    obtain ⟨L, hL⟩ := ih
    obtain ⟨d0, e1, e2⟩ := hL.PushBack v
    rw [hc] at e1
    cases e1
    exact ⟨_, e2⟩
  | @PushFront _ _ v _ hc ih =>
    obtain ⟨L, hL⟩ := ih
    obtain ⟨d0, e1, e2⟩ := hL.PushFront v
    rw [hc] at e1
    cases e1
    exact ⟨_, e2⟩
  | PopBack _ hpos hc ih =>
    obtain ⟨L, hL⟩ := ih
    obtain ⟨d0, e1, e2⟩ := hL.PopBack hpos
    rw [hc] at e1
    cases e1
    exact ⟨_, e2⟩
  | PopFront _ hpos hc ih =>
    obtain ⟨L, hL⟩ := ih
    obtain ⟨d0, e1, e2⟩ := hL.PopFront hpos
    rw [hc] at e1
    cases e1
    exact ⟨_, e2⟩
  | Clear _ hc ih =>
    obtain ⟨L, hL⟩ := ih
    exact ⟨_, Clear.loop_some_Abs _ _ _ L hL hc⟩
  | @assign _ _ i v _ hi hc ih =>
    obtain ⟨L, hL⟩ := ih
    obtain ⟨d0, e1, e2⟩ := hL.assign i v (by rw [← hL.Size_eq]; exact hi)
    rw [hc] at e1
    cases e1
    exact ⟨_, e2⟩

/-! ## Sequences of operations -/

theorem apply_Abs (d : Deque) (L : List Int) (op : Op) (h : Abs d L)
    (hg : op.isPop = true → 0 < d.Size) :
    ∃ d1, d.apply op = some d1 ∧ Abs d1 (op.model L) := by
  cases op with
  | PushBack v => exact h.PushBack v
  | PushFront v => exact h.PushFront v
  | PopBack => exact h.PopBack (hg rfl)
  | PopFront => exact h.PopFront (hg rfl)

theorem run_Abs : ∀ (ops : List Op) (d : Deque) (L : List Int), Abs d L →
    popsGuarded ops d = true →
    ∃ d1, run ops d = some d1 ∧ Abs d1 (modelRun ops L) ∧
      d1.Size + pops ops = d.Size + pushes ops := by
  intro ops
  induction ops with
  | nil =>
    intro d L h _
    exact ⟨d, rfl, h, rfl⟩
  | cons op rest ih =>
    intro d L h hg
    simp only [popsGuarded, Bool.and_eq_true, Bool.or_eq_true, Bool.not_eq_true',
      decide_eq_true_eq] at hg
    have hpop : op.isPop = true → 0 < d.Size := by
      intro hp
      rcases hg.1 with h1 | h1
      · rw [hp] at h1
        cases h1
      · exact h1
    obtain ⟨d1, e1, e2⟩ := apply_Abs d L op h hpop
    have hg2 := hg.2
    rw [e1] at hg2
    obtain ⟨d2, f1, f2, f3⟩ := ih d1 _ e2 hg2
    refine ⟨d2, by simp only [run, e1]; exact f1, f2, ?_⟩
    have hs := h.Size_eq
    have hs1 := e2.Size_eq
    cases op with
    | PushBack v =>
      simp only [Op.model, List.length_append, List.length_singleton] at hs1
      simp only [pops, pushes, List.countP_cons, Op.isPop, Op.isPush] at f3 ⊢
      simp
      omega
    | PushFront v =>
      simp only [Op.model, List.length_cons] at hs1
      simp only [pops, pushes, List.countP_cons, Op.isPop, Op.isPush] at f3 ⊢
      simp
      omega
    | PopBack =>
      have := hpop rfl
      simp only [Op.model, List.length_dropLast] at hs1
      simp only [pops, pushes, List.countP_cons, Op.isPop, Op.isPush] at f3 ⊢
      simp
      omega
    | PopFront =>
      have := hpop rfl
      simp only [Op.model, List.length_tail] at hs1
      simp only [pops, pushes, List.countP_cons, Op.isPop, Op.isPush] at f3 ⊢
      simp
      omega

theorem Reachable.apply {d d1 : Deque} {op : Op} (h : Reachable d)
    (hg : op.isPop = true → 0 < d.Size) (ha : d.apply op = some d1) : Reachable d1 := by
  cases op with
  | PushBack v => exact Reachable.PushBack h ha
  | PushFront v => exact Reachable.PushFront h ha
  | PopBack => exact Reachable.PopBack h (hg rfl) ha
  | PopFront => exact Reachable.PopFront h (hg rfl) ha

theorem Reachable.run : ∀ (ops : List Op) (d d1 : Deque), Reachable d →
    popsGuarded ops d = true → Deque.run ops d = some d1 → Reachable d1 := by
  intro ops
  induction ops with
  | nil =>
    intro d d1 h _ hr
    simp only [Deque.run, Option.some.injEq] at hr
    subst hr
    exact h
  | cons op rest ih =>
    intro d d1 h hg hr
    simp only [popsGuarded, Bool.and_eq_true, Bool.or_eq_true, Bool.not_eq_true',
      decide_eq_true_eq] at hg
    have hpop : op.isPop = true → 0 < d.Size := by
      intro hp
      rcases hg.1 with h1 | h1
      · rw [hp] at h1
        cases h1
      · exact h1
    simp only [Deque.run] at hr
    cases ha : d.apply op with
    | none =>
      rw [ha] at hr
      cases hr
    | some d2 =>
      rw [ha] at hr
      have hg2 := hg.2
      rw [ha] at hg2
      exact ih d2 d1 (h.apply hpop ha) hg2 hr

theorem popsGuarded_pushes : ∀ (ops : List Op) (d : Deque),
    (∀ op ∈ ops, op.isPush = true) → popsGuarded ops d = true := by
  intro ops
  induction ops with
  | nil => intro d _; rfl
  | cons op rest ih =>
    intro d h
    have h1 := h op (by simp)
    have h2 : op.isPop = false := by
      cases op <;> simp_all [Op.isPop, Op.isPush]
    simp only [popsGuarded, h2, Bool.not_false, Bool.true_or, Bool.true_and]
    cases d.apply op with
    | none => rfl
    | some d1 => exact ih d1 (fun o ho => h o (List.mem_cons_of_mem _ ho))

theorem modelRun_PushBack : ∀ (vs L : List Int),
    modelRun (vs.map Op.PushBack) L = L ++ vs := by
  intro vs
  induction vs with
  | nil => intro L; simp [modelRun]
  | cons v rest ih =>
    intro L
    simp only [List.map_cons, modelRun, Op.model, ih]
    simp

theorem modelRun_PushFront : ∀ (vs L : List Int),
    modelRun (vs.map Op.PushFront) L = vs.reverse ++ L := by
  intro vs
  induction vs with
  | nil => intro L; simp [modelRun]
  | cons v rest ih =>
    intro L
    simp only [List.map_cons, modelRun, Op.model, ih]
    simp

theorem run_PopFront_Abs : ∀ (k : Nat) (d : Deque) (L : List Int), Abs d L → k ≤ L.length →
    ∃ d1, run (List.replicate k Op.PopFront) d = some d1 ∧ Abs d1 (L.drop k) := by
  intro k
  induction k with
  | zero =>
    intro d L h _
    exact ⟨d, rfl, by simpa using h⟩
  | succ k ih =>
    intro d L h hk
    obtain ⟨d1, e1, e2⟩ := h.PopFront (by rw [h.Size_eq]; omega)
    obtain ⟨d2, f1, f2⟩ := ih d1 _ e2 (by simp; omega)
    refine ⟨d2, by simp only [List.replicate_succ, run, apply, e1]; exact f1, ?_⟩
    have : L.drop (k + 1) = L.tail.drop k := by simp
    rw [this]
    exact f2

/-! ## The claims -/

/-- C1. Refinement of a reference deque: run from a default-constructed deque, any
sequence of `PushBack`, `PushFront`, `PopBack` and `PopFront` calls whose pops are
issued only while `Size() > 0` is defined, leaves `Size()` equal to the number of
pushes minus the number of pops, and leaves at every index `i < Size()` the `i`-th
element of the list that the same sequence produces on the list model. -/
theorem C1_refines_reference_deque (ops : List Op) (d0 : Deque) (h0 : ctor = some d0)
    (hg : popsGuarded ops d0 = true) :
    ∃ d, run ops d0 = some d ∧ d.Size = pushes ops - pops ops ∧
      d.Size = (modelRun ops []).length ∧
      ∀ i, i < d.Size → d.get i = (modelRun ops [])[i]? := by
  obtain ⟨d00, e1, e2⟩ := ctor_Abs
  rw [h0] at e1
  cases e1
  obtain ⟨d, f1, f2, f3⟩ := run_Abs ops d0 [] e2 hg
  have hz := e2.Size_eq
  simp only [List.length_nil] at hz
  refine ⟨d, f1, by omega, f2.Size_eq, ?_⟩
  intro i hi
  exact f2.get i (by rw [← f2.Size_eq]; exact hi)

set_option maxRecDepth 100000 in
/-- C1 at the sequence PushBack 1, PushFront 2, PopBack, PushBack 3, PopFront,
PushFront 4 on the default-constructed deque. -/
theorem C1_refines_reference_deque_witness :
    ctor = some { size_ := 0, begin_ := 0, capacity_ := 1, count_elem_ := 0, blocks_ := [none] } ∧
    popsGuarded [Op.PushBack 1, Op.PushFront 2, Op.PopBack, Op.PushBack 3, Op.PopFront,
        Op.PushFront 4]
      { size_ := 0, begin_ := 0, capacity_ := 1, count_elem_ := 0, blocks_ := [none] } = true ∧
    ∃ d, run [Op.PushBack 1, Op.PushFront 2, Op.PopBack, Op.PushBack 3, Op.PopFront,
          Op.PushFront 4]
        { size_ := 0, begin_ := 0, capacity_ := 1, count_elem_ := 0, blocks_ := [none] }
          = some d ∧
      d.Size = pushes [Op.PushBack 1, Op.PushFront 2, Op.PopBack, Op.PushBack 3, Op.PopFront,
          Op.PushFront 4] - pops [Op.PushBack 1, Op.PushFront 2, Op.PopBack, Op.PushBack 3,
          Op.PopFront, Op.PushFront 4] ∧
      d.Size = (modelRun [Op.PushBack 1, Op.PushFront 2, Op.PopBack, Op.PushBack 3, Op.PopFront,
          Op.PushFront 4] []).length ∧
      ∀ i, i < d.Size → d.get i = (modelRun [Op.PushBack 1, Op.PushFront 2, Op.PopBack,
          Op.PushBack 3, Op.PopFront, Op.PushFront 4] [])[i]? :=
  ⟨rfl, by decide, C1_refines_reference_deque _ _ rfl (by decide)⟩

/-- C2. For every list `L` of ints and every `k ≤ |L|`, constructing a deque from the
initializer list `L` and calling `PopFront` `k` times is defined and gives
`Size() = |L| - k` and `operator[](i) = L[k + i]` for every `i < |L| - k`. -/
theorem C2_ctorList_then_PopFront (L : List Int) (k : Nat) (hk : k ≤ L.length) :
    ∃ d0 d, ctorList L = some d0 ∧ run (List.replicate k Op.PopFront) d0 = some d ∧
      d.Size = L.length - k ∧ ∀ i, i < L.length - k → d.get i = L[k + i]? := by
  obtain ⟨d0, e1, e2⟩ := ctorList_Abs L
  obtain ⟨d, f1, f2⟩ := run_PopFront_Abs k d0 L e2 hk
  refine ⟨d0, d, e1, f1, by rw [f2.Size_eq]; simp, ?_⟩
  intro i hi
  rw [f2.get i (by simp; exact hi), List.getElem?_drop]

/-- C2 at `L = [1,2,3,4,5]`, `k = 3`: `Size() = 2` and the element at index 0 is 4. -/
theorem C2_ctorList_then_PopFront_witness :
    3 ≤ [(1 : Int), 2, 3, 4, 5].length ∧
    ∃ d0 d, ctorList [1, 2, 3, 4, 5] = some d0 ∧
      run (List.replicate 3 Op.PopFront) d0 = some d ∧ d.Size = 2 ∧ d.get 0 = some 4 := by
  refine ⟨by decide, ?_⟩
  obtain ⟨d0, d, h1, h2, h3, h4⟩ := C2_ctorList_then_PopFront [1, 2, 3, 4, 5] 3 (by decide)
  exact ⟨d0, d, h1, h2, h3, h4 0 (by decide)⟩

/-- C3. For every sequence `v_0 .. v_{N-1}`, calling `PushBack(v_0)`, ...,
`PushBack(v_{N-1})` on a default-constructed deque is defined and gives `Size() = N`
and `operator[](i) = v_i` for every `i < N`, whatever the number of blocks and of
directory doublings on the way. -/
theorem C3_PushBack_in_order (vs : List Int) :
    ∃ d0 d, ctor = some d0 ∧ run (vs.map Op.PushBack) d0 = some d ∧
      d.Size = vs.length ∧ ∀ i, i < vs.length → d.get i = vs[i]? := by
  obtain ⟨d0, e1, e2⟩ := ctor_Abs
  obtain ⟨d, f1, f2, _⟩ := run_Abs (vs.map Op.PushBack) d0 [] e2
    (popsGuarded_pushes _ _ (by simp [Op.isPush]))
  rw [modelRun_PushBack, List.nil_append] at f2
  exact ⟨d0, d, e1, f1, f2.Size_eq, fun i hi => f2.get i hi⟩

/-- C3 at `N = 10 * BlockSize = 1280`, pushing 0, 1, ..., 1279: the size is 1280 and
the last index holds 1279. -/
theorem C3_PushBack_in_order_witness :
    ∃ d0 d, ctor = some d0 ∧
      run (((List.range 1280).map Int.ofNat).map Op.PushBack) d0 = some d ∧
      d.Size = 10 * BlockSize ∧ d.get 1279 = some 1279 := by
  obtain ⟨d0, d, h1, h2, h3, h4⟩ := C3_PushBack_in_order ((List.range 1280).map Int.ofNat)
  refine ⟨d0, d, h1, h2, by rw [h3, BlockSize_eq]; simp, ?_⟩
  rw [h4 1279 (by simp)]
  simp

/-- C4. For every sequence `v_1 .. v_K`, calling `PushFront(v_1)`, ..., `PushFront(v_K)`
on a default-constructed deque is defined and gives `Size() = K` and, at every 0-based
index `i < K`, the value `v_{K-i}`: the last value pushed is at index 0, the first
value pushed at index `K - 1`.  (`vs[j]` below is `v_{j+1}`.) -/
theorem C4_PushFront_reverses (vs : List Int) :
    ∃ d0 d, ctor = some d0 ∧ run (vs.map Op.PushFront) d0 = some d ∧
      d.Size = vs.length ∧ ∀ i, i < vs.length → d.get i = vs[vs.length - 1 - i]? := by
  obtain ⟨d0, e1, e2⟩ := ctor_Abs
  obtain ⟨d, f1, f2, _⟩ := run_Abs (vs.map Op.PushFront) d0 [] e2
    (popsGuarded_pushes _ _ (by simp [Op.isPush]))
  rw [modelRun_PushFront, List.append_nil] at f2
  refine ⟨d0, d, e1, f1, by rw [f2.Size_eq]; simp, ?_⟩
  intro i hi
  rw [f2.get i (by simp; exact hi), List.getElem?_reverse hi]

/-- C4 at the pushes 10, 20, 30: index 0 holds 30 and index 2 holds 10. -/
theorem C4_PushFront_reverses_witness :
    ∃ d0 d, ctor = some d0 ∧ run ([10, 20, 30].map Op.PushFront) d0 = some d ∧
      d.Size = 3 ∧ d.get 0 = some 30 ∧ d.get 2 = some 10 := by
  obtain ⟨d0, d, h1, h2, h3, h4⟩ := C4_PushFront_reverses [10, 20, 30]
  exact ⟨d0, d, h1, h2, h3, h4 0 (by decide), h4 2 (by decide)⟩

theorem Clear.loop_succ : ∀ (fuel : Nat) (d : Deque) (r : Option Deque),
    Clear.loop fuel d = some r → Clear.loop (fuel + 1) d = some r := by
  intro fuel
  induction fuel with
  | zero =>
    intro d r h
    simp only [Clear.loop] at h ⊢
    by_cases hz : d.Size > 0
    · rw [if_pos hz] at h
      cases h
    · rw [if_neg hz] at h ⊢
      exact h
  | succ fuel ih =>
    intro d r h
    rw [Clear.loop] at h ⊢
    by_cases hz : d.Size > 0
    · rw [if_pos hz] at h ⊢
      cases hp : d.PopBack with
      | none =>
        rw [hp] at h
        exact h
      | some d1 =>
        rw [hp] at h
        exact ih d1 r h
    · rw [if_neg hz] at h ⊢
      exact h

theorem Clear.loop_le (fuel fuel1 : Nat) (d : Deque) (r : Option Deque) (hle : fuel ≤ fuel1)
    (h : Clear.loop fuel d = some r) : Clear.loop fuel1 d = some r := by
  induction fuel1 with
  | zero =>
    have : fuel = 0 := by omega
    subst this
    exact h
  | succ n ih =>
    by_cases hn : fuel ≤ n
    · exact Clear.loop_succ n d r (ih hn)
    · have : fuel = n + 1 := by omega
      subst this
      exact h

theorem Next_surj (d : Deque) (j : Nat) (hb : d.begin_ < d.capacity_) (hj : j < d.capacity_) :
    ∃ k, k < d.capacity_ ∧ d.Next d.begin_ k = j := by
  by_cases h : d.begin_ ≤ j
  · exact ⟨j - d.begin_, by omega, by unfold Next; split_ifs <;> omega⟩
  · exact ⟨j + d.capacity_ - d.begin_, by omega, by unfold Next; split_ifs <;> omega⟩

theorem Rep.run_nil_of_Size {d : Deque} {run : List Block} (h : Rep d run) (h0 : d.Size = 0) :
    run = [] := by
  cases run with
  | nil => rfl
  | cons f rest =>
    have h1 := (h.ok.wf f (by simp)).2
    have h2 := sum_sizes_pos (f :: rest) f (by simp)
    have h3 := h.count
    simp only [Size] at h0
    omega

/-- C5. Deep copy: for every reachable deque `d`, whatever its block layout, the copy
constructor is defined and gives a deque `c` with `c.Size() = d.Size()` and
`c[i] = d[i]` for every `i < d.Size()`; and after any further calls on the original
in a program that holds both, the copy still has that size and those elements. -/
theorem C5_copy_is_deep (d : Deque) (h : Reachable d) :
    ∃ c, ctorCopy d = some c ∧ c.Size = d.Size ∧
      (∀ i, i < d.Size → ∃ x, d.get i = some x ∧ c.get i = some x) ∧
      ∀ (muts : List Op) (s : Deque × Deque), runOriginal muts (d, c) = some s →
        s.2.Size = d.Size ∧ ∀ i, i < d.Size → ∃ x, d.get i = some x ∧ s.2.get i = some x := by
  obtain ⟨L, hL⟩ := h.Abs
  obtain ⟨c, e1, e2⟩ := ctorCopy_Abs d L hL
  have hget : ∀ i, i < d.Size → ∃ x, d.get i = some x ∧ c.get i = some x := by
    intro i hi
    have hi2 : i < L.length := by rw [← hL.Size_eq]; exact hi
    exact ⟨L[i], by rw [hL.get i hi2, List.getElem?_eq_getElem],
      by rw [e2.get i hi2, List.getElem?_eq_getElem]⟩
  have hsz : c.Size = d.Size := by rw [e2.Size_eq, hL.Size_eq]
  have hframe : ∀ (muts : List Op) (s0 s : Deque × Deque),
      runOriginal muts s0 = some s → s.2 = s0.2 := by
    intro muts
    induction muts with
    | nil =>
      intro s0 s hs
      simp only [runOriginal, Option.some.injEq] at hs
      rw [hs]
    | cons op rest ih =>
      intro s0 s hs
      simp only [runOriginal, applyOriginal] at hs
      cases ha : s0.1.apply op with
      | none =>
        rw [ha] at hs
        cases hs
      | some d1 =>
        rw [ha] at hs
        exact ih (d1, s0.2) s hs
  refine ⟨c, e1, hsz, hget, ?_⟩
  intro muts s hs
  have := hframe muts (d, c) s hs
  simp only at this
  rw [this]
  exact ⟨hsz, hget⟩

set_option maxRecDepth 100000 in
/-- C5 at `Deque{1, 2, 3}` after one `PopFront()`, whose first block has `begin_ > 0`. -/
theorem C5_copy_is_deep_witness :
    Reachable sample23 ∧
    ∃ c, ctorCopy sample23 = some c ∧ c.Size = sample23.Size ∧
      (∀ i, i < sample23.Size → ∃ x, sample23.get i = some x ∧ c.get i = some x) ∧
      ∀ (muts : List Op) (s : Deque × Deque), runOriginal muts (sample23, c) = some s →
        s.2.Size = sample23.Size ∧
          ∀ i, i < sample23.Size → ∃ x, sample23.get i = some x ∧ s.2.get i = some x :=
  ⟨Reachable.PopFront (d := sample123) (Reachable.ctorList (l := [1, 2, 3]) (by decide))
      (by decide) (by decide),
   C5_copy_is_deep sample23
    (Reachable.PopFront (d := sample123) (Reachable.ctorList (l := [1, 2, 3]) (by decide))
      (by decide) (by decide))⟩

set_option maxRecDepth 100000 in
/-- C6, as stated, fails: the source of a move construction, and of a move
assignment, of `Deque{7}` still reports `Size() = 1`. -/
theorem C6_move_counterexample :
    ctorList [7] = some sample7 ∧ (ctorMove sample7).2.Size = 1 ∧
      (ctorMove sample7).2.Size ≠ 0 ∧ (moveAssign sampleEmpty sample7).2.Size = 1 ∧
      (moveAssign sampleEmpty sample7).2.Size ≠ 0 :=
  ⟨by decide, rfl, by decide, rfl, by decide⟩

/-- C6, amended. After a move construction from `s`, and after a move assignment
from `s`, the destination is in the state `s` was in (so it has the former size and
elements of `s`), and the source is left with the null directory, which has no slot,
and with its four counters unchanged: its `Size()` is the former `Size()` of `s`. -/
theorem C6_move_keeps_source_counters (d s : Deque) :
    (ctorMove s).1 = s ∧ (moveAssign d s).1 = s ∧
    (ctorMove s).2 = { s with blocks_ := [] } ∧ (moveAssign d s).2 = { s with blocks_ := [] } ∧
    (ctorMove s).2.Size = s.Size ∧ (moveAssign d s).2.Size = s.Size ∧
    (ctorMove s).2.blocks_ = [] ∧ (moveAssign d s).2.blocks_ = [] :=
  ⟨rfl, rfl, rfl, rfl, rfl, rfl, rfl, rfl⟩

/-- C7. For every `n`, `Deque(n)` is defined and has `Size() = n` and
`operator[](i) = 0` for every `i < n`. -/
theorem C7_ctorSize_zeros (n : Nat) :
    ∃ d, ctorSize n = some d ∧ d.Size = n ∧ ∀ i, i < n → d.get i = some 0 := by
  obtain ⟨d, e1, e2⟩ := ctorSize_Abs n
  refine ⟨d, e1, by rw [e2.Size_eq]; simp, ?_⟩
  intro i hi
  rw [e2.get i (by simp; exact hi), List.getElem?_replicate, if_pos hi]

/-- C7 at `n = 2 * BlockSize = 256`, an exact multiple of the block size. -/
theorem C7_ctorSize_zeros_witness :
    ∃ d, ctorSize 256 = some d ∧ d.Size = 256 ∧ d.get 0 = some 0 ∧ d.get 255 = some 0 := by
  obtain ⟨d, h1, h2, h3⟩ := C7_ctorSize_zeros 256
  exact ⟨d, h1, h2, h3 0 (by decide), h3 255 (by decide)⟩

/-- C8. Element write is a point update: for every reachable deque `d`, every
`i < d.Size()` and every value `v`, the write `d[i] = v` is defined, after it
`d[i] = v`, `d[j]` is what it was for every `j < d.Size()` other than `i`, and
`Size()` is what it was. -/
theorem C8_assign_point_update (d : Deque) (h : Reachable d) (i : Nat) (v : Int)
    (hi : i < d.Size) :
    ∃ d1, d.assign i v = some d1 ∧ d1.get i = some v ∧
      (∀ j, j < d.Size → j ≠ i → ∃ x, d.get j = some x ∧ d1.get j = some x) ∧
      d1.Size = d.Size := by
  obtain ⟨L, hL⟩ := h.Abs
  have hi2 : i < L.length := by rw [← hL.Size_eq]; exact hi
  obtain ⟨d1, e1, e2⟩ := hL.assign i v hi2
  refine ⟨d1, e1, ?_, ?_, by rw [e2.Size_eq, hL.Size_eq]; simp⟩
  · rw [e2.get i (by simp; exact hi2), List.getElem?_set_self hi2]
  · intro j hj hne
    have hj2 : j < L.length := by rw [← hL.Size_eq]; exact hj
    refine ⟨L[j], by rw [hL.get j hj2, List.getElem?_eq_getElem], ?_⟩
    rw [e2.get j (by simp; exact hj2), List.getElem?_set_ne (fun e => hne e.symm),
      List.getElem?_eq_getElem]

set_option maxRecDepth 100000 in
/-- C8 at `Deque{1, 2, 3}` after one `PopFront()`, writing 9 at index 1. -/
theorem C8_assign_point_update_witness :
    Reachable sample23 ∧ 1 < sample23.Size ∧
    ∃ d1, sample23.assign 1 9 = some d1 ∧ d1.get 1 = some 9 ∧
      (∀ j, j < sample23.Size → j ≠ 1 → ∃ x, sample23.get j = some x ∧ d1.get j = some x) ∧
      d1.Size = sample23.Size :=
  ⟨Reachable.PopFront (d := sample123) (Reachable.ctorList (l := [1, 2, 3]) (by decide))
      (by decide) (by decide),
   by decide,
   C8_assign_point_update sample23
    (Reachable.PopFront (d := sample123) (Reachable.ctorList (l := [1, 2, 3]) (by decide))
      (by decide) (by decide)) 1 9 (by decide)⟩

/-- C9. `Clear` empties the deque: a default-constructed deque has `Size() = 0` and
`Clear()` returns it with every field as it was; and for every reachable deque `d`,
the loop of `Clear()` ends after exactly `d.Size()` iterations, each one `PopBack`
(it is over within `fuel` iterations if and only if `d.Size() ≤ fuel`), leaves
`Size() = 0`, and after it any sequence of pushes is defined and gives the same size
and the same elements as the same pushes on a default-constructed deque. -/
theorem C9_Clear_empties (d : Deque) (h : Reachable d) :
    (∃ d0, ctor = some d0 ∧ d0.Size = 0 ∧ ∀ fuel, Clear.loop fuel d0 = some (some d0)) ∧
    ∃ d1, (∀ fuel, d.Size ≤ fuel → Clear.loop fuel d = some (some d1)) ∧
      (∀ fuel, fuel < d.Size → Clear.loop fuel d = none) ∧ d1.Size = 0 ∧
      ∀ ops : List Op, (∀ op ∈ ops, op.isPush = true) →
        ∃ a b d0, ctor = some d0 ∧ run ops d1 = some a ∧ run ops d0 = some b ∧
          a.Size = b.Size ∧ ∀ i, i < a.Size → ∃ x, a.get i = some x ∧ b.get i = some x := by
  obtain ⟨L, hL⟩ := h.Abs
  obtain ⟨d00, c1, c2⟩ := ctor_Abs
  constructor
  · refine ⟨d00, c1, by rw [c2.Size_eq]; rfl, ?_⟩
    intro fuel
    have hz : d00.Size = 0 := by rw [c2.Size_eq]; rfl
    cases fuel with
    | zero => simp [Clear.loop, hz]
    | succ n => simp [Clear.loop, hz]
  · obtain ⟨d1, e1, e2, _⟩ := (Clear.loop_drains d.Size d L hL).1 (le_refl _)
    refine ⟨d1, fun fuel hle => Clear.loop_le d.Size fuel d _ hle e1,
      fun fuel hlt => (Clear.loop_drains fuel d L hL).2 hlt, by rw [e2.Size_eq]; rfl, ?_⟩
    intro ops hops
    obtain ⟨a, f1, f2, _⟩ := run_Abs ops d1 [] e2 (popsGuarded_pushes ops d1 hops)
    obtain ⟨b, g1, g2, _⟩ := run_Abs ops d00 [] c2 (popsGuarded_pushes ops d00 hops)
    refine ⟨a, b, d00, c1, f1, g1, by rw [f2.Size_eq, g2.Size_eq], ?_⟩
    intro i hi
    have hi2 : i < (modelRun ops []).length := by rw [← f2.Size_eq]; exact hi
    exact ⟨(modelRun ops [])[i], by rw [f2.get i hi2, List.getElem?_eq_getElem],
      by rw [g2.get i hi2, List.getElem?_eq_getElem]⟩

set_option maxRecDepth 100000 in
/-- C9 at `Deque{1, 2, 3}` after one `PopFront()`. -/
theorem C9_Clear_empties_witness :
    Reachable sample23 ∧
    ∃ d1, Clear.loop 2 sample23 = some (some d1) ∧ Clear.loop 1 sample23 = none ∧
      d1.Size = 0 :=
  ⟨Reachable.PopFront (d := sample123) (Reachable.ctorList (l := [1, 2, 3]) (by decide))
      (by decide) (by decide),
   (C9_Clear_empties sample23
    (Reachable.PopFront (d := sample123) (Reachable.ctorList (l := [1, 2, 3]) (by decide))
      (by decide) (by decide))).2.elim
    (fun d1 hd1 => ⟨d1, hd1.1 2 (by decide), hd1.2.1 1 (by decide), hd1.2.2.1⟩)⟩

/-- C10. No live block survives emptiness: in every reachable state, `Size() = 0`
implies that the slot count `size_` is 0 and that every slot of the directory is
null.  The reachable states include those reached by pushing `m` elements at either
end and then popping `m` elements from either end. -/
theorem C10_empty_has_no_block (d : Deque) (h : Reachable d) (h0 : d.Size = 0) :
    d.size_ = 0 ∧ ∀ slot ∈ d.blocks_, slot = none := by
  obtain ⟨L, run, hR, _⟩ := h.Abs
  have hnil := hR.run_nil_of_Size h0
  subst hnil
  refine ⟨hR.layout.size_eq, ?_⟩
  intro slot hs
  obtain ⟨j, hj⟩ := List.mem_iff_getElem?.mp hs
  have hjlt : j < d.capacity_ := by
    rcases List.getElem?_eq_some.mp hj with ⟨h1, _⟩
    rw [← hR.layout.len]
    exact h1
  obtain ⟨k, hk, hk2⟩ := Next_surj d j hR.layout.begin_lt hjlt
  have := hR.layout.slots k hk
  rw [hk2, hj] at this
  simpa using this

set_option maxRecDepth 100000 in
/-- C10 at the state reached from a default-constructed deque by `PushBack(1)`,
`PushFront(2)`, `PopBack()`, `PopFront()`. -/
theorem C10_empty_has_no_block_witness :
    Reachable sampleDrained ∧ sampleDrained.Size = 0 ∧
    sampleDrained.size_ = 0 ∧ ∀ slot ∈ sampleDrained.blocks_, slot = none :=
  ⟨Reachable.run [Op.PushBack 1, Op.PushFront 2, Op.PopBack, Op.PopFront] sampleEmpty
      sampleDrained (Reachable.ctor (by decide)) (by decide) (by decide),
   rfl,
   C10_empty_has_no_block sampleDrained
    (Reachable.run [Op.PushBack 1, Op.PushFront 2, Op.PopBack, Op.PopFront] sampleEmpty
      sampleDrained (Reachable.ctor (by decide)) (by decide) (by decide)) rfl⟩

/-! ## The invariants on the fields and the run of blocks -/

theorem Next_eq_mod (d : Deque) (k : Nat) (hb : d.begin_ < d.capacity_)
    (hk : k < d.capacity_) : (k + d.begin_) % d.capacity_ = d.Next d.begin_ k := by
  unfold Next
  by_cases h : d.begin_ + k < d.capacity_
  · rw [if_pos h, Nat.mod_eq_of_lt (by omega)]
    omega
  · rw [if_neg h, Nat.mod_eq_sub_mod (by omega), Nat.mod_eq_of_lt (by omega)]
    omega

theorem Layout.rotate_eq {d : Deque} {run : List Block} (h : Layout d run) :
    d.blocks_.rotate d.begin_
      = run.map some ++ List.replicate (d.capacity_ - run.length) none := by
  have hle := h.size_le
  apply List.ext_getElem?
  intro n
  by_cases hn : n < d.capacity_
  · rw [List.getElem?_rotate (by rw [h.len]; exact hn), h.len,
      Next_eq_mod d n h.begin_lt hn, h.slots n hn, List.getElem?_append]
    by_cases hr : n < run.length
    · rw [if_pos (by simpa using hr), List.getElem?_map, List.getElem?_eq_getElem hr]
      rfl
    · rw [if_neg (by simpa using hr), List.getElem?_eq_none (by omega),
        List.getElem?_replicate, if_pos (by simp; omega)]
  · rw [List.getElem?_eq_none (by rw [List.length_rotate, h.len]; omega),
      List.getElem?_eq_none (by simp; omega)]

theorem Layout.liveCount_eq {d : Deque} {run : List Block} (h : Layout d run) :
    liveCount d = (run.map Block.size_).sum := by
  have hp := ((List.rotate_perm d.blocks_ d.begin_).map slotSize).sum_eq
  unfold liveCount
  rw [← hp, h.rotate_eq, List.map_append, List.sum_append, List.map_replicate,
    List.sum_replicate, List.map_map]
  simp only [slotSize, smul_eq_mul, Nat.mul_zero, Nat.add_zero]
  rfl

theorem Layout.slotSize_eq {d : Deque} {run : List Block} (h : Layout d run) (k : Nat)
    (hk : k < d.capacity_) :
    slotSize (d.block (d.Next d.begin_ k)) = ((run[k]?).map Block.size_).getD 0 := by
  have := h.slots k hk
  cases hr : run[k]? with
  | none =>
    rw [hr] at this
    simp [block, this, slotSize]
  | some b =>
    rw [hr] at this
    simp [block, this, slotSize, Block.Size]

theorem Layout.sizeBefore_eq {d : Deque} {run : List Block} (h : Layout d run) :
    ∀ k, k ≤ run.length → sizeBefore d k = ((run.take k).map Block.size_).sum := by
  intro k
  induction k with
  | zero => intro _; simp [sizeBefore]
  | succ k ih =>
    intro hk
    have hle := h.size_le
    have e := ih (by omega)
    unfold sizeBefore at e ⊢
    have e2 : List.take (k + 1) run = List.take k run ++ [run[k]] := by
      rw [List.take_succ, List.getElem?_eq_getElem (by omega)]
      rfl
    rw [List.sum_range_succ, e, h.slotSize_eq k (by omega),
      List.getElem?_eq_getElem (by omega), e2, List.map_append, List.sum_append]
    simp

theorem Held.WellFormed {d : Deque} {run : List Block} (h : Held d run) : WellFormed d := by
  have hL := h.layout
  have hle := hL.size_le
  refine ⟨hL.len, hL.begin_lt, by rw [hL.size_eq]; exact hL.size_le, ?_, ?_, ?_⟩
  · intro j hj
    obtain ⟨k, hk, hk2⟩ := Next_surj d j hL.begin_lt hj
    have hs := hL.slots k hk
    rw [hk2] at hs
    constructor
    · intro hsome
      refine ⟨k, ?_, hk2⟩
      rw [hL.size_eq]
      by_contra hge
      rw [List.getElem?_eq_none (l := run) (by omega)] at hs
      simp [block, hs] at hsome
    · rintro ⟨k1, hk1, hk3⟩
      rw [hL.size_eq] at hk1
      have hkk : k1 = k := Next_inj d d.begin_ k1 k hL.begin_lt (by omega) hk
        (by rw [hk3, hk2])
      subst hkk
      rw [List.getElem?_eq_getElem hk1] at hs
      simp [block, hs]
  · intro s hs b hb
    subst hb
    obtain ⟨j, hj⟩ := List.mem_iff_getElem?.mp hs
    have hjlt : j < d.capacity_ := by
      rcases List.getElem?_eq_some.mp hj with ⟨h1, _⟩
      rw [← hL.len]
      exact h1
    obtain ⟨k, hk, hk2⟩ := Next_surj d j hL.begin_lt hjlt
    have hsl := hL.slots k hk
    rw [hk2, hj] at hsl
    have hrun : run[k]? = some b := by
      simp only [Option.some.injEq] at hsl
      exact hsl.symm
    obtain ⟨hwf, hpos⟩ := h.wf b (List.getElem?_mem hrun)
    have h1 := hwf.max
    have h2 := hwf.len
    have h3 := hwf.bound
    exact ⟨hpos, by rw [h1]; exact h3, h1, by rw [h1]; exact h2⟩
  · rw [hL.liveCount_eq]
    exact h.count

theorem Rep.to_Held {d : Deque} {run : List Block} (h : Rep d run) : Held d run :=
  ⟨h.layout, h.ok.wf, h.count⟩

theorem block_eq_some_iff (d : Deque) (j : Nat) (b : Block) :
    d.block j = some b ↔ d.blocks_[j]? = some (some b) := by
  unfold block
  cases h : d.blocks_[j]? with
  | none => simp
  | some s =>
    cases s with
    | none => simp
    | some c => simp

theorem WellFormed.held_run {d : Deque} (h : WellFormed d) : ∃ run, Held d run := by
  obtain ⟨hlen, hb, hle, hA, hB, hcnt⟩ := h
  have hrun : ∀ k, k < d.size_ → ∃ b, d.block (d.Next d.begin_ k) = some b := by
    intro k hk
    have hj := Next_lt d d.begin_ k hb (by omega)
    have := (hA _ hj).mpr ⟨k, hk, rfl⟩
    exact Option.isSome_iff_exists.mp this
  have hlay : Layout d ((List.range d.size_).map
      (fun k => (d.block (d.Next d.begin_ k)).getD (Block.ctor 0))) := by
    refine ⟨hlen, hb, by simp, by simpa using hle, ?_⟩
    intro k hk
    have hj := Next_lt d d.begin_ k hb (le_of_lt hk)
    by_cases hks : k < d.size_
    · obtain ⟨b, hbk⟩ := hrun k hks
      rw [List.getElem?_map, List.getElem?_range hks, (block_eq_some_iff d _ b).mp hbk]
      simp [hbk]
    · rw [List.getElem?_map, List.getElem?_eq_none (l := List.range d.size_)
        (by simpa using hks), Option.map_none']
      have hnot : ¬ (d.block (d.Next d.begin_ k)).isSome = true := by
        intro hs
        obtain ⟨k1, hk1, hk2⟩ := (hA _ hj).mp hs
        have := Next_inj d d.begin_ k1 k hb (by omega) hk hk2
        omega
      have hx : d.blocks_[d.Next d.begin_ k]? = some (d.blocks_[d.Next d.begin_ k]) :=
        List.getElem?_eq_getElem (by rw [hlen]; exact hj)
      rw [hx]
      cases hs : d.blocks_[d.Next d.begin_ k] with
      | none => rfl
      | some c =>
        rw [hs] at hx
        exact absurd (by rw [(block_eq_some_iff d _ c).mpr hx]; rfl) hnot
  refine ⟨_, hlay, ?_, by rw [hcnt, hlay.liveCount_eq]⟩
  intro b hbm
  obtain ⟨k, hk⟩ := List.mem_iff_getElem?.mp hbm
  have hklt : k < d.size_ := by
    rcases List.getElem?_eq_some.mp hk with ⟨h1, _⟩
    simpa using h1
  have hsl := hlay.slots k (by omega)
  rw [hk] at hsl
  obtain ⟨h1, h2, h3, h4⟩ := hB (some b) (List.getElem?_mem hsl) b rfl
  rw [BlockSize_eq] at h3
  exact ⟨⟨by rw [h3, BlockSize_eq], by rw [h4, h3, BlockSize_eq],
    by rw [BlockSize_eq]; omega⟩, h1⟩

/-! ## What each operation does to the counters -/

theorem MakeBlock_fields (d d1 : Deque) (i : Nat) (h : d.MakeBlock i = some d1) :
    d1.capacity_ = d.capacity_ ∧ d1.begin_ = d.begin_ ∧ d1.size_ = d.size_ ∧
      d1.count_elem_ = d.count_elem_ := by
  unfold MakeBlock at h
  split at h
  · cases h
  · cases h
    exact ⟨rfl, rfl, rfl, rfl⟩
  · cases h
    exact ⟨rfl, rfl, rfl, rfl⟩

theorem SetCapacity_fields (d d1 : Deque) (n : Nat) (h : d.SetCapacity n = some d1) :
    d1.capacity_ = n ∧ d1.begin_ = 0 ∧ d1.size_ = d.size_ ∧
      d1.count_elem_ = d.count_elem_ := by
  unfold SetCapacity at h
  split at h
  · cases h
  · split at h
    · cases h
    · cases h
      exact ⟨rfl, rfl, rfl, rfl⟩

theorem PushBlockBack_fields (d d1 : Deque) (i : Nat) (h : d.PushBlockBack = some (d1, i)) :
    d1.capacity_ = (if d.size_ < d.capacity_ then d.capacity_ else d.capacity_ * 2) ∧
    d1.begin_ = (if d.size_ < d.capacity_ then d.begin_ else 0) ∧
    d1.size_ = d.size_ + 1 ∧ d1.count_elem_ = d.count_elem_ := by
  by_cases hfull : d.size_ < d.capacity_
  · simp only [PushBlockBack, AnyBlockPlace, hfull, decide_True, Bool.not_true,
      Bool.false_eq_true, if_false] at h
    cases hm : d.MakeBlock (d.Next d.begin_ d.size_) with
    | none =>
      rw [hm] at h
      cases h
    | some d2 =>
      rw [hm] at h
      obtain ⟨m1, m2, m3, m4⟩ := MakeBlock_fields d d2 _ hm
      cases h
      simp only [hfull, if_true]
      exact ⟨m1, m2, by rw [m3], m4⟩
  · simp only [PushBlockBack, AnyBlockPlace, hfull, decide_False, Bool.not_false, if_true,
      DoubleCapacity] at h
    cases hs : d.SetCapacity (d.capacity_ * 2) with
    | none =>
      rw [hs] at h
      cases h
    | some d0 =>
      rw [hs] at h
      obtain ⟨s1, s2, s3, s4⟩ := SetCapacity_fields d d0 _ hs
      simp only at h
      cases hm : d0.MakeBlock (d0.Next d0.begin_ d0.size_) with
      | none =>
        rw [hm] at h
        cases h
      | some d2 =>
        rw [hm] at h
        obtain ⟨m1, m2, m3, m4⟩ := MakeBlock_fields d0 d2 _ hm
        cases h
        simp only [hfull, if_false]
        exact ⟨by rw [m1, s1], by rw [m2, s2], by rw [m3, s3], by rw [m4, s4]⟩

theorem PushBlockFront_fields (d d1 : Deque) (i : Nat)
    (h : d.PushBlockFront = some (d1, i)) :
    d1.capacity_ = (if d.size_ < d.capacity_ then d.capacity_ else d.capacity_ * 2) ∧
    d1.begin_ = d1.Prev (if d.size_ < d.capacity_ then d.begin_ else 0) 1 ∧
    d1.size_ = d.size_ + 1 ∧ d1.count_elem_ = d.count_elem_ ∧ i = d1.begin_ := by
  by_cases hfull : d.size_ < d.capacity_
  · simp only [PushBlockFront, AnyBlockPlace, hfull, decide_True, Bool.not_true,
      Bool.false_eq_true, if_false] at h
    split at h
    · cases h
    · rename_i d3 hm
      obtain ⟨m1, m2, m3, m4⟩ := MakeBlock_fields _ d3 _ hm
      cases h
      simp only [hfull, if_true]
      simp only at m1 m2 m3 m4
      refine ⟨m1, ?_, m3, m4, trivial⟩
      rw [m2]
      simp only [Prev, m1]
  · simp only [PushBlockFront, AnyBlockPlace, hfull, decide_False, Bool.not_false, if_true,
      DoubleCapacity] at h
    cases hs : d.SetCapacity (d.capacity_ * 2) with
    | none =>
      rw [hs] at h
      cases h
    | some d0 =>
      rw [hs] at h
      obtain ⟨s1, s2, s3, s4⟩ := SetCapacity_fields d d0 _ hs
      simp only at h
      split at h
      · cases h
      · rename_i d3 hm
        obtain ⟨m1, m2, m3, m4⟩ := MakeBlock_fields _ d3 _ hm
        cases h
        simp only [hfull, if_false]
        simp only at m1 m2 m3 m4
        refine ⟨by rw [m1, s1], ?_, by rw [m3, s3], by rw [m4, s4], trivial⟩
        rw [m2, s2]
        simp only [Prev, m1]

theorem PushBack.finish_fields (d d1 : Deque) (i : Nat) (v : Int)
    (h : PushBack.finish d i v = some d1) :
    d1.capacity_ = d.capacity_ ∧ d1.begin_ = d.begin_ ∧ d1.size_ = d.size_ := by
  unfold PushBack.finish at h
  split at h
  · cases h
  · split at h
    · cases h
    · cases h
      exact ⟨rfl, rfl, rfl⟩

theorem PushFront.finish_front_fields (d d1 : Deque) (i : Nat) (v : Int)
    (h : PushFront.finish d i v = some d1) :
    d1.capacity_ = d.capacity_ ∧ d1.begin_ = d.begin_ ∧ d1.size_ = d.size_ := by
  unfold PushFront.finish at h
  split at h
  · cases h
  · split at h
    · cases h
    · cases h
      exact ⟨rfl, rfl, rfl⟩

/-! ## The four end operations on a well-formed deque -/

theorem ctor_PushBack_new (v : Int) :
    ∃ b1, (Block.ctor BlockSize).PushBack v = some b1 ∧ b1.WF ∧ b1.toList = [v] ∧
      b1.size_ = 1 ∧ b1.begin_ = 0 := by
  obtain ⟨b1, e1, e2, e3, e4, _, e6⟩ :=
    Block.PushBack_spec (Block.ctor BlockSize) v Block.ctor_WF (by decide)
  refine ⟨b1, e1, e2, ?_, ?_, e6 rfl⟩
  · rw [e3]
    simp [Block.toList, Block.ctor]
  · rw [e4]
    rfl

theorem ctor_PushFront_new (v : Int) :
    ∃ b1, (Block.ctor BlockSize).PushFront v = some b1 ∧ b1.WF ∧ b1.toList = [v] ∧
      b1.size_ = 1 ∧ b1.begin_ + 1 = BlockSize := by
  obtain ⟨b1, e1, e2, e3, e4, _, e6⟩ :=
    Block.PushFront_spec (Block.ctor BlockSize) v Block.ctor_WF (by decide)
  refine ⟨b1, e1, e2, ?_, ?_, e6 rfl⟩
  · rw [e3]
    simp [Block.toList, Block.ctor]
  · rw [e4]
    rfl

theorem PushBack_Held (d : Deque) (run : List Block) (v : Int) (h : Held d run) :
    ∃ d1 run1, d.PushBack v = some d1 ∧ Held d1 run1 ∧
      ((∃ init l l1, run = init ++ [l] ∧ l.IsBackEmpty = true ∧ run1 = init ++ [l1] ∧
          l1.size_ = l.size_ + 1 ∧ l1.begin_ = l.begin_ ∧ l1.toList = l.toList ++ [v] ∧
          d1.capacity_ = d.capacity_ ∧ d1.begin_ = d.begin_) ∨
       ((run = [] ∨ ∃ init l, run = init ++ [l] ∧ l.IsBackEmpty = false) ∧
          ∃ b1, run1 = run ++ [b1] ∧ b1.size_ = 1 ∧ b1.begin_ = 0 ∧ b1.toList = [v] ∧
          d1.capacity_ = (if d.size_ < d.capacity_ then d.capacity_ else d.capacity_ * 2) ∧
          d1.begin_ = (if d.size_ < d.capacity_ then d.begin_ else 0))) := by
  have hctor : (Block.ctor BlockSize).IsBackEmpty = true := by decide
  have hnew : ∀ (hshape : run = [] ∨ ∃ init l, run = init ++ [l] ∧ l.IsBackEmpty = false)
      (heq : d.PushBack v = match d.PushBlockBack with
        | none => none
        | some (d1, ind) => PushBack.finish d1 ind v),
      ∃ d1 run1, d.PushBack v = some d1 ∧ Held d1 run1 ∧
      ((∃ init l l1, run = init ++ [l] ∧ l.IsBackEmpty = true ∧ run1 = init ++ [l1] ∧
          l1.size_ = l.size_ + 1 ∧ l1.begin_ = l.begin_ ∧ l1.toList = l.toList ++ [v] ∧
          d1.capacity_ = d.capacity_ ∧ d1.begin_ = d.begin_) ∨
       ((run = [] ∨ ∃ init l, run = init ++ [l] ∧ l.IsBackEmpty = false) ∧
          ∃ b1, run1 = run ++ [b1] ∧ b1.size_ = 1 ∧ b1.begin_ = 0 ∧ b1.toList = [v] ∧
          d1.capacity_ = (if d.size_ < d.capacity_ then d.capacity_ else d.capacity_ * 2) ∧
          d1.begin_ = (if d.size_ < d.capacity_ then d.begin_ else 0))) := by
    intro hshape heq
    obtain ⟨d1, e1, e2, e3⟩ := PushBlockBack_spec d run h.layout
    obtain ⟨c1, c2, _, _⟩ := PushBlockBack_fields d d1 _ e1
    obtain ⟨d2, b1, f1, f2, f3, f4, f5, f6, f7, f8⟩ := PushBack.finish_back_spec d1 _
      run.length (Block.ctor BlockSize) v e2
      (by rw [List.getElem?_append_right (le_refl _)]; simp) Block.ctor_WF hctor
    obtain ⟨g1, g2, _⟩ := PushBack.finish_fields d1 d2 _ v f1
    have hset : (run ++ [Block.ctor BlockSize]).set run.length b1 = run ++ [b1] := by simp
    rw [hset] at f2
    have hb1s : b1.size_ = 1 := by rw [f6]; rfl
    refine ⟨d2, run ++ [b1], by rw [heq, e1]; exact f1, ⟨f2, ?_, ?_⟩, Or.inr ⟨hshape, b1, rfl,
      hb1s, f8 rfl, ?_, by rw [g1, c1], by rw [g2, c2]⟩⟩
    · intro x hx
      rcases List.mem_append.mp hx with hx | hx
      · exact h.wf x hx
      · simp only [List.mem_singleton] at hx
        subst hx
        exact ⟨f4, by omega⟩
    · rw [f3, e3, h.count, sum_sizes_append]
      simp [hb1s]
    · rw [f5]
      simp [Block.toList, Block.ctor]
  rcases List.eq_nil_or_concat run with hnil | ⟨init, l, hrun⟩
  · have hs : d.size_ = 0 := by rw [h.layout.size_eq, hnil]; rfl
    exact hnew (Or.inl hnil) (by simp only [PushBack, hs, if_true])
  · rw [List.concat_eq_append] at hrun
    have hs : d.size_ = init.length + 1 := by rw [h.layout.size_eq, hrun]; simp
    have hl : run[init.length]? = some l := by rw [hrun]; simp
    have hlwf := h.wf l (List.getElem?_mem hl)
    have hblk := h.layout.block_eq init.length l hl
    by_cases hroom : l.IsBackEmpty = true
    · obtain ⟨d2, b1, f1, f2, f3, f4, f5, f6, f7, f8⟩ := PushBack.finish_back_spec d _
        init.length l v h.layout hl hlwf.1 hroom
      obtain ⟨g1, g2, _⟩ := PushBack.finish_fields d d2 _ v f1
      have hset : run.set init.length b1 = init ++ [b1] := by rw [hrun]; simp
      rw [hset] at f2
      refine ⟨d2, init ++ [b1], ?_, ⟨f2, ?_, ?_⟩, Or.inl ⟨init, l, b1, hrun, hroom, rfl, f6,
        f7 hlwf.2, f5, g1, g2⟩⟩
      · simp only [PushBack, hs, Nat.add_one_ne_zero, if_false, Nat.add_sub_cancel, hblk, hroom,
          if_true]
        exact f1
      · intro x hx
        rcases List.mem_append.mp hx with hx | hx
        · exact h.wf x (by rw [hrun]; exact List.mem_append_left _ hx)
        · simp only [List.mem_singleton] at hx
          subst hx
          exact ⟨f4, by omega⟩
      · rw [f3, h.count, hrun, sum_sizes_append, sum_sizes_append]
        simp [f6]
        omega
    · have hroom2 : l.IsBackEmpty = false := by
        cases hc : l.IsBackEmpty with
        | true => exact absurd hc hroom
        | false => rfl
      exact hnew (Or.inr ⟨init, l, hrun, hroom2⟩) (by
        simp only [PushBack, hs, Nat.add_one_ne_zero, if_false, Nat.add_sub_cancel, hblk,
          hroom2, Bool.false_eq_true])

theorem PushFront_Held (d : Deque) (run : List Block) (v : Int) (h : Held d run) :
    ∃ d1 run1, d.PushFront v = some d1 ∧ Held d1 run1 ∧
      ((∃ f rest f1, run = f :: rest ∧ f.IsFrontEmpty = true ∧ run1 = f1 :: rest ∧
          f1.size_ = f.size_ + 1 ∧ f1.begin_ + 1 = f.begin_ ∧ f1.toList = v :: f.toList ∧
          d1.capacity_ = d.capacity_ ∧ d1.begin_ = d.begin_) ∨
       (run = [] ∧ ∃ b1, run1 = [b1] ∧ b1.size_ = 1 ∧ b1.begin_ + 1 = BlockSize ∧
          b1.toList = [v] ∧ d1.capacity_ = d.capacity_ ∧ d1.begin_ = d.begin_) ∨
       ((∃ f rest, run = f :: rest ∧ f.IsFrontEmpty = false) ∧
          ∃ b1, run1 = b1 :: run ∧ b1.size_ = 1 ∧ b1.begin_ + 1 = BlockSize ∧
          b1.toList = [v] ∧
          d1.capacity_ = (if d.size_ < d.capacity_ then d.capacity_ else d.capacity_ * 2) ∧
          d1.begin_ = d1.Prev (if d.size_ < d.capacity_ then d.begin_ else 0) 1)) := by
  have hctor : (Block.ctor BlockSize).IsFrontEmpty = true := by decide
  have hcap := h.layout.begin_lt
  cases run with
  | nil =>
    have hs : d.size_ = 0 := h.layout.size_eq
    obtain ⟨d1, e1, e2, e3⟩ := PushBlockBack_spec d [] h.layout
    obtain ⟨c1, c2, _, _⟩ := PushBlockBack_fields d d1 _ e1
    rw [if_pos (by omega)] at c1 c2
    obtain ⟨d2, b1, f1, f2, f3, f4, f5, f6, f7, f8⟩ := PushFront.finish_front_spec d1 _ 0
      (Block.ctor BlockSize) v e2 (by simp) Block.ctor_WF hctor
    obtain ⟨g1, g2, _⟩ := PushFront.finish_front_fields d1 d2 _ v f1
    have hb1s : b1.size_ = 1 := by rw [f6]; rfl
    refine ⟨d2, [b1], ?_, ⟨by simpa using f2, ?_, ?_⟩, Or.inr (Or.inl ⟨rfl, b1, rfl, hb1s,
      f8 rfl, ?_, by rw [g1, c1], by rw [g2, c2]⟩)⟩
    · simp only [PushFront, hs, if_true, e1]
      exact f1
    · intro x hx
      simp only [List.mem_singleton] at hx
      subst hx
      exact ⟨f4, by omega⟩
    · rw [f3, e3, h.count]
      simp [hb1s]
    · rw [f5]
      simp [Block.toList, Block.ctor]
  | cons f rest =>
    have hs : d.size_ = rest.length + 1 := by simpa using h.layout.size_eq
    have hf : (f :: rest)[0]? = some f := by simp
    have hfwf := h.wf f (by simp)
    have hblk := h.layout.block_eq 0 f hf
    have hz := Next_zero d d.begin_ h.layout.begin_lt
    rw [hz] at hblk
    by_cases hroom : f.IsFrontEmpty = true
    · obtain ⟨d2, b1, f1, f2, f3, f4, f5, f6, f7, f8⟩ := PushFront.finish_front_spec d _ 0
        f v h.layout hf hfwf.1 hroom
      rw [hz] at f1
      obtain ⟨g1, g2, _⟩ := PushFront.finish_front_fields d d2 _ v f1
      have hset : (f :: rest).set 0 b1 = b1 :: rest := by simp
      rw [hset] at f2
      refine ⟨d2, b1 :: rest, ?_, ⟨f2, ?_, ?_⟩, Or.inl ⟨f, rest, b1, rfl, hroom, rfl, f6,
        f7 hfwf.2, f5, g1, g2⟩⟩
      · simp only [PushFront, hs, Nat.add_one_ne_zero, if_false, hblk, hroom, if_true]
        exact f1
      · intro x hx
        rcases List.mem_cons.mp hx with hx | hx
        · subst hx
          exact ⟨f4, by omega⟩
        · exact h.wf x (List.mem_cons_of_mem _ hx)
      · rw [f3, h.count]
        simp [f6]
        omega
    · have hroom2 : f.IsFrontEmpty = false := by
        cases hc : f.IsFrontEmpty with
        | true => exact absurd hc hroom
        | false => rfl
      obtain ⟨d1, e1, e2, e3⟩ := PushBlockFront_spec d _ h.layout
      obtain ⟨c1, c2, _, _, _⟩ := PushBlockFront_fields d d1 _ e1
      obtain ⟨d2, b1, f1, f2, f3, f4, f5, f6, f7, f8⟩ := PushFront.finish_front_spec d1 _
        0 (Block.ctor BlockSize) v e2 (by simp) Block.ctor_WF hctor
      rw [Next_zero d1 d1.begin_ e2.begin_lt] at f1
      obtain ⟨g1, g2, _⟩ := PushFront.finish_front_fields d1 d2 _ v f1
      have hset : (Block.ctor BlockSize :: f :: rest).set 0 b1 = b1 :: f :: rest := by simp
      rw [hset] at f2
      have hb1s : b1.size_ = 1 := by rw [f6]; rfl
      refine ⟨d2, b1 :: f :: rest, ?_, ⟨f2, ?_, ?_⟩, Or.inr (Or.inr ⟨⟨f, rest, rfl, hroom2⟩,
        b1, rfl, hb1s, f8 rfl, ?_, by rw [g1, c1], ?_⟩)⟩
      · simp only [PushFront, hs, Nat.add_one_ne_zero, if_false, hblk, hroom2,
          Bool.false_eq_true, e1]
        exact f1
      · intro x hx
        rcases List.mem_cons.mp hx with hx | hx
        · subst hx
          exact ⟨f4, by omega⟩
        · exact h.wf x hx
      · rw [f3, e3, h.count]
        simp [hb1s]
        omega
      · rw [f5]
        simp [Block.toList, Block.ctor]
      · rw [g2, c2]
        simp only [Prev, g1]

theorem PopBack_Held (d : Deque) (run : List Block) (h : Held d run) (hne : run ≠ []) :
    ∃ d1 init l, run = init ++ [l] ∧ d.PopBack = some d1 ∧
      d1.capacity_ = d.capacity_ ∧ d1.begin_ = d.begin_ ∧
      ((l.size_ = 1 ∧ Held d1 init) ∨ (1 < l.size_ ∧ Held d1 (init ++ [l.PopBack]))) := by
  rcases List.eq_nil_or_concat run with hnil | ⟨init, l, hrun⟩
  · exact absurd hnil hne
  · subst hrun
    rw [List.concat_eq_append] at h ⊢
    have hs : d.size_ = init.length + 1 := by simpa using h.layout.size_eq
    have hl : (init ++ [l])[init.length]? = some l := by simp
    have hlwf := h.wf l (by simp)
    have hblk := h.layout.block_eq init.length l hl
    obtain ⟨p1, p2, p3, p4⟩ := Block.PopBack_spec l hlwf.1 hlwf.2
    have hcnt : d.count_elem_ = (init.map Block.size_).sum + l.size_ := by
      rw [h.count, sum_sizes_append]; simp
    have hw1 : wsub d.size_ 1 = init.length := by rw [wsub_one_pos _ (by omega)]; omega
    have hw2 : wsub d.count_elem_ 1 = d.count_elem_ - 1 := wsub_one_pos _ (by omega)
    by_cases hz : l.PopBack.Size = 0
    · have hlay := h.layout.dropLast (d.count_elem_ - 1) (by simp)
      simp only [List.length_append, List.length_singleton, Nat.add_sub_cancel,
        List.dropLast_concat] at hlay
      have hl1 : l.size_ = 1 := by
        simp only [Block.Size] at hz
        omega
      refine ⟨_, init, l, rfl, ?_, ?_, ?_, Or.inl ⟨hl1, hlay, ?_, ?_⟩⟩
      · simp only [PopBack, hw1, hblk, hz, if_true, hw2]
      · rfl
      · rfl
      · intro x hx
        exact h.wf x (List.mem_append_left _ hx)
      · simp only [hcnt]
        omega
    · have hlay := h.layout.set init.length (d.count_elem_ - 1) l.PopBack (by simp)
      have hset : (init ++ [l]).set init.length l.PopBack = init ++ [l.PopBack] := by simp
      rw [hset] at hlay
      have hl1 : 1 < l.size_ := by
        simp only [Block.Size] at hz
        omega
      refine ⟨_, init, l, rfl, ?_, ?_, ?_, Or.inr ⟨hl1, hlay, ?_, ?_⟩⟩
      · simp only [PopBack, hw1, hblk, hz, if_false, hw2]
      · rfl
      · rfl
      · intro x hx
        rcases List.mem_append.mp hx with hx | hx
        · exact h.wf x (List.mem_append_left _ hx)
        · simp only [List.mem_singleton] at hx
          subst hx
          exact ⟨p1, by omega⟩
      · simp only [hcnt, sum_sizes_append]
        simp [p3]
        omega

theorem PopFront_Held (d : Deque) (run : List Block) (h : Held d run) (hne : run ≠ []) :
    ∃ d1 f rest, run = f :: rest ∧ d.PopFront = some d1 ∧ d1.capacity_ = d.capacity_ ∧
      ((f.size_ = 1 ∧ Held d1 rest ∧ d1.begin_ = d.Next d.begin_ 1) ∨
       (1 < f.size_ ∧ Held d1 (f.PopFront :: rest) ∧ d1.begin_ = d.begin_)) := by
  cases run with
  | nil => exact absurd rfl hne
  | cons f rest =>
    have hs : d.size_ = rest.length + 1 := by simpa using h.layout.size_eq
    have hf : (f :: rest)[0]? = some f := by simp
    have hfwf := h.wf f (by simp)
    have hblk := h.layout.block_eq 0 f hf
    have hzero := Next_zero d d.begin_ h.layout.begin_lt
    rw [hzero] at hblk
    obtain ⟨p1, p2, p3, p4⟩ := Block.PopFront_spec f hfwf.1 hfwf.2
    have hcnt : d.count_elem_ = f.size_ + (rest.map Block.size_).sum := by
      rw [h.count]; simp
    have hw1 : wsub d.size_ 1 = rest.length := by rw [wsub_one_pos _ (by omega)]; omega
    have hw2 : wsub d.count_elem_ 1 = d.count_elem_ - 1 := wsub_one_pos _ (by omega)
    by_cases hz : f.PopFront.Size = 0
    · have hlay := h.layout.tail (d.count_elem_ - 1) (by simp)
      simp only [List.length_cons, Nat.add_sub_cancel, List.tail_cons] at hlay
      have hf1 : f.size_ = 1 := by
        simp only [Block.Size] at hz
        omega
      refine ⟨_, f, rest, rfl, ?_, ?_, Or.inl ⟨hf1, ⟨hlay, ?_, ?_⟩, ?_⟩⟩
      · simp only [PopFront, hw1, hblk, hz, if_true, hw2]
      · rfl
      · intro x hx
        exact h.wf x (List.mem_cons_of_mem _ hx)
      · simp only [hcnt]
        omega
      · rfl
    · have hlay := h.layout.set 0 (d.count_elem_ - 1) f.PopFront (by simp)
      have hset : (f :: rest).set 0 f.PopFront = f.PopFront :: rest := by simp
      rw [hset, hzero] at hlay
      have hf1 : 1 < f.size_ := by
        simp only [Block.Size] at hz
        omega
      refine ⟨_, f, rest, rfl, ?_, ?_, Or.inr ⟨hf1, ⟨hlay, ?_, ?_⟩, ?_⟩⟩
      · simp only [PopFront, hw1, hblk, hz, if_false, hw2]
      · rfl
      · intro x hx
        rcases List.mem_cons.mp hx with hx | hx
        · subst hx
          exact ⟨p1, by omega⟩
        · exact h.wf x (List.mem_cons_of_mem _ hx)
      · simp only [hcnt]
        simp [p3]
        omega
      · rfl

theorem Held.run_ne_nil {d : Deque} {run : List Block} (h : Held d run) (hpos : 0 < d.Size) :
    run ≠ [] := by
  intro hnil
  subst hnil
  have := h.count
  simp only [Size] at hpos
  simp at this
  omega

theorem Held.Size_pos {d : Deque} {run : List Block} (h : Held d run) (hne : run ≠ []) :
    0 < d.Size := by
  cases run with
  | nil => exact absurd rfl hne
  | cons f rest =>
    have h1 := (h.wf f (by simp)).2
    have h2 := sum_sizes_pos (f :: rest) f (by simp)
    have h3 := h.count
    simp only [Size]
    omega

theorem Held.Size_eq_sum {d : Deque} {run : List Block} (h : Held d run) :
    d.Size = (run.map Block.size_).sum := h.count

theorem PopBack_Held_Size (d : Deque) (run : List Block) (h : Held d run) (hpos : 0 < d.Size) :
    ∃ d1 run1, d.PopBack = some d1 ∧ Held d1 run1 ∧ d1.capacity_ = d.capacity_ ∧
      d1.Size + 1 = d.Size := by
  obtain ⟨d1, init, l, e1, e2, e3, _, e5⟩ := PopBack_Held d run h (h.run_ne_nil hpos)
  have hc := h.count
  rw [e1, sum_sizes_append] at hc
  simp only [List.map_cons, List.map_nil, List.sum_cons, List.sum_nil, Nat.add_zero] at hc
  rcases e5 with ⟨g1, g2⟩ | ⟨g1, g2⟩
  · refine ⟨d1, init, e2, g2, e3, ?_⟩
    have := g2.count
    simp only [Size]
    omega
  · refine ⟨d1, _, e2, g2, e3, ?_⟩
    have := g2.count
    have hp := (Block.PopBack_spec l (h.wf l (by rw [e1]; simp)).1 (by omega)).2.2.1
    rw [sum_sizes_append] at this
    simp only [List.map_cons, List.map_nil, List.sum_cons, List.sum_nil, Nat.add_zero, hp] at this
    simp only [Size]
    omega

theorem PopFront_Held_Size (d : Deque) (run : List Block) (h : Held d run) (hpos : 0 < d.Size) :
    ∃ d1 run1, d.PopFront = some d1 ∧ Held d1 run1 ∧ d1.capacity_ = d.capacity_ ∧
      d1.Size + 1 = d.Size := by
  obtain ⟨d1, f, rest, e1, e2, e3, e5⟩ := PopFront_Held d run h (h.run_ne_nil hpos)
  have hc := h.count
  rw [e1] at hc
  simp only [List.map_cons, List.sum_cons] at hc
  rcases e5 with ⟨g1, g2, _⟩ | ⟨g1, g2, _⟩
  · refine ⟨d1, rest, e2, g2, e3, ?_⟩
    have := g2.count
    simp only [Size]
    omega
  · refine ⟨d1, _, e2, g2, e3, ?_⟩
    have := g2.count
    have hp := (Block.PopFront_spec f (h.wf f (by rw [e1]; simp)).1 (by omega)).2.2.1
    simp only [List.map_cons, List.sum_cons, hp] at this
    simp only [Size]
    omega

theorem Clear.loop_Held : ∀ (fuel : Nat) (d : Deque) (run : List Block), Held d run →
    d.Size ≤ fuel →
    ∃ d1, Clear.loop fuel d = some (some d1) ∧ Held d1 [] ∧ d1.capacity_ = d.capacity_ := by
  intro fuel
  induction fuel with
  | zero =>
    intro d run h hle
    have hz : ¬ d.Size > 0 := by omega
    have hnil : run = [] := by
      by_contra hne
      have := h.Size_pos hne
      omega
    subst hnil
    exact ⟨d, by simp only [Clear.loop, hz, if_false], h, rfl⟩
  | succ fuel ih =>
    intro d run h hle
    by_cases hz : d.Size > 0
    · obtain ⟨d1, run1, e1, e2, e3, e4⟩ := PopBack_Held_Size d run h hz
      have hd1 : d1.Size ≤ fuel := by omega
      obtain ⟨d2, f1, f2, f3⟩ := ih d1 run1 e2 hd1
      exact ⟨d2, by simp only [Clear.loop, hz, if_true, e1]; exact f1, f2, by rw [f3, e3]⟩
    · have hnil : run = [] := by
        by_contra hne
        have := h.Size_pos hne
        omega
      subst hnil
      exact ⟨d, by simp only [Clear.loop, hz, if_false], h, rfl⟩

theorem Abs.some_Held {d : Deque} {L : List Int} (h : Abs d L) : ∃ run, Held d run := by
  obtain ⟨run, hR, _⟩ := h
  exact ⟨run, hR.to_Held⟩

theorem ctorCopy.loop_some (rhs : Deque) : ∀ (n i : Nat) (d d1 : Deque) (M : List Int),
    Abs d M → i + n ≤ M.length → ctorCopy.loop rhs n i d = some d1 → ∃ M1, Abs d1 M1 := by
  intro n
  induction n with
  | zero =>
    intro i d d1 M h _ hl
    simp only [ctorCopy.loop, Option.some.injEq] at hl
    subst hl
    exact ⟨M, h⟩
  | succ n ih =>
    intro i d d1 M h hn hl
    simp only [ctorCopy.loop] at hl
    cases hg : rhs.get i with
    | none =>
      rw [hg] at hl
      cases hl
    | some v =>
      rw [hg] at hl
      obtain ⟨d2, e1, e2⟩ := h.assign i v (by omega)
      simp only [e1] at hl
      exact ih (i + 1) d2 d1 _ e2 (by simp; omega) hl

theorem ctorCopy_some (rhs d : Deque) (h : ctorCopy rhs = some d) : ∃ M, Abs d M := by
  obtain ⟨d0, e1, e2⟩ := ctorSize_Abs rhs.Size
  simp only [ctorCopy, e1] at h
  exact ctorCopy.loop_some rhs d0.Size 0 d0 d _ e2 (by rw [e2.Size_eq]; omega) h

/-- C11. Swap and copy assignment: `a.Swap(b)` leaves `a` in the former state of `b`
(all five fields) and `b` in the former state of `a`, so that swapping twice changes
nothing; and for every reachable `b` the copy assignment `a = b`, which copies `b`
and swaps the copy into `a`, is defined and leaves `a.Size() = b.Size()` and
`a[i] = b[i]` for every `i < b.Size()`.  The assignment only reads `b`. -/
theorem C11_Swap_and_copy_assign (a b : Deque) (hb : Reachable b) :
    a.Swap b = (b, a) ∧ (a.Swap b).1.Swap (a.Swap b).2 = (a, b) ∧
    ∃ a1, copyAssign a b = some a1 ∧ a1.Size = b.Size ∧
      ∀ i, i < b.Size → ∃ x, b.get i = some x ∧ a1.get i = some x := by
  refine ⟨rfl, rfl, ?_⟩
  obtain ⟨L, hL⟩ := hb.Abs
  obtain ⟨c, e1, e2⟩ := ctorCopy_Abs b L hL
  refine ⟨c, by simp only [copyAssign, e1]; rfl, by rw [e2.Size_eq, hL.Size_eq], ?_⟩
  intro i hi
  have hi2 : i < L.length := by rw [← hL.Size_eq]; exact hi
  exact ⟨L[i], by rw [hL.get i hi2, List.getElem?_eq_getElem],
    by rw [e2.get i hi2, List.getElem?_eq_getElem]⟩

set_option maxRecDepth 100000 in
/-- C11 at `a` a default-constructed deque and `b` the deque `Deque{1, 2, 3}` after one
`PopFront()`. -/
theorem C11_Swap_and_copy_assign_witness :
    Reachable sample23 ∧
    sampleEmpty.Swap sample23 = (sample23, sampleEmpty) ∧
    (sampleEmpty.Swap sample23).1.Swap (sampleEmpty.Swap sample23).2
      = (sampleEmpty, sample23) ∧
    ∃ a1, copyAssign sampleEmpty sample23 = some a1 ∧ a1.Size = sample23.Size ∧
      ∀ i, i < sample23.Size → ∃ x, sample23.get i = some x ∧ a1.get i = some x :=
  ⟨Reachable.PopFront (d := sample123) (Reachable.ctorList (l := [1, 2, 3]) (by decide))
      (by decide) (by decide),
   C11_Swap_and_copy_assign sampleEmpty sample23
    (Reachable.PopFront (d := sample123) (Reachable.ctorList (l := [1, 2, 3]) (by decide))
      (by decide) (by decide))⟩

/-- C12. Structural well-formedness is an invariant: `WellFormed` (invariants A and B
and `count_elem_` equal to the sum of `Size()` over the live blocks) holds of the
object built by each constructor, and on a well-formed deque `PushBack`, `PushFront`,
`PopBack` and `PopFront` (with `Size() > 0`) and `Clear` are defined and leave it well
formed. -/
theorem C12_WellFormed_is_invariant :
    (∀ d, ctor = some d → WellFormed d) ∧
    (∀ n d, ctorSize n = some d → WellFormed d) ∧
    (∀ l d, ctorList l = some d → WellFormed d) ∧
    (∀ rhs d, ctorCopy rhs = some d → WellFormed d) ∧
    (∀ rhs, WellFormed rhs → WellFormed (ctorMove rhs).1) ∧
    (∀ d v, WellFormed d → ∃ d1, d.PushBack v = some d1 ∧ WellFormed d1) ∧
    (∀ d v, WellFormed d → ∃ d1, d.PushFront v = some d1 ∧ WellFormed d1) ∧
    (∀ d, WellFormed d → 0 < d.Size → ∃ d1, d.PopBack = some d1 ∧ WellFormed d1) ∧
    (∀ d, WellFormed d → 0 < d.Size → ∃ d1, d.PopFront = some d1 ∧ WellFormed d1) ∧
    (∀ d, WellFormed d → ∃ d1, (∀ fuel, d.Size ≤ fuel → Clear.loop fuel d = some (some d1)) ∧
      WellFormed d1) := by
  refine ⟨?_, ?_, ?_, ?_, ?_, ?_, ?_, ?_, ?_, ?_⟩
  · intro d hd
    obtain ⟨d0, e1, e2⟩ := ctor_Abs
    rw [hd] at e1
    cases e1
    obtain ⟨run, hr⟩ := e2.some_Held
    exact hr.WellFormed
  · intro n d hd
    obtain ⟨d0, e1, e2⟩ := ctorSize_Abs n
    rw [hd] at e1
    cases e1
    obtain ⟨run, hr⟩ := e2.some_Held
    exact hr.WellFormed
  · intro l d hd
    obtain ⟨d0, e1, e2⟩ := ctorList_Abs l
    rw [hd] at e1
    cases e1
    obtain ⟨run, hr⟩ := e2.some_Held
    exact hr.WellFormed
  · intro rhs d hd
    obtain ⟨M, hM⟩ := ctorCopy_some rhs d hd
    obtain ⟨run, hr⟩ := hM.some_Held
    exact hr.WellFormed
  · intro rhs h
    exact h
  · intro d v h
    obtain ⟨run, hr⟩ := h.held_run
    obtain ⟨d1, run1, e1, e2, _⟩ := PushBack_Held d run v hr
    exact ⟨d1, e1, e2.WellFormed⟩
  · intro d v h
    obtain ⟨run, hr⟩ := h.held_run
    obtain ⟨d1, run1, e1, e2, _⟩ := PushFront_Held d run v hr
    exact ⟨d1, e1, e2.WellFormed⟩
  · intro d h hpos
    obtain ⟨run, hr⟩ := h.held_run
    obtain ⟨d1, run1, e1, e2, _⟩ := PopBack_Held_Size d run hr hpos
    exact ⟨d1, e1, e2.WellFormed⟩
  · intro d h hpos
    obtain ⟨run, hr⟩ := h.held_run
    obtain ⟨d1, run1, e1, e2, _⟩ := PopFront_Held_Size d run hr hpos
    exact ⟨d1, e1, e2.WellFormed⟩
  · intro d h
    obtain ⟨run, hr⟩ := h.held_run
    obtain ⟨d1, e1, e2, _⟩ := Clear.loop_Held d.Size d run hr (le_refl _)
    exact ⟨d1, fun fuel hle => Clear.loop_le d.Size fuel d _ hle e1, e2.WellFormed⟩

set_option maxRecDepth 100000 in
/-- C12 at `Deque(300)`, a well-formed deque of three blocks: the five operations are
defined on it and leave it well formed. -/
theorem C12_WellFormed_is_invariant_witness :
    WellFormed sample300 ∧ 0 < sample300.Size ∧
    (∃ d1, sample300.PushBack 5 = some d1 ∧ WellFormed d1) ∧
    (∃ d1, sample300.PushFront 5 = some d1 ∧ WellFormed d1) ∧
    (∃ d1, sample300.PopBack = some d1 ∧ WellFormed d1) ∧
    (∃ d1, sample300.PopFront = some d1 ∧ WellFormed d1) ∧
    (∃ d1, (∀ fuel, sample300.Size ≤ fuel → Clear.loop fuel sample300 = some (some d1)) ∧
      WellFormed d1) :=
  ⟨by decide, by decide,
   C12_WellFormed_is_invariant.2.2.2.2.2.1 sample300 5 (by decide),
   C12_WellFormed_is_invariant.2.2.2.2.2.2.1 sample300 5 (by decide),
   C12_WellFormed_is_invariant.2.2.2.2.2.2.2.1 sample300 (by decide) (by decide),
   C12_WellFormed_is_invariant.2.2.2.2.2.2.2.2.1 sample300 (by decide) (by decide),
   C12_WellFormed_is_invariant.2.2.2.2.2.2.2.2.2 sample300 (by decide)⟩

/-! ## Density and alignment in reachable states -/

theorem Rep.index {d : Deque} {run : List Block} (h : Rep d run) (k : Nat) (hk : k < d.size_) :
    ∃ b, d.block (d.Next d.begin_ k) = some b ∧ run[k]? = some b ∧ b.WF ∧ 0 < b.size_ ∧
      (0 < k → b.begin_ = 0) ∧ (k + 1 < d.size_ → b.begin_ + b.size_ = BlockSize) := by
  have hlt : k < run.length := by rw [← h.layout.size_eq]; exact hk
  have hr : run[k]? = some run[k] := List.getElem?_eq_getElem hlt
  obtain ⟨h1, h2, h3, h4⟩ := (RunOK_iff run).mp h.ok k run[k] hr
  exact ⟨run[k], h.layout.block_eq k _ hr, hr, h1, h2, h3,
    fun hp => h4 (by rw [← h.layout.size_eq]; exact hp)⟩

theorem Rep.Dense {d : Deque} {run : List Block} (h : Rep d run) : Dense d := by
  intro k hk1 hk2
  obtain ⟨b, e1, _, _, _, e5, e6⟩ := h.index k (by omega)
  have := e5 hk1
  have := e6 hk2
  rw [e1]
  simp only [Option.map_some', Block.Size, Option.some.injEq]
  omega

theorem Rep.Aligned {d : Deque} {run : List Block} (h : Rep d run) : Aligned d := by
  constructor
  · intro k hk1 hk2
    obtain ⟨b, e1, _, _, _, e5, _⟩ := h.index k hk2
    rw [e1]
    simp only [Option.map_some', Option.some.injEq]
    exact e5 hk1
  · intro k hk
    obtain ⟨b, e1, _, e3, _, _, e6⟩ := h.index k (by omega)
    exact ⟨b, e1, by rw [e3.max]; exact e6 hk⟩

theorem Layout.grow_null {d : Deque} {run : List Block} (h : Layout d run) :
    ∃ d1, (if !d.AnyBlockPlace then d.DoubleCapacity else some d) = some d1 ∧
      Layout d1 run ∧ run.length < d1.capacity_ ∧
      d1.blocks_[d1.Next d1.begin_ d1.size_]? = some none ∧
      d1.blocks_[d1.Prev d1.begin_ 1]? = some none := by
  have key : ∀ d0 : Deque, Layout d0 run → run.length < d0.capacity_ →
      d0.blocks_[d0.Next d0.begin_ d0.size_]? = some none ∧
      d0.blocks_[d0.Prev d0.begin_ 1]? = some none := by
    intro d0 h0 hlt
    have hb0 := h0.begin_lt
    have hp := Prev_one d0 d0.begin_ hb0
    have hpn : d0.Prev d0.begin_ 1 = d0.Next d0.begin_ (d0.capacity_ - 1) := by
      rw [hp]
      unfold Next
      split_ifs <;> omega
    refine ⟨?_, ?_⟩
    · rw [h0.size_eq]
      exact h0.null_after run.length (le_refl _) hlt
    · rw [hpn]
      exact h0.null_after (d0.capacity_ - 1) (by omega) (by omega)
  have hb := h.begin_lt
  have hle := h.size_le
  have hsz := h.size_eq
  by_cases hfull : d.size_ < d.capacity_
  · refine ⟨d, ?_, h, by omega, key d h (by omega)⟩
    simp only [AnyBlockPlace, hfull, decide_True, Bool.not_true, Bool.false_eq_true, if_false]
  · obtain ⟨d0, f1, f2, f3, _⟩ := SetCapacity_spec d run (d.capacity_ * 2) h (by omega)
    refine ⟨d0, ?_, f2, by omega, key d0 f2 (by omega)⟩
    simp only [AnyBlockPlace, hfull, decide_False, Bool.not_false, if_true, DoubleCapacity, f1]

/-- C13. Density: in every reachable state, every block of the run that is neither the
first (run position 0) nor the last (run position `size_ - 1`) has
`Size() = BlockSize`. -/
theorem C13_density_invariant (d : Deque) (h : Reachable d) : Dense d := by
  obtain ⟨L, run, hR, _⟩ := h.Abs
  exact hR.Dense

set_option maxRecDepth 100000 in
/-- C13 at `Deque(300)`, whose middle block is full. -/
theorem C13_density_invariant_witness :
    Reachable sample300 ∧ Dense sample300 ∧
    (sample300.block (sample300.Next sample300.begin_ 1)).map Block.Size = some BlockSize :=
  ⟨Reachable.ctorSize (n := 300) (by decide),
   C13_density_invariant sample300 (Reachable.ctorSize (n := 300) (by decide)),
   C13_density_invariant sample300 (Reachable.ctorSize (n := 300) (by decide)) 1
     (by decide) (by decide)⟩

/-- C20. Alignment: in every reachable state, every block of the run other than the
first has `begin_ = 0` and every block of the run other than the last has
`begin_ + size_ = max_size_`; and the slot in which `PushBlockBack` or
`PushBlockFront` would create a block, after the directory has grown if it was full,
is null, so that the guard of `MakeBlock` finds no block there. -/
theorem C20_alignment_invariant (d : Deque) (h : Reachable d) :
    Aligned d ∧
    ∃ d1, (if !d.AnyBlockPlace then d.DoubleCapacity else some d) = some d1 ∧
      d1.blocks_[d1.Next d1.begin_ d1.size_]? = some none ∧
      d1.blocks_[d1.Prev d1.begin_ 1]? = some none := by
  obtain ⟨L, run, hR, _⟩ := h.Abs
  obtain ⟨d1, e1, _, _, e4, e5⟩ := hR.layout.grow_null
  exact ⟨hR.Aligned, d1, e1, e4, e5⟩

set_option maxRecDepth 100000 in
/-- C20 at `Deque(300)`, whose directory of three slots is full. -/
theorem C20_alignment_invariant_witness :
    Reachable sample300 ∧ Aligned sample300 ∧
    ∃ d1, (if !sample300.AnyBlockPlace then sample300.DoubleCapacity else some sample300)
        = some d1 ∧
      d1.blocks_[d1.Next d1.begin_ d1.size_]? = some none ∧
      d1.blocks_[d1.Prev d1.begin_ 1]? = some none :=
  ⟨Reachable.ctorSize (n := 300) (by decide),
   C20_alignment_invariant sample300 (Reachable.ctorSize (n := 300) (by decide))⟩

/-! ## Index translation under density alone -/

theorem locate_tail_dense : ∀ (rest : List Block) (j : Nat),
    (∀ b ∈ rest, b.size_ ≤ 128) → (∀ b ∈ rest.dropLast, b.size_ = 128) →
    j < (rest.map Block.size_).sum →
    ∃ b, rest[j / 128]? = some b ∧ j % 128 < b.size_ ∧
      j = j % 128 + ((rest.take (j / 128)).map Block.size_).sum := by
  intro rest
  induction rest with
  | nil =>
    intro j _ _ hj
    simp at hj
  | cons a as ih =>
    intro j h1 h2 hj
    have hab := h1 a (by simp)
    simp only [List.map_cons, List.sum_cons] at hj
    by_cases hlt : j < a.size_
    · have e1 : j / 128 = 0 := by omega
      have e2 : j % 128 = j := by omega
      refine ⟨a, by rw [e1]; simp, by omega, ?_⟩
      rw [e1, e2]
      simp
    · have hasne : as ≠ [] := by
        intro hnil
        subst hnil
        simp at hj
        omega
      have ha128 : a.size_ = 128 := h2 a (by
        rw [List.dropLast_cons_of_ne_nil hasne]
        simp)
      obtain ⟨b, q1, q2, q3⟩ := ih (j - 128)
        (fun b hb => h1 b (List.mem_cons_of_mem _ hb))
        (fun b hb => h2 b (by
          rw [List.dropLast_cons_of_ne_nil hasne]
          exact List.mem_cons_of_mem _ hb))
        (by omega)
      have e1 : j / 128 = (j - 128) / 128 + 1 := by omega
      have e2 : j % 128 = (j - 128) % 128 := by omega
      refine ⟨b, by rw [e1, List.getElem?_cons_succ]; exact q1, by omega, ?_⟩
      rw [e1, List.take_succ_cons, List.map_cons, List.sum_cons, ha128, e2]
      omega

theorem Held.run_dense {d : Deque} {run : List Block} (h : Held d run) (hd : Dense d)
    (k : Nat) (b : Block) (hk1 : 0 < k) (hk2 : k + 1 < run.length) (hb : run[k]? = some b) :
    b.size_ = 128 := by
  have := hd k hk1 (by rw [h.layout.size_eq]; exact hk2)
  rw [h.layout.block_eq k b hb] at this
  simp only [Option.map_some', Block.Size, Option.some.injEq, BlockSize_eq] at this
  exact this

theorem locate_dense (d : Deque) (run : List Block) (i : Nat) (h : Held d run) (hd : Dense d)
    (hi : i < d.count_elem_) :
    ∃ slot pos k b, d.FindLocalIndex i = some (slot, pos) ∧ k < d.size_ ∧
      slot = d.Next d.begin_ k ∧ run[k]? = some b ∧ d.block slot = some b ∧ pos < b.Size ∧
      i = pos + sizeBefore d k := by
  rw [h.count] at hi
  cases run with
  | nil => simp at hi
  | cons f rest =>
    have hf : (f :: rest)[0]? = some f := by simp
    have hfwf := h.wf f (by simp)
    have hblk := h.layout.block_eq 0 f hf
    have hzero := Next_zero d d.begin_ h.layout.begin_lt
    have hsz : d.size_ = rest.length + 1 := by simpa using h.layout.size_eq
    rw [hzero] at hblk
    by_cases hlt : i < f.size_
    · refine ⟨d.begin_, i, 0, f, ?_, by omega, hzero.symm, hf, hblk, hlt, ?_⟩
      · simp only [FindLocalIndex, hblk, Block.Size, hlt, if_true]
      · simp [sizeBefore]
    · simp only [List.map_cons, List.sum_cons] at hi
      obtain ⟨b, q1, q2, q3⟩ := locate_tail_dense rest (i - f.size_)
        (fun b hb => by
          have := (h.wf b (List.mem_cons_of_mem _ hb)).1.bound
          rw [BlockSize_eq] at this
          omega)
        (fun b hb => by
          obtain ⟨n, hn⟩ := List.mem_iff_getElem?.mp hb
          rw [List.getElem?_dropLast] at hn
          by_cases hnl : n < rest.length - 1
          · rw [if_pos hnl] at hn
            exact h.run_dense hd (n + 1) b (by omega) (by simp; omega)
              (by rw [List.getElem?_cons_succ]; exact hn)
          · rw [if_neg hnl] at hn
            cases hn)
        (by omega)
      have hk : (i - f.size_) / 128 < rest.length := by
        rcases List.getElem?_eq_some.mp q1 with ⟨h1, _⟩
        exact h1
      have hcap := h.layout.size_le
      simp only [List.length_cons] at hcap
      have hrk : (f :: rest)[(i - f.size_) / 128 + 1]? = some b := by
        rw [List.getElem?_cons_succ]
        exact q1
      refine ⟨d.Next d.begin_ ((i - f.size_) / 128 + 1), (i - f.size_) % 128,
        (i - f.size_) / 128 + 1, b, ?_, by omega, rfl, hrk, h.layout.block_eq _ b hrk, q2, ?_⟩
      · simp only [FindLocalIndex, hblk, Block.Size, hlt, if_false, BlockSize_eq]
        rw [Next_Next d d.begin_ 1 _ h.layout.begin_lt (by omega) (by omega)]
        have e1 : 1 + (i - f.size_) / 128 = (i - f.size_) / 128 + 1 := by omega
        have e2 : i - f.size_ - (i - f.size_) / 128 * 128 = (i - f.size_) % 128 := by omega
        rw [e1, e2]
      · rw [h.layout.sizeBefore_eq _ (by simp; omega), List.take_succ_cons, List.map_cons,
          List.sum_cons]
        omega

/-- C14. Index translation: in every well-formed and dense state and for every
`i < count_elem_`, `FindLocalIndex(i)` is defined and returns a pair `(slot, pos)`
such that `slot = Next(begin_, k)` for some `k < size_`, the slot holds a block,
`pos < Size()` of that block, and `i` is `pos` plus the sum of the sizes of the blocks
at the run positions `0 .. k - 1`. -/
theorem C14_FindLocalIndex_correct (d : Deque) (i : Nat) (hwf : WellFormed d)
    (hd : Dense d) (hi : i < d.count_elem_) :
    ∃ slot pos k b, d.FindLocalIndex i = some (slot, pos) ∧ k < d.size_ ∧
      slot = d.Next d.begin_ k ∧ d.block slot = some b ∧ pos < b.Size ∧
      i = pos + sizeBefore d k := by
  obtain ⟨run, hr⟩ := hwf.held_run
  obtain ⟨slot, pos, k, b, e1, e2, e3, _, e5, e6, e7⟩ := locate_dense d run i hr hd hi
  exact ⟨slot, pos, k, b, e1, e2, e3, e5, e6, e7⟩

set_option maxRecDepth 100000 in
/-- C14 at `Deque(300)` and `i = 299`: the pair is slot 2, offset 43, and
`299 = 43 + 128 + 128`. -/
theorem C14_FindLocalIndex_correct_witness :
    WellFormed sample300 ∧ Dense sample300 ∧ 299 < sample300.count_elem_ ∧
    sample300.FindLocalIndex 299 = some (2, 43) ∧ sizeBefore sample300 2 = 256 ∧
    ∃ slot pos k b, sample300.FindLocalIndex 299 = some (slot, pos) ∧ k < sample300.size_ ∧
      slot = sample300.Next sample300.begin_ k ∧ sample300.block slot = some b ∧
      pos < b.Size ∧ 299 = pos + sizeBefore sample300 k :=
  ⟨by decide, by decide, by decide, by decide, by decide,
   C14_FindLocalIndex_correct sample300 299 (by decide) (by decide) (by decide)⟩

/-! ## Directory growth -/

theorem sum_sizes_le : ∀ (rest : List Block), (∀ b ∈ rest, b.size_ ≤ 128) →
    (rest.map Block.size_).sum ≤ 128 * rest.length := by
  intro rest
  induction rest with
  | nil => intro _; simp
  | cons a as ih =>
    intro h
    have h1 := h a (by simp)
    have h2 := ih (fun b hb => h b (List.mem_cons_of_mem _ hb))
    simp only [List.map_cons, List.sum_cons, List.length_cons]
    omega

theorem get_of_run (d : Deque) (f : Block) (rest : List Block) (i : Nat)
    (h : Held d (f :: rest)) (hi : i < d.count_elem_) :
    d.get i = if i < f.size_ then f.Get i
      else (rest[(i - f.size_) / 128]?).bind
        (fun b => b.Get (i - f.size_ - (i - f.size_) / 128 * 128)) := by
  have hf : (f :: rest)[0]? = some f := by simp
  have hblk := h.layout.block_eq 0 f hf
  have hzero := Next_zero d d.begin_ h.layout.begin_lt
  rw [hzero] at hblk
  by_cases hlt : i < f.size_
  · simp only [get, FindLocalIndex, hblk, Block.Size, hlt, if_true]
  · rw [h.count] at hi
    simp only [List.map_cons, List.sum_cons] at hi
    have hsum := sum_sizes_le rest (fun b hb => by
      have := (h.wf b (List.mem_cons_of_mem _ hb)).1.bound
      rw [BlockSize_eq] at this
      omega)
    have hq : (i - f.size_) / 128 < rest.length := by omega
    have hcap := h.layout.size_le
    simp only [List.length_cons] at hcap
    have hrk : (f :: rest)[(i - f.size_) / 128 + 1]? = some (rest[(i - f.size_) / 128]) := by
      rw [List.getElem?_cons_succ, List.getElem?_eq_getElem hq]
    have hb2 := h.layout.block_eq _ _ hrk
    have e1 : 1 + (i - f.size_) / 128 = (i - f.size_) / 128 + 1 := by omega
    simp only [get, FindLocalIndex, hblk, Block.Size, hlt, if_false, BlockSize_eq]
    rw [Next_Next d d.begin_ 1 _ h.layout.begin_lt (by omega) (by omega), e1, hb2,
      List.getElem?_eq_getElem hq]
    rfl

theorem get_same_run (d d1 : Deque) (run : List Block) (i : Nat) (h : Held d run)
    (h1 : Held d1 run) (hi : i < d.count_elem_) : d1.get i = d.get i := by
  cases run with
  | nil =>
    have := h.count
    simp at this
    omega
  | cons f rest =>
    rw [get_of_run d f rest i h hi,
      get_of_run d1 f rest i h1 (by rw [h1.count, ← h.count]; exact hi)]

/-- C15. Directory growth preserves content: on every well-formed deque with
`size_ = capacity_`, `DoubleCapacity` is defined and yields twice the capacity,
`begin_ = 0`, the same `size_` and `count_elem_`, at every new slot `k` below the old
capacity the very block that was at the old slot `Next(begin_, k)`, a null slot at
every `k` from the old capacity on, and the same `operator[](i)` for every
`i < Size()`. -/
theorem C15_DoubleCapacity_preserves (d : Deque) (hwf : WellFormed d)
    (hfull : d.size_ = d.capacity_) :
    ∃ d1, d.DoubleCapacity = some d1 ∧ d1.capacity_ = 2 * d.capacity_ ∧ d1.begin_ = 0 ∧
      d1.size_ = d.size_ ∧ d1.count_elem_ = d.count_elem_ ∧
      d1.blocks_.length = 2 * d.capacity_ ∧
      (∀ k, k < d.capacity_ → d1.blocks_[k]? = d.blocks_[d.Next d.begin_ k]?) ∧
      (∀ k, d.capacity_ ≤ k → k < 2 * d.capacity_ → d1.blocks_[k]? = some none) ∧
      (∀ i, i < d.Size → d1.get i = d.get i) := by
  obtain ⟨run, hr⟩ := hwf.held_run
  obtain ⟨d1, e1, e2, e3, e4, e5, e6, e7⟩ :=
    SetCapacity_spec d run (d.capacity_ * 2) hr.layout (by omega)
  have hr1 : Held d1 run := ⟨e2, hr.wf, by rw [e6]; exact hr.count⟩
  refine ⟨d1, e1, by rw [e3]; omega, e4, e5, e6, by rw [e2.len, e3]; omega, ?_, ?_, ?_⟩
  · intro k hk
    rw [e7 k, if_pos hk]
  · intro k hk1 hk2
    rw [e7 k, if_neg (by omega), if_pos (by omega)]
  · intro i hi
    exact get_same_run d d1 run i hr hr1 hi

set_option maxRecDepth 100000 in
/-- C15 at `Deque(300)`, whose three slots are all occupied. -/
theorem C15_DoubleCapacity_preserves_witness :
    WellFormed sample300 ∧ sample300.size_ = sample300.capacity_ ∧
    ∃ d1, sample300.DoubleCapacity = some d1 ∧ d1.capacity_ = 2 * sample300.capacity_ ∧
      d1.begin_ = 0 ∧ d1.size_ = sample300.size_ ∧
      d1.count_elem_ = sample300.count_elem_ ∧
      d1.blocks_.length = 2 * sample300.capacity_ ∧
      (∀ k, k < sample300.capacity_ →
        d1.blocks_[k]? = sample300.blocks_[sample300.Next sample300.begin_ k]?) ∧
      (∀ k, sample300.capacity_ ≤ k → k < 2 * sample300.capacity_ →
        d1.blocks_[k]? = some none) ∧
      (∀ i, i < sample300.Size → d1.get i = sample300.get i) :=
  ⟨by decide, by decide, C15_DoubleCapacity_preserves sample300 (by decide) (by decide)⟩

theorem PopBack_capacity (d d1 : Deque) (h : d.PopBack = some d1) :
    d1.capacity_ = d.capacity_ := by
  simp only [PopBack] at h
  split at h
  · cases h
  · split at h <;> cases h <;> rfl

theorem PopFront_capacity (d d1 : Deque) (h : d.PopFront = some d1) :
    d1.capacity_ = d.capacity_ := by
  simp only [PopFront] at h
  split at h
  · cases h
  · split at h <;> cases h <;> rfl

theorem Clear.loop_capacity : ∀ (fuel : Nat) (d d1 : Deque),
    Clear.loop fuel d = some (some d1) → d1.capacity_ = d.capacity_ := by
  intro fuel
  induction fuel with
  | zero =>
    intro d d1 h
    simp only [Clear.loop] at h
    split at h
    · cases h
    · cases h
      rfl
  | succ fuel ih =>
    intro d d1 h
    rw [Clear.loop] at h
    split at h
    · cases hp : d.PopBack with
      | none =>
        rw [hp] at h
        cases h
      | some d2 =>
        rw [hp] at h
        rw [ih d2 d1 h, PopBack_capacity d d2 hp]
    · cases h
      rfl

theorem Held.needsBlockBack_eq {d : Deque} {run : List Block} (h : Held d run) :
    needsBlockBack d = true ↔
      (run = [] ∨ ∃ init l, run = init ++ [l] ∧ l.IsBackEmpty = false) := by
  rcases List.eq_nil_or_concat run with hnil | ⟨init, l, hrun⟩
  · have hs : d.size_ = 0 := by rw [h.layout.size_eq, hnil]; rfl
    simp [needsBlockBack, hs, hnil]
  · rw [List.concat_eq_append] at hrun
    have hs : d.size_ = init.length + 1 := by rw [h.layout.size_eq, hrun]; simp
    have hl : run[init.length]? = some l := by rw [hrun]; simp
    have hblk := h.layout.block_eq init.length l hl
    simp only [needsBlockBack, hs, Nat.add_one_ne_zero, decide_False, Bool.false_or,
      Nat.add_sub_cancel, hblk, Bool.not_eq_true', hrun]
    constructor
    · intro hb
      exact Or.inr ⟨init, l, rfl, hb⟩
    · rintro (hnil | ⟨init1, l1, e1, e2⟩)
      · simp at hnil
      · obtain ⟨_, e4⟩ := List.append_inj' e1 rfl
        simp only [List.cons.injEq, and_true] at e4
        rw [e4]
        exact e2

theorem Held.needsBlockFront_eq {d : Deque} {run : List Block} (h : Held d run) :
    needsBlockFront d = true ↔ (run = [] ∨ ∃ f rest, run = f :: rest ∧ f.IsFrontEmpty = false) := by
  cases run with
  | nil =>
    have hs : d.size_ = 0 := h.layout.size_eq
    simp [needsBlockFront, hs]
  | cons f rest =>
    have hs : d.size_ = rest.length + 1 := by simpa using h.layout.size_eq
    have hf : (f :: rest)[0]? = some f := by simp
    have hblk := h.layout.block_eq 0 f hf
    rw [Next_zero d d.begin_ h.layout.begin_lt] at hblk
    simp [needsBlockFront, hs, hblk]

/-- C16. Directory capacity only doubles, and only when full: on every well-formed
deque, `PopBack`, `PopFront` and `Clear` leave `capacity_` as it was; `PushBack` and
`PushFront` are defined and leave `capacity_` as it was unless a new block is needed
(no block, or no room in the end block) and `size_ = capacity_` beforehand, in which
case `capacity_` becomes exactly twice its old value; so `capacity_` never decreases,
and `size_ ≤ capacity_` holds before and after each operation. -/
theorem C16_capacity_only_doubles (d : Deque) (hwf : WellFormed d) :
    d.size_ ≤ d.capacity_ ∧
    (∀ d1, d.PopBack = some d1 → d1.capacity_ = d.capacity_) ∧
    (∀ d1, d.PopFront = some d1 → d1.capacity_ = d.capacity_) ∧
    (∀ fuel d1, Clear.loop fuel d = some (some d1) → d1.capacity_ = d.capacity_) ∧
    (0 < d.Size → (∃ d1, d.PopBack = some d1 ∧ d1.size_ ≤ d1.capacity_) ∧
      (∃ d1, d.PopFront = some d1 ∧ d1.size_ ≤ d1.capacity_)) ∧
    (∃ d1, (∀ fuel, d.Size ≤ fuel → Clear.loop fuel d = some (some d1)) ∧
      d1.size_ ≤ d1.capacity_) ∧
    (∀ v, ∃ d1, d.PushBack v = some d1 ∧
      d1.capacity_ = (if needsBlockBack d = true ∧ d.size_ = d.capacity_
        then 2 * d.capacity_ else d.capacity_) ∧
      d.capacity_ ≤ d1.capacity_ ∧ d1.size_ ≤ d1.capacity_) ∧
    (∀ v, ∃ d1, d.PushFront v = some d1 ∧
      d1.capacity_ = (if needsBlockFront d = true ∧ d.size_ = d.capacity_
        then 2 * d.capacity_ else d.capacity_) ∧
      d.capacity_ ≤ d1.capacity_ ∧ d1.size_ ≤ d1.capacity_) := by
  obtain ⟨run, hr⟩ := hwf.held_run
  have hle : d.size_ ≤ d.capacity_ := by rw [hr.layout.size_eq]; exact hr.layout.size_le
  have hsz : ∀ (d1 : Deque) (run1 : List Block), Held d1 run1 → d1.size_ ≤ d1.capacity_ := by
    intro d1 run1 h1
    rw [h1.layout.size_eq]
    exact h1.layout.size_le
  refine ⟨hle, PopBack_capacity d, PopFront_capacity d,
    fun fuel d1 h => Clear.loop_capacity fuel d d1 h, ?_, ?_, ?_, ?_⟩
  · intro hpos
    obtain ⟨d1, run1, e1, e2, _⟩ := PopBack_Held_Size d run hr hpos
    obtain ⟨d2, run2, f1, f2, _⟩ := PopFront_Held_Size d run hr hpos
    exact ⟨⟨d1, e1, hsz d1 run1 e2⟩, ⟨d2, f1, hsz d2 run2 f2⟩⟩
  · obtain ⟨d1, e1, e2, _⟩ := Clear.loop_Held d.Size d run hr (le_refl _)
    exact ⟨d1, fun fuel hfl => Clear.loop_le d.Size fuel d _ hfl e1, hsz d1 [] e2⟩
  · intro v
    obtain ⟨d1, run1, e1, e2, e3⟩ := PushBack_Held d run v hr
    have hnb := hr.needsBlockBack_eq
    rcases e3 with ⟨init, l, l1, g1, g2, _, _, _, _, g7, _⟩ | ⟨g1, b1, _, _, _, _, g6, _⟩
    · have hno : ¬ needsBlockBack d = true := by
        rw [hnb]
        rintro (hnil | ⟨init1, l2, k1, k2⟩)
        · rw [hnil] at g1
          simp at g1
        · rw [g1] at k1
          obtain ⟨_, k4⟩ := List.append_inj' k1 rfl
          simp only [List.cons.injEq, and_true] at k4
          rw [k4, k2] at g2
          cases g2
      refine ⟨d1, e1, ?_, by omega, hsz d1 run1 e2⟩
      rw [if_neg (fun hc => hno hc.1), g7]
    · have hyes : needsBlockBack d = true := hnb.mpr g1
      refine ⟨d1, e1, ?_, ?_, hsz d1 run1 e2⟩
      · rw [g6]
        by_cases hf : d.size_ < d.capacity_
        · rw [if_pos hf, if_neg (by omega)]
        · rw [if_neg hf, if_pos ⟨hyes, by omega⟩]
          omega
      · rw [g6]
        split_ifs <;> omega
  · intro v
    obtain ⟨d1, run1, e1, e2, e3⟩ := PushFront_Held d run v hr
    have hnb := hr.needsBlockFront_eq
    rcases e3 with ⟨f, rest, f1, g1, g2, _, _, _, _, g7, _⟩ |
      ⟨g1, b1, _, _, _, _, g6, _⟩ | ⟨g1, b1, _, _, _, _, g6, _⟩
    · have hno : ¬ needsBlockFront d = true := by
        rw [hnb]
        rintro (hnil | ⟨f2, rest2, k1, k2⟩)
        · rw [hnil] at g1
          cases g1
        · rw [g1] at k1
          cases k1
          rw [k2] at g2
          cases g2
      refine ⟨d1, e1, ?_, by omega, hsz d1 run1 e2⟩
      rw [if_neg (fun hc => hno hc.1), g7]
    · have hs0 : d.size_ = 0 := by rw [hr.layout.size_eq, g1]; rfl
      have hcap := hr.layout.begin_lt
      refine ⟨d1, e1, ?_, by omega, hsz d1 run1 e2⟩
      rw [if_neg (fun hc => by omega), g6]
    · have hyes : needsBlockFront d = true := hnb.mpr (Or.inr g1)
      refine ⟨d1, e1, ?_, ?_, hsz d1 run1 e2⟩
      · rw [g6]
        by_cases hf : d.size_ < d.capacity_
        · rw [if_pos hf, if_neg (by omega)]
        · rw [if_neg hf, if_pos ⟨hyes, by omega⟩]
          omega
      · rw [g6]
        split_ifs <;> omega

set_option maxRecDepth 100000 in
/-- C16 at `Deque(300)`, whose directory is full and whose last block has room: a
`PushBack` keeps the capacity 3 and a `PushFront` doubles it to 6. -/
theorem C16_capacity_only_doubles_witness :
    WellFormed sample300 ∧
    (∃ d1, sample300.PushBack 5 = some d1 ∧ d1.capacity_ = 3) ∧
    (∃ d1, sample300.PushFront 5 = some d1 ∧ d1.capacity_ = 6) :=
  ⟨by decide,
   ((C16_capacity_only_doubles sample300 (by decide)).2.2.2.2.2.2.1 5).elim
     (fun d1 h => ⟨d1, h.1, h.2.1.trans (by decide)⟩),
   ((C16_capacity_only_doubles sample300 (by decide)).2.2.2.2.2.2.2 5).elim
     (fun d1 h => ⟨d1, h.1, h.2.1.trans (by decide)⟩)⟩

set_option maxRecDepth 100000 in
/-- C17, as stated, fails when the deque has no block: on the well-formed empty deque
with two slots and `begin_ = 0`, `PushFront(5)` creates the block (through
`PushBlockBack`) at slot `begin_ = 0` and leaves `begin_ = 0`, whereas
`Prev(0) = 1`; the directory does not grow. -/
theorem C17_front_block_counterexample :
    WellFormed sampleDrained ∧ needsBlockFront sampleDrained = true ∧
    (sampleDrained.PushFront 5).map
        (fun d1 => (d1.capacity_, d1.begin_, d1.Prev sampleDrained.begin_ 1,
          (d1.block 0).map Block.toList, d1.block 1))
      = some (2, 0, 1, some [5], none) :=
  ⟨by decide, by decide, by rfl⟩

/-- C17, amended. On every well-formed deque on which `PushFront` needs a new block,
the call is defined and afterwards the block at slot `begin_` holds the pushed value
as its sole element.  When the first occupied block had no front room, the block was
placed immediately before the begin slot: `begin_ = Prev(b)`, where `b` is 0 if the
directory was full (and so grew) and the old `begin_` otherwise.  When the deque had no
block, the block was placed at slot `begin_` itself and `begin_` is unchanged. -/
theorem C17_new_front_block (d : Deque) (v : Int) (hwf : WellFormed d)
    (hneed : needsBlockFront d = true) :
    ∃ d1 b1, d.PushFront v = some d1 ∧ d1.block d1.begin_ = some b1 ∧ b1.Size = 1 ∧
      b1.Get 0 = some v ∧
      (0 < d.size_ → d1.begin_ = d1.Prev (if d.size_ = d.capacity_ then 0 else d.begin_) 1) ∧
      (d.size_ = 0 → d1.begin_ = d.begin_ ∧ d1.capacity_ = d.capacity_) := by
  obtain ⟨run, hr⟩ := hwf.held_run
  have hle : d.size_ ≤ d.capacity_ := by rw [hr.layout.size_eq]; exact hr.layout.size_le
  obtain ⟨d1, run1, e1, e2, e3⟩ := PushFront_Held d run v hr
  have hfirst : ∀ (b1 : Block) (tl : List Block), run1 = b1 :: tl → b1.size_ = 1 →
      b1.toList = [v] → d1.block d1.begin_ = some b1 ∧ b1.Size = 1 ∧ b1.Get 0 = some v := by
    intro b1 tl hrun hs ht
    have hb := e2.layout.block_eq 0 b1 (by rw [hrun]; simp)
    rw [Next_zero d1 d1.begin_ e2.layout.begin_lt] at hb
    refine ⟨hb, hs, ?_⟩
    rw [Block.Get_eq b1 0 (by omega), ht]
    rfl
  rcases e3 with ⟨f, rest, f1, g1, g2, _⟩ | ⟨g1, b1, g2, g3, _, g5, g6, g7⟩ |
      ⟨g1, b1, g2, g3, _, g5, g6, g7⟩
  · have hno : ¬ needsBlockFront d = true := by
      rw [hr.needsBlockFront_eq]
      rintro (hnil | ⟨f2, rest2, k1, k2⟩)
      · rw [hnil] at g1
        cases g1
      · rw [g1] at k1
        cases k1
        rw [k2] at g2
        cases g2
    exact absurd hneed hno
  · have hs0 : d.size_ = 0 := by rw [hr.layout.size_eq, g1]; rfl
    obtain ⟨h1, h2, h3⟩ := hfirst b1 [] g2 g3 g5
    exact ⟨d1, b1, e1, h1, h2, h3, fun hp => by omega, fun _ => ⟨g7, g6⟩⟩
  · obtain ⟨f, rest, k1, _⟩ := g1
    have hs1 : d.size_ = rest.length + 1 := by rw [hr.layout.size_eq, k1]; simp
    obtain ⟨h1, h2, h3⟩ := hfirst b1 run g2 g3 g5
    refine ⟨d1, b1, e1, h1, h2, h3, fun _ => ?_, fun h0 => by omega⟩
    rw [g7]
    by_cases hf : d.size_ < d.capacity_
    · rw [if_pos hf, if_neg (by omega)]
    · rw [if_neg hf, if_pos (by omega)]

set_option maxRecDepth 100000 in
/-- C17, amended, at `Deque(300)`, whose first block starts at cell 0 and whose
directory is full: the new block is at slot `Prev(0) = 5` of the grown directory. -/
theorem C17_new_front_block_witness :
    WellFormed sample300 ∧ needsBlockFront sample300 = true ∧
    ∃ d1 b1, sample300.PushFront 5 = some d1 ∧ d1.block d1.begin_ = some b1 ∧
      b1.Size = 1 ∧ b1.Get 0 = some 5 ∧ d1.begin_ = d1.Prev 0 1 :=
  ⟨by decide, by decide,
   (C17_new_front_block sample300 5 (by decide) (by decide)).elim
     (fun d1 h => h.elim (fun b1 hb =>
       ⟨d1, b1, hb.1, hb.2.1, hb.2.2.1, hb.2.2.2.1, hb.2.2.2.2.1 (by decide)⟩))⟩

/-! ## Blocks of any capacity -/

theorem Block.toList_length_gen (b : Block) (hlen : b.ptr_.length = b.max_size_)
    (hbound : b.begin_ + b.size_ ≤ b.max_size_) : b.toList.length = b.size_ := by
  simp only [Block.toList, List.length_take, List.length_drop]
  omega

theorem Block.PushBack_gen (b : Block) (v : Int) (hlen : b.ptr_.length = b.max_size_)
    (hbound : b.begin_ + b.size_ ≤ b.max_size_) (hroom : b.IsBackEmpty = true) :
    ∃ b1, b.PushBack v = some b1 ∧ b1.toList = b.toList ++ [v] ∧
      b1.ptr_ = b.ptr_.set ((if b.size_ = 0 then 0 else b.begin_) + b.size_) v ∧
      b1.begin_ = (if b.size_ = 0 then 0 else b.begin_) ∧ b1.size_ = b.size_ + 1 ∧
      b1.max_size_ = b.max_size_ ∧ b1.begin_ + b1.size_ ≤ b1.max_size_ := by
  simp only [Block.IsBackEmpty, decide_eq_true_eq] at hroom
  have hl := Block.toList_length_gen b hlen hbound
  have hin : (if b.size_ = 0 then 0 else b.begin_) + b.size_ < b.ptr_.length := by
    split_ifs <;> omega
  refine ⟨{ b with begin_ := if b.size_ = 0 then 0 else b.begin_,
                   ptr_ := b.ptr_.set ((if b.size_ = 0 then 0 else b.begin_) + b.size_) v,
                   size_ := b.size_ + 1 }, ?_, ?_, rfl, rfl, rfl, rfl, ?_⟩
  · simp only [Block.PushBack]
    rw [if_pos hin]
  · apply List.ext_getElem?
    intro n
    simp only [Block.toList_getElem?, List.getElem?_append, hl, List.getElem?_set]
    by_cases hs : b.size_ = 0
    · simp only [hs, if_true, Nat.zero_add, Nat.add_zero, Nat.not_lt_zero, if_false]
      cases n with
      | zero =>
        have : 0 < b.ptr_.length := by omega
        simp [this]
      | succ m => simp
    · simp only [hs, if_false]
      by_cases hn : n < b.size_
      · have e1 : n < b.size_ + 1 := by omega
        have e2 : ¬ b.begin_ + b.size_ = b.begin_ + n := by omega
        simp [hn, e1, e2]
      · by_cases hn2 : n = b.size_
        · subst hn2
          have e3 : b.begin_ + b.size_ < b.ptr_.length := by omega
          simp [e3]
        · have e1 : ¬ n < b.size_ + 1 := by omega
          simp only [hn, e1, if_false]
          cases hk : n - b.size_ with
          | zero => omega
          | succ m => simp
  · show (if b.size_ = 0 then 0 else b.begin_) + (b.size_ + 1) ≤ b.max_size_
    split_ifs <;> omega

theorem Block.PushFront_gen (b : Block) (v : Int) (hlen : b.ptr_.length = b.max_size_)
    (hbound : b.begin_ + b.size_ ≤ b.max_size_) (hmax : 0 < b.max_size_)
    (hroom : b.IsFrontEmpty = true) :
    ∃ b1, b.PushFront v = some b1 ∧ b1.toList = v :: b.toList ∧
      b1.ptr_ = b.ptr_.set ((if b.size_ = 0 then b.max_size_ else b.begin_) - 1) v ∧
      b1.begin_ = (if b.size_ = 0 then b.max_size_ else b.begin_) - 1 ∧
      b1.size_ = b.size_ + 1 ∧ b1.max_size_ = b.max_size_ ∧
      b1.begin_ + b1.size_ ≤ b1.max_size_ := by
  simp only [Block.IsFrontEmpty, Bool.or_eq_true, decide_eq_true_eq] at hroom
  have hpos : 0 < (if b.size_ = 0 then b.max_size_ else b.begin_) := by
    split_ifs <;> omega
  have hw := wsub_one_pos _ hpos
  have hin : (if b.size_ = 0 then b.max_size_ else b.begin_) - 1 < b.ptr_.length := by
    split_ifs <;> omega
  refine ⟨{ b with ptr_ := b.ptr_.set ((if b.size_ = 0 then b.max_size_ else b.begin_) - 1) v,
                   size_ := b.size_ + 1,
                   begin_ := (if b.size_ = 0 then b.max_size_ else b.begin_) - 1 },
    ?_, ?_, rfl, rfl, rfl, rfl, ?_⟩
  · simp only [Block.PushFront, hw]
    rw [if_pos hin]
  · apply List.ext_getElem?
    intro n
    cases n with
    | zero =>
      simp only [Block.toList_getElem?, Nat.add_zero, List.getElem?_cons_zero]
      rw [if_pos (by omega), List.getElem?_set_self hin]
    | succ m =>
      simp only [Block.toList_getElem?, List.getElem?_cons_succ, List.getElem?_set]
      by_cases hs : b.size_ = 0
      · simp [hs]
      · have hb : 0 < b.begin_ := by omega
        simp only [hs, if_false]
        have e1 : b.begin_ - 1 + (m + 1) = b.begin_ + m := by omega
        have e2 : ¬ b.begin_ - 1 = b.begin_ + m := by omega
        rw [e1, if_neg e2]
        by_cases hm : m < b.size_
        · rw [if_pos hm, if_pos (by omega)]
        · rw [if_neg hm, if_neg (by omega)]
  · show (if b.size_ = 0 then b.max_size_ else b.begin_) - 1 + (b.size_ + 1) ≤ b.max_size_
    split_ifs <;> omega

theorem Block.PopBack_gen (b : Block) (hlen : b.ptr_.length = b.max_size_)
    (hbound : b.begin_ + b.size_ ≤ b.max_size_) (hpos : 0 < b.size_) :
    b.PopBack.toList = b.toList.dropLast ∧ b.PopBack.ptr_ = b.ptr_ ∧
      b.PopBack.begin_ = b.begin_ ∧ b.PopBack.size_ = b.size_ - 1 ∧
      b.PopBack.max_size_ = b.max_size_ ∧
      b.PopBack.begin_ + b.PopBack.size_ ≤ b.PopBack.max_size_ := by
  have hw : wsub b.size_ 1 = b.size_ - 1 := wsub_one_pos _ hpos
  have hl := Block.toList_length_gen b hlen hbound
  refine ⟨?_, rfl, rfl, by simp [Block.PopBack, hw], rfl, by simp [Block.PopBack, hw]; omega⟩
  apply List.ext_getElem?
  intro n
  simp only [List.getElem?_dropLast, hl, Block.toList_getElem?]
  simp only [Block.PopBack, hw]
  by_cases hn : n < b.size_ - 1
  · have : n < b.size_ := by omega
    simp [hn, this]
  · simp [hn]

theorem Block.PopFront_gen (b : Block) (_hlen : b.ptr_.length = b.max_size_)
    (hbound : b.begin_ + b.size_ ≤ b.max_size_) (hpos : 0 < b.size_) :
    b.PopFront.toList = b.toList.tail ∧ b.PopFront.ptr_ = b.ptr_ ∧
      b.PopFront.begin_ = b.begin_ + 1 ∧ b.PopFront.size_ = b.size_ - 1 ∧
      b.PopFront.max_size_ = b.max_size_ ∧
      b.PopFront.begin_ + b.PopFront.size_ ≤ b.PopFront.max_size_ := by
  have hw : wsub b.size_ 1 = b.size_ - 1 := wsub_one_pos _ hpos
  refine ⟨?_, rfl, rfl, by simp [Block.PopFront, hw], rfl,
    by simp [Block.PopFront, hw]; omega⟩
  apply List.ext_getElem?
  intro n
  simp only [List.getElem?_tail, Block.toList_getElem?]
  simp only [Block.PopFront, hw]
  have e : b.begin_ + 1 + n = b.begin_ + (n + 1) := by omega
  rw [e]
  by_cases hn : n < b.size_ - 1
  · have : n + 1 < b.size_ := by omega
    simp [hn, this]
  · have : ¬ n + 1 < b.size_ := by omega
    simp [hn, this]

/-- C18, as stated, fails on a block of capacity 0: `Block(0)` satisfies
`begin_ + size_ ≤ max_size_` and `IsFrontEmpty()`, and `PushFront` writes at
`ptr_[0 - 1]`, outside its empty array. -/
theorem C18_Block_counterexample :
    (Block.ctor 0).ptr_.length = (Block.ctor 0).max_size_ ∧
    (Block.ctor 0).begin_ + (Block.ctor 0).size_ ≤ (Block.ctor 0).max_size_ ∧
    (Block.ctor 0).IsFrontEmpty = true ∧ (Block.ctor 0).PushFront 5 = none :=
  ⟨by decide, by decide, by decide, by decide⟩

/-- C18, amended. A block behaves as a bounded list: for every block whose array has
its `max_size_` cells and with `begin_ + size_ ≤ max_size_`, the logical content
`[Get(0), ..., Get(size_ - 1)]` has `size_` elements; `PushBack(v)` under
`IsBackEmpty()` appends `v`, writing at `begin_ + size_` after resetting `begin_` to 0
if the block was empty; `PushFront(v)` under `IsFrontEmpty()` and `max_size_ > 0`
prepends `v`, writing at `begin_ - 1` after resetting `begin_` to `max_size_` if the
block was empty; `PopBack` and `PopFront` under `size_ > 0` drop the last and the first
element; the other elements keep their values and order, and
`begin_ + size_ ≤ max_size_` holds afterwards. -/
theorem C18_Block_bounded_list (b : Block) (v : Int) (hlen : b.ptr_.length = b.max_size_)
    (hbound : b.begin_ + b.size_ ≤ b.max_size_) :
    b.toList.length = b.size_ ∧ (∀ n, n < b.size_ → b.Get n = b.toList[n]?) ∧
    (b.IsBackEmpty = true →
      ∃ b1, b.PushBack v = some b1 ∧ b1.toList = b.toList ++ [v] ∧
        b1.ptr_ = b.ptr_.set ((if b.size_ = 0 then 0 else b.begin_) + b.size_) v ∧
        b1.begin_ = (if b.size_ = 0 then 0 else b.begin_) ∧ b1.size_ = b.size_ + 1 ∧
        b1.max_size_ = b.max_size_ ∧ b1.begin_ + b1.size_ ≤ b1.max_size_) ∧
    (b.IsFrontEmpty = true → 0 < b.max_size_ →
      ∃ b1, b.PushFront v = some b1 ∧ b1.toList = v :: b.toList ∧
        b1.ptr_ = b.ptr_.set ((if b.size_ = 0 then b.max_size_ else b.begin_) - 1) v ∧
        b1.begin_ = (if b.size_ = 0 then b.max_size_ else b.begin_) - 1 ∧
        b1.size_ = b.size_ + 1 ∧ b1.max_size_ = b.max_size_ ∧
        b1.begin_ + b1.size_ ≤ b1.max_size_) ∧
    (0 < b.size_ →
      b.PopBack.toList = b.toList.dropLast ∧ b.PopBack.ptr_ = b.ptr_ ∧
        b.PopBack.begin_ = b.begin_ ∧ b.PopBack.size_ = b.size_ - 1 ∧
        b.PopBack.max_size_ = b.max_size_ ∧
        b.PopBack.begin_ + b.PopBack.size_ ≤ b.PopBack.max_size_) ∧
    (0 < b.size_ →
      b.PopFront.toList = b.toList.tail ∧ b.PopFront.ptr_ = b.ptr_ ∧
        b.PopFront.begin_ = b.begin_ + 1 ∧ b.PopFront.size_ = b.size_ - 1 ∧
        b.PopFront.max_size_ = b.max_size_ ∧
        b.PopFront.begin_ + b.PopFront.size_ ≤ b.PopFront.max_size_) :=
  ⟨Block.toList_length_gen b hlen hbound, fun n hn => Block.Get_eq b n hn,
   fun hroom => Block.PushBack_gen b v hlen hbound hroom,
   fun hroom hmax => Block.PushFront_gen b v hlen hbound hmax hroom,
   fun hpos => Block.PopBack_gen b hlen hbound hpos,
   fun hpos => Block.PopFront_gen b hlen hbound hpos⟩

/-- C18, amended, at the block of capacity 4 that holds 2 and 3 in its cells 1 and 2:
it has room at both ends. -/
theorem C18_Block_bounded_list_witness :
    ({ begin_ := 1, size_ := 2, max_size_ := 4, ptr_ := [0, 2, 3, 0] } : Block).toList = [2, 3] ∧
    (∃ b1, ({ begin_ := 1, size_ := 2, max_size_ := 4, ptr_ := [0, 2, 3, 0] } : Block).PushBack 9
        = some b1 ∧ b1.toList = [2, 3, 9]) ∧
    (∃ b1, ({ begin_ := 1, size_ := 2, max_size_ := 4, ptr_ := [0, 2, 3, 0] } : Block).PushFront 9
        = some b1 ∧ b1.toList = [9, 2, 3]) ∧
    ({ begin_ := 1, size_ := 2, max_size_ := 4, ptr_ := [0, 2, 3, 0] } : Block).PopBack.toList
      = [2] ∧
    ({ begin_ := 1, size_ := 2, max_size_ := 4, ptr_ := [0, 2, 3, 0] } : Block).PopFront.toList
      = [3] :=
  ⟨by decide,
   ((C18_Block_bounded_list { begin_ := 1, size_ := 2, max_size_ := 4, ptr_ := [0, 2, 3, 0] } 9
      (by decide) (by decide)).2.2.1 (by decide)).elim (fun b1 h => ⟨b1, h.1, h.2.1⟩),
   ((C18_Block_bounded_list { begin_ := 1, size_ := 2, max_size_ := 4, ptr_ := [0, 2, 3, 0] } 9
      (by decide) (by decide)).2.2.2.1 (by decide) (by decide)).elim
        (fun b1 h => ⟨b1, h.1, h.2.1⟩),
   ((C18_Block_bounded_list { begin_ := 1, size_ := 2, max_size_ := 4, ptr_ := [0, 2, 3, 0] } 9
      (by decide) (by decide)).2.2.2.2.1 (by decide)).1,
   ((C18_Block_bounded_list { begin_ := 1, size_ := 2, max_size_ := 4, ptr_ := [0, 2, 3, 0] } 9
      (by decide) (by decide)).2.2.2.2.2 (by decide)).1⟩

/-! ## The number of directory growths under `PushBack` -/

theorem two_pow_pred (e : Nat) (h : 0 < e) : 2 ^ e = 2 * 2 ^ (e - 1) := by
  cases e with
  | zero => omega
  | succ n =>
    simp only [Nat.add_sub_cancel, Nat.pow_succ]
    omega

theorem BackFilled.push_step {d : Deque} {run : List Block} {e : Nat} (h : BackFilled d run e)
    (v : Int) :
    ∃ d1 run1 e1, d.PushBack v = some d1 ∧ BackFilled d1 run1 e1 ∧
      e1 = e + (if d1.capacity_ = d.capacity_ then 0 else 1) ∧
      d1.count_elem_ = d.count_elem_ + 1 := by
  obtain ⟨d1, run1, e1, e2, e3⟩ := PushBack_Held d run v h.held
  have hcap := h.held.layout.begin_lt
  have hle := h.held.layout.size_le
  have hsz := h.held.layout.size_eq
  rcases e3 with ⟨init, l, l1, g1, g2, g3, g4, g5, _, g7, _⟩ | ⟨g1, b1, g2, g3, g4, _, g6, _⟩
  · refine ⟨d1, run1, e, e1, ⟨e2, ?_, ?_, by rw [g7]; exact h.cap, ?_⟩,
      by rw [if_pos g7]; rfl, ?_⟩
    · intro b hb
      rw [g3] at hb
      rcases List.mem_append.mp hb with hb | hb
      · exact h.begin0 b (by rw [g1]; exact List.mem_append_left _ hb)
      · simp only [List.mem_singleton] at hb
        subst hb
        rw [g5]
        exact h.begin0 l (by rw [g1]; simp)
    · intro b hb
      rw [g3, List.dropLast_concat] at hb
      exact h.full b (by rw [g1, List.dropLast_concat]; exact hb)
    · rcases h.half with h0 | h1
      · exact Or.inl h0
      · refine Or.inr ?_
        rw [g3]
        rw [g1] at h1
        simpa using h1
    · rw [e2.count, h.held.count, g3, g1, sum_sizes_append, sum_sizes_append]
      simp [g4]
      omega
  · have hfull : ∀ b ∈ run, b.size_ = 128 := by
      rcases g1 with hnil | ⟨init, l, k1, k2⟩
      · intro b hb
        rw [hnil] at hb
        cases hb
      · intro b hb
        rw [k1] at hb
        rcases List.mem_append.mp hb with hb | hb
        · exact h.full b (by rw [k1, List.dropLast_concat]; exact hb)
        · simp only [List.mem_singleton] at hb
          subst hb
          have hw := (h.held.wf b (by rw [k1]; simp)).1
          have hb0 := h.begin0 b (by rw [k1]; simp)
          have h1 := hw.bound
          have h2 := hw.max
          rw [BlockSize_eq] at h1 h2
          have : ¬ (b.begin_ + b.size_ < b.max_size_) := by
            intro hc
            have : b.IsBackEmpty = true := by simp [Block.IsBackEmpty, hc]
            rw [k2] at this
            cases this
          omega
    have hcnt : d1.count_elem_ = d.count_elem_ + 1 := by
      rw [e2.count, h.held.count, g2, sum_sizes_append]
      simp [g3]
    have hb1 : ∀ b ∈ run1, b.begin_ = 0 := by
      intro b hb
      rw [g2] at hb
      rcases List.mem_append.mp hb with hb | hb
      · exact h.begin0 b hb
      · simp only [List.mem_singleton] at hb
        subst hb
        exact g4
    have hf1 : ∀ b ∈ run1.dropLast, b.size_ = 128 := by
      intro b hb
      rw [g2, List.dropLast_concat] at hb
      exact hfull b hb
    have hlen1 : run1.length = run.length + 1 := by rw [g2]; simp
    by_cases hf : d.size_ < d.capacity_
    · rw [if_pos hf] at g6
      refine ⟨d1, run1, e, e1, ⟨e2, hb1, hf1, by rw [g6]; exact h.cap, ?_⟩,
        by rw [if_pos g6]; rfl, hcnt⟩
      rcases h.half with h0 | h1
      · exact Or.inl h0
      · exact Or.inr (by omega)
    · rw [if_neg hf] at g6
      have hne : ¬ d1.capacity_ = d.capacity_ := by omega
      refine ⟨d1, run1, e + 1, e1, ⟨e2, hb1, hf1, ?_, Or.inr ?_⟩, by rw [if_neg hne], hcnt⟩
      · rw [g6, h.cap, Nat.pow_succ]
      · have := h.cap
        simp only [Nat.add_sub_cancel]
        omega

theorem BackFilled.trace : ∀ (vs : List Int) (d : Deque) (run : List Block) (e : Nat),
    BackFilled d run e →
    ∃ tr dl run1 e1, runTrace (vs.map Op.PushBack) d = some tr ∧
      (d :: tr).getLast? = some dl ∧ BackFilled dl run1 e1 ∧
      e1 = e + growths d.capacity_ tr ∧ dl.count_elem_ = d.count_elem_ + vs.length ∧
      (vs ≠ [] → tr.getLast? = some dl) := by
  intro vs
  induction vs with
  | nil =>
    intro d run e h
    exact ⟨[], d, run, e, rfl, rfl, h, rfl, rfl, fun hc => absurd rfl hc⟩
  | cons v rest ih =>
    intro d run e h
    obtain ⟨d1, run1, e1, a1, a2, a3, a4⟩ := h.push_step v
    obtain ⟨tr, dl, run2, e2, b1, b2, b3, b4, b5, _⟩ := ih d1 run1 e1 a2
    have hlast : (d :: d1 :: tr).getLast? = some dl := by
      rw [List.getLast?_cons_cons]
      exact b2
    refine ⟨d1 :: tr, dl, run2, e2, ?_, hlast, b3, ?_, ?_, fun _ => b2⟩
    · simp only [List.map_cons, runTrace, apply, a1, b1]
    · rw [b4, a3]
      simp only [growths]
      omega
    · rw [b5, a4]
      simp only [List.length_cons]
      omega

theorem sum_sizes_full : ∀ (init : List Block), (∀ b ∈ init, b.size_ = 128) →
    (init.map Block.size_).sum = 128 * init.length := by
  intro init
  induction init with
  | nil => intro _; rfl
  | cons a as ih =>
    intro h
    have h1 := h a (by simp)
    have h2 := ih (fun b hb => h b (List.mem_cons_of_mem _ hb))
    simp only [List.map_cons, List.sum_cons, List.length_cons]
    omega

theorem BackFilled.size_eq {d : Deque} {run : List Block} {e : Nat} (h : BackFilled d run e) :
    d.size_ = (d.count_elem_ + 127) / 128 := by
  rw [h.held.layout.size_eq, h.held.count]
  rcases List.eq_nil_or_concat run with hnil | ⟨init, l, hrun⟩
  · rw [hnil]
    rfl
  · rw [List.concat_eq_append] at hrun
    have hfull := h.full
    rw [hrun, List.dropLast_concat] at hfull
    have hl := h.held.wf l (by rw [hrun]; simp)
    have hb := hl.1.bound
    rw [BlockSize_eq] at hb
    rw [hrun, sum_sizes_append, sum_sizes_full init hfull]
    simp only [List.map_cons, List.map_nil, List.sum_cons, List.sum_nil, Nat.add_zero,
      List.length_append, List.length_singleton]
    omega

theorem BackFilled.least {d : Deque} {run : List Block} {e : Nat} (h : BackFilled d run e) :
    d.size_ ≤ 2 ^ e ∧ (∀ e1, d.size_ ≤ 2 ^ e1 → e ≤ e1) ∧ e = Nat.clog 2 d.size_ := by
  have hsz := h.held.layout.size_eq
  have hle := h.held.layout.size_le
  have hcap := h.cap
  have h1 : d.size_ ≤ 2 ^ e := by omega
  have h2 : ∀ e1, d.size_ ≤ 2 ^ e1 → e ≤ e1 := by
    intro e1 hd
    rcases h.half with h0 | hh
    · omega
    · by_contra hlt
      have hpow : 2 ^ e1 ≤ 2 ^ (e - 1) := Nat.pow_le_pow_right (by omega) (by omega)
      omega
  refine ⟨h1, h2, ?_⟩
  apply Nat.le_antisymm
  · exact h2 _ (Nat.le_pow_clog (by omega) _)
  · exact (Nat.le_pow_iff_clog_le (by omega)).mp h1

/-- C19. Number of directory growths: for every `N ≥ 1`, the `N` calls of `PushBack`
on a default-constructed deque are defined and leave `size_ = ceil(N / BlockSize)`
slots occupied and `capacity_` the least power of two that is at least `size_`,
`2 ^ e` with `e = ceil(log2(size_))`; `capacity_` changed in exactly `e` of the `N`
calls, that is, `DoubleCapacity` was called exactly `e` times. -/
theorem C19_growth_count (vs : List Int) (hN : 1 ≤ vs.length) :
    ∃ d0 tr d e, ctor = some d0 ∧ runTrace (vs.map Op.PushBack) d0 = some tr ∧
      tr.getLast? = some d ∧ tr.length = vs.length ∧
      d.size_ = (vs.length + BlockSize - 1) / BlockSize ∧
      d.capacity_ = 2 ^ e ∧ d.size_ ≤ 2 ^ e ∧ (∀ e1, d.size_ ≤ 2 ^ e1 → e ≤ e1) ∧
      e = Nat.clog 2 d.size_ ∧ growths d0.capacity_ tr = e := by
  have h0 : BackFilled
      { size_ := 0, begin_ := 0, capacity_ := MinCapacity, count_elem_ := 0,
        blocks_ := List.replicate MinCapacity none } [] 0 :=
    ⟨(Rep_fresh MinCapacity (by decide)).to_Held, by simp, by simp, rfl, Or.inl rfl⟩
  obtain ⟨tr, dl, run1, e1, b1, _, b3, b4, b5, b6⟩ := BackFilled.trace vs _ [] 0 h0
  have hne : vs ≠ [] := by
    intro hnil
    rw [hnil] at hN
    simp at hN
  have hlen : ∀ (ws : List Int) (d : Deque) (t : List Deque),
      runTrace (ws.map Op.PushBack) d = some t → t.length = ws.length := by
    intro ws
    induction ws with
    | nil =>
      intro d t ht
      simp only [List.map_nil, runTrace, Option.some.injEq] at ht
      rw [← ht]
      rfl
    | cons w rest ih =>
      intro d t ht
      simp only [List.map_cons, runTrace] at ht
      split at ht
      · cases ht
      · rename_i d1 _
        split at ht
        · cases ht
        · rename_i t1 ht1
          cases ht
          simp [ih d1 t1 ht1]
  obtain ⟨l1, l2, l3⟩ := b3.least
  refine ⟨_, tr, dl, e1, SetCapacity_init _, b1, b6 hne, hlen vs _ tr b1, ?_, b3.cap, l1, l2, l3,
    ?_⟩
  · rw [b3.size_eq, b5, BlockSize_eq]
    simp only [Nat.zero_add]
    rfl
  · rw [b4]
    simp

/-- C19 at `N = 1280 = 10 * BlockSize`: 10 slots are occupied, the capacity is 16, and
the directory grew 4 times. -/
theorem C19_growth_count_witness :
    1 ≤ (List.replicate 1280 (0 : Int)).length ∧
    ∃ d0 tr d, ctor = some d0 ∧
      runTrace ((List.replicate 1280 (0 : Int)).map Op.PushBack) d0 = some tr ∧
      tr.getLast? = some d ∧ d.size_ = 10 ∧ d.capacity_ = 16 ∧
      growths d0.capacity_ tr = 4 := by
  refine ⟨by rw [List.length_replicate]; omega, ?_⟩
  obtain ⟨d0, tr, d, e, h1, h2, h3, _, h5, h6, h7, h8, _, h10⟩ :=
    C19_growth_count (List.replicate 1280 0) (by rw [List.length_replicate]; omega)
  have hs : d.size_ = 10 := by
    rw [h5, BlockSize_eq, List.length_replicate]
  rw [hs] at h7 h8
  have he4 : e ≤ 4 := h8 4 (by decide)
  have he : e = 4 := by
    interval_cases e <;> omega
  subst he
  exact ⟨d0, tr, d, h1, h2, h3, hs, h6, h10⟩

end Deque
